import Mathlib

/-!
wpi2svg: the WPI stream decoder and the stroke renderer.

A shallow embedding of `main.go`: the model `Stroke` / `Layer` / `Canvas`,
the tagged-block loop of `ReadLayers` and the segment loop of
`AddLayersToSVG`.

Conventions of the embedding.

* A byte is a `Fin 256`. `int16` values are integers reduced by `wrap16`,
  `uint64` counters are naturals reduced modulo `2^64`, `uint8` lengths are
  reduced modulo `256`.
* The `bufio.Reader` is a finite list of events: a byte, a byte that is the
  first of a new fill of the buffer, or a read of the file that fails with an
  error other than end-of-stream. The end of the list is the end of the
  stream, reported as `io.EOF` by every read that finds nothing before it.
  `r.Read(p)` copies from the buffer and never goes past its end: it is short
  in front of a new fill, of a failure and of the end of the stream, and the
  decoder does not look at the count. `r.ReadByte()` is never short. A read of
  no byte takes nothing and reports no error.
* `fileReader bs` is the reader that `main` makes for a regular file: the
  buffer has `BUFLEN` bytes (10 MiB) and ends after every `BUFLEN` bytes of the
  file. A file of at most `BUFLEN` bytes is read with no end of the buffer
  inside it (`ofBytes bs`).
* A failure is one event for every read that meets it: a file whose reads keep
  failing is a run of `fail` events as long as the number of reads looked at.
* An index out of range is the outcome `panic`.
* The floating point derivation of a segment's style is a parameter of the
  renderer; the integers it is computed from are part of the model. The
  derivation itself (`segmentStyle`) is written over an ordered field that
  stands for `float64`, with `math.Sqrt` as a parameter: its arithmetic is
  exact. The width that reaches the output is the number that
  `fmt.Sprintf("%.2f", width)` writes, counted in hundredths.
-/

namespace Wpi2svg

/-! ## Machine integers -/

abbrev Byte := Fin 256

/-- Reduction of an integer into the `int16` range `[-32768, 32767]`. -/
def wrap16 (n : Int) : Int := (n + 32768) % 65536 - 32768

/-- Reduction of an integer into the `int` (64 bit) range. -/
def wrap64 (n : Int) : Int := (n + 9223372036854775808) % 18446744073709551616 - 9223372036854775808

/-- The `uint64` increment `n++` (modulo `2^64`). -/
def uinc64 (n : Nat) : Nat := (n + 1) % 18446744073709551616

/-- The `uint64` expression `n - 1`, which wraps to `2^64 - 1` at `n = 0`. -/
def udec64 (n : Nat) : Nat :=
  (n % 18446744073709551616 + 18446744073709551615) % 18446744073709551616

/-- The `uint8` expression `a - 2` of `make([]byte, head[1]-2)`. -/
def usub8_2 (a : Byte) : Nat := (a.val + 254) % 256

/-- The expression `(int16(hi) << 8) | int16(lo)`: the shift and the bitwise or
act on the 16 bit pattern, which is then read as a signed value. -/
def be16 (hi lo : Byte) : Int :=
  wrap16 ((((hi.val <<< 8) % 65536) ||| lo.val : Nat) : Int)

/-- Line 145, `x = (x+5)/8 + 1414`, every operation in `int16`. -/
def transformX (x : Int) : Int := wrap16 (Int.tdiv (wrap16 (x + 5)) 8 + 1414)

/-- Line 146, `y = (2*y + 5) / 8`, every operation in `int16`. -/
def transformY (y : Int) : Int := wrap16 (Int.tdiv (wrap16 (wrap16 (2 * y) + 5)) 8)

/-! ## Block tags and control bytes -/

def BLK_STROKE : Byte := 241
def BLK_PEN_XY : Byte := 97
def BLK_PEN_PRESSURE : Byte := 100
def BLK_PEN_TILT : Byte := 101
def BLK_UNKNOWN_1 : Byte := 197
def BLK_UNKNOWN_2 : Byte := 194
def BLK_UNKNOWN_3 : Byte := 199
def ID_LAYER : Byte := 128
def ID_STROKE_BEGIN : Byte := 1
def ID_STROKE_END : Byte := 0

/-! ## The model -/

structure Stroke where
  X : List Int
  Y : List Int
  P : List Int
  TiltX : List Int
  TiltY : List Int
  SegmentsCount : Nat
deriving DecidableEq, Repr

/-- The zero value `Stroke{}`. -/
def Stroke.zero : Stroke := ⟨[], [], [], [], [], 0⟩

def Stroke.AddCoords (s : Stroke) (x y : Int) : Stroke :=
  { s with X := s.X ++ [x], Y := s.Y ++ [y], SegmentsCount := uinc64 s.SegmentsCount }

def Stroke.AddPressure (s : Stroke) (p : Int) : Stroke :=
  { s with P := s.P ++ [p] }

def Stroke.AddTilt (s : Stroke) (tx ty : Byte) : Stroke :=
  { s with TiltX := s.TiltX ++ [(tx.val : Int)], TiltY := s.TiltY ++ [(ty.val : Int)] }

structure Layer where
  Name : String
  Strokes : List Stroke
  StrokesCount : Nat
deriving DecidableEq, Repr

/-- The zero value `Layer{}`. -/
def Layer.zero : Layer := ⟨"", [], 0⟩

def Layer.AddStroke (l : Layer) : Layer :=
  { l with Strokes := l.Strokes ++ [Stroke.zero], StrokesCount := uinc64 l.StrokesCount }

structure Canvas where
  Layers : List Layer
  LayersCount : Nat
deriving DecidableEq, Repr

/-- The zero value `Canvas{}`. -/
def Canvas.zero : Canvas := ⟨[], 0⟩

def Canvas.AddLayer (c : Canvas) : Canvas :=
  { c with Layers := c.Layers ++ [Layer.zero], LayersCount := uinc64 c.LayersCount }

/-! ## The reader -/

inductive IOErr where
  | EOF
  | other (code : Nat)
deriving DecidableEq, Repr

/-- What the reader meets next in the stream: a byte that sits in the buffer
behind the bytes before it; a byte that is the first of a new fill of the
buffer (the buffer ends in front of it); or a read of the file that fails with
an error other than end-of-stream. A failure is met by one read: a file whose
reads keep failing is a run of `fail` events, one for every read. -/
inductive Ev where
  | byte (b : Byte)
  | fail (code : Nat)
  | fill (b : Byte)
deriving DecidableEq, Repr

abbrev Reader := List Ev

/-- A stream that delivers the given bytes and then ends, with no end of the
buffer between them. -/
def ofBytes (bs : List Byte) : Reader := bs.map Ev.byte

/-- The constant `BUFLEN = 1024 * 1024 * 10`, the size of the buffer that
`main` gives the reader. -/
def BUFLEN : Nat := 1024 * 1024 * 10

/-- The bytes `bs` as a reader with a buffer of `B` bytes hands them over when
every fill takes `B` bytes (the last one what is left); `k` is the number of
bytes still to come from the current fill. -/
def chunk (B : Nat) : Nat → List Byte → Reader
  | _, [] => []
  | 0, b :: bs => Ev.fill b :: chunk B (B - 1) bs
  | k + 1, b :: bs => Ev.byte b :: chunk B k bs

/-- The reader `bufio.NewReaderSize(f0, BUFLEN)` of `main` on a regular file
whose bytes behind the header are `bs`: a read of a regular file fills the
buffer whole, so the buffer ends after every `BUFLEN` bytes. -/
def fileReader (bs : List Byte) : Reader := chunk BUFLEN BUFLEN bs

/-- The bytes left in the buffer, at most `n` of them, and the reader behind
them: `copy(p, b.buf[b.r:b.w])` stops at the end of the buffer, which is in
front of the next failure or of the first byte of the next fill. -/
def takeBytes : Nat → Reader → List Byte × Reader
  | 0, r => ([], r)
  | _ + 1, [] => ([], [])
  | _ + 1, Ev.fail k :: r => ([], Ev.fail k :: r)
  | _ + 1, Ev.fill b :: r => ([], Ev.fill b :: r)
  | n + 1, Ev.byte b :: r => ((b :: (takeBytes n r).1), (takeBytes n r).2)

/-- The call `r.Read(p)` with `len(p) = n`: the bytes copied into `p`, the
error, the reader afterwards. With `n = 0` nothing is read; at the end of the
stream the error is `io.EOF`; a failure is reported by the read that meets it.
A read that finds the buffer empty fills it once and copies from the new fill;
a read never goes past the end of the buffer it copies from, so it is short
when fewer than `n` bytes are left in the buffer. -/
def Read (n : Nat) (r : Reader) : List Byte × Option IOErr × Reader :=
  if n = 0 then ([], none, r)
  else
    match r with
    | [] => ([], some IOErr.EOF, [])
    | Ev.fail k :: r' => ([], some (IOErr.other k), r')
    | Ev.byte b :: r' => (b :: (takeBytes (n - 1) r').1, none, (takeBytes (n - 1) r').2)
    | Ev.fill b :: r' => (b :: (takeBytes (n - 1) r').1, none, (takeBytes (n - 1) r').2)

/-- The call `r.ReadByte()`: the byte (`0` when there is none), the error, the
reader afterwards. It fills the buffer when it is empty, so it is never short. -/
def ReadByte (r : Reader) : Byte × Option IOErr × Reader :=
  match r with
  | [] => (0, some IOErr.EOF, [])
  | Ev.fail k :: r' => (0, some (IOErr.other k), r')
  | Ev.byte b :: r' => (b, none, r')
  | Ev.fill b :: r' => (b, none, r')

/-- The buffer `head` after `n` bytes were copied to its front. -/
def copy2 (dst : Byte × Byte) (src : List Byte) : Byte × Byte :=
  (src.getD 0 dst.1, src.getD 1 dst.2)

/-- The buffer `data` after `n` bytes were copied to its front. -/
def copy4 (dst : Byte × Byte × Byte × Byte) (src : List Byte) : Byte × Byte × Byte × Byte :=
  (src.getD 0 dst.1, src.getD 1 dst.2.1, src.getD 2 dst.2.2.1, src.getD 3 dst.2.2.2)

/-! ## ReadLayers -/

/-- The variables of `ReadLayers` that live across iterations of the block
loop. The pointer `l` is the index of the layer it points to. -/
structure Dec where
  c : Canvas
  l : Nat
  head : Byte × Byte
  data : Byte × Byte × Byte × Byte
  e : Option IOErr
  r : Reader
deriving DecidableEq, Repr

/-- What one iteration of the block loop does. -/
inductive Step where
  | next (σ : Dec)
  | done (c : Canvas) (e : Option IOErr)
  | panic
deriving DecidableEq, Repr

/-- What a call of `ReadLayers` does; `timeout` is the loop model running out
of fuel. -/
inductive Outcome where
  | ret (c : Canvas) (e : Option IOErr)
  | panic
  | timeout
deriving DecidableEq, Repr

/-- The statement `l.Strokes[l.StrokesCount-1].f(...)` through the pointer `l`. -/
def onCurrentStroke (c : Canvas) (l : Nat) (f : Stroke → Stroke) : Option Canvas :=
  match c.Layers[l]? with
  | none => none
  | some L =>
    match L.Strokes[udec64 L.StrokesCount]? with
    | none => none
    | some s =>
      some { c with Layers :=
        c.Layers.set l { L with Strokes := L.Strokes.set (udec64 L.StrokesCount) (f s) } }

/-- The statement `l.AddStroke()` through the pointer `l`. -/
def onCurrentLayer (c : Canvas) (l : Nat) (f : Layer → Layer) : Option Canvas :=
  match c.Layers[l]? with
  | none => none
  | some L => some { c with Layers := c.Layers.set l (f L) }

/-- The `switch head[0]` of lines 125 to 162, after the header was read. -/
def body (σ : Dec) : Step :=
  if σ.head.1 = BLK_STROKE then
    let rb := ReadByte σ.r
    let σ := { σ with e := rb.2.1, r := rb.2.2 }
    if rb.1 = ID_LAYER then
      let c := σ.c.AddLayer
      if udec64 c.LayersCount < c.Layers.length then
        Step.next { σ with c := c, l := udec64 c.LayersCount }
      else Step.panic
    else if rb.1 = ID_STROKE_BEGIN then
      match onCurrentLayer σ.c σ.l Layer.AddStroke with
      | none => Step.panic
      | some c => Step.next { σ with c := c }
    else Step.next σ
  else if σ.head.1 = BLK_PEN_XY then
    let rd := Read 4 σ.r
    let data := copy4 σ.data rd.1
    let x := be16 data.1 data.2.1
    let y := be16 data.2.2.1 data.2.2.2
    match onCurrentStroke σ.c σ.l (fun s => s.AddCoords (transformX x) (transformY y)) with
    | none => Step.panic
    | some c => Step.next { σ with c := c, data := data, e := rd.2.1, r := rd.2.2 }
  else if σ.head.1 = BLK_PEN_PRESSURE then
    let rd := Read 4 σ.r
    let data := copy4 σ.data rd.1
    let p := be16 data.2.2.1 data.2.2.2
    match onCurrentStroke σ.c σ.l (fun s => s.AddPressure p) with
    | none => Step.panic
    | some c => Step.next { σ with c := c, data := data, e := rd.2.1, r := rd.2.2 }
  else if σ.head.1 = BLK_PEN_TILT then
    let rd := Read 4 σ.r
    let data := copy4 σ.data rd.1
    match onCurrentStroke σ.c σ.l (fun s => s.AddTilt data.1 data.2.1) with
    | none => Step.panic
    | some c => Step.next { σ with c := c, data := data, e := rd.2.1, r := rd.2.2 }
  else if σ.head.1 = BLK_UNKNOWN_1 ∨ σ.head.1 = BLK_UNKNOWN_2 ∨ σ.head.1 = BLK_UNKNOWN_3 then
    let rd := Read (usub8_2 σ.head.2) σ.r
    Step.next { σ with e := rd.2.1, r := rd.2.2 }
  else Step.next σ

/-- One iteration of the `for` loop of lines 120 to 163. -/
def step (σ : Dec) : Step :=
  let rd := Read 2 σ.r
  if rd.2.1 = some IOErr.EOF then Step.done σ.c rd.2.1
  else body { σ with head := copy2 σ.head rd.1, e := rd.2.1, r := rd.2.2 }

/-- The `for` loop, at most `fuel` iterations of it. -/
def loop : Nat → Dec → Outcome
  | 0, _ => Outcome.timeout
  | fuel + 1, σ =>
    match step σ with
    | Step.next σ' => loop fuel σ'
    | Step.done c e => Outcome.ret c e
    | Step.panic => Outcome.panic

/-- The first `k` iterations of the `for` loop. -/
def iter : Nat → Dec → Step
  | 0, σ => Step.next σ
  | k + 1, σ =>
    match step σ with
    | Step.next σ' => iter k σ'
    | Step.done c e => Step.done c e
    | Step.panic => Step.panic

/-- The state in which the block loop is entered (lines 105 to 119), if the
index of line 118 is in range. -/
def init (r : Reader) : Option Dec :=
  let c := Canvas.zero.AddLayer
  let i := udec64 c.LayersCount
  match c.Layers[i]? with
  | none => none
  | some L =>
    some { c := { c with Layers := c.Layers.set i { L with Name := "l" ++ toString c.LayersCount } },
           l := i, head := (0, 0), data := (0, 0, 0, 0), e := none, r := r }

/-- The function `ReadLayers`. Every iteration that does not leave the loop
takes at least one event from the reader, so `r.length + 1` iterations are
enough. -/
def ReadLayers (r : Reader) : Outcome :=
  match init r with
  | none => Outcome.panic
  | some σ => loop (r.length + 1) σ

/-! ## AddLayersToSVG -/

/-- The calls made on the `svg.SVG` value; `α` is the style of a line. -/
inductive Cmd (α : Type) where
  | Gid (name : String)
  | Line (x1 y1 x2 y2 : Int) (style : α)
  | Gend
deriving DecidableEq, Repr

/-- The calls made so far and whether the renderer is still running
(`ok = false`: it stopped on an index out of range). -/
structure Out (α : Type) where
  cmds : List (Cmd α)
  ok : Bool
deriving DecidableEq, Repr

/-- The loop `for i := uint64(0); i < stroke.SegmentsCount-1; i++` of lines 182
to 190, with `n` iterations to go from index `i` on. `style` stands for the
floating point derivation of the style string from `stroke.P[i]+stroke.P[i+1]`. -/
def segments {α : Type} (style : Int → α) (s : Stroke) : Nat → Nat → Out α
  | 0, _ => ⟨[], true⟩
  | n + 1, i =>
    match s.P[i]?, s.P[i + 1]?, s.X[i]?, s.Y[i]?, s.X[i + 1]?, s.Y[i + 1]? with
    | some p0, some p1, some x0, some y0, some x1, some y1 =>
      let rest := segments style s n (i + 1)
      ⟨Cmd.Line x0 y0 x1 y1 (style (wrap64 (p0 + p1))) :: rest.cmds, rest.ok⟩
    | _, _, _, _, _, _ => ⟨[], false⟩

/-- The body of the loop over the strokes of a layer (lines 180 to 191). -/
def renderStroke {α : Type} (style : Int → α) (i : Nat) (s : Stroke) : Out α :=
  let segs := segments style s (udec64 s.SegmentsCount) 0
  if segs.ok then ⟨Cmd.Gid ("s" ++ toString i) :: segs.cmds ++ [Cmd.Gend], true⟩
  else ⟨Cmd.Gid ("s" ++ toString i) :: segs.cmds, false⟩

/-- The loop `for i, stroke := range l.Strokes`, from index `i` on. -/
def renderStrokes {α : Type} (style : Int → α) : Nat → List Stroke → Out α
  | _, [] => ⟨[], true⟩
  | i, s :: ss =>
    let o := renderStroke style i s
    if o.ok then ⟨o.cmds ++ (renderStrokes style (i + 1) ss).cmds, (renderStrokes style (i + 1) ss).ok⟩
    else o

/-- The body of the loop over the layers (lines 178 to 193). -/
def renderLayer {α : Type} (style : Int → α) (l : Layer) : Out α :=
  let o := renderStrokes style 0 l.Strokes
  if o.ok then ⟨Cmd.Gid l.Name :: o.cmds ++ [Cmd.Gend], true⟩
  else ⟨Cmd.Gid l.Name :: o.cmds, false⟩

/-- The loop `for _, l := range c.Layers`. -/
def renderLayers {α : Type} (style : Int → α) : List Layer → Out α
  | [] => ⟨[], true⟩
  | l :: ls =>
    let o := renderLayer style l
    if o.ok then ⟨o.cmds ++ (renderLayers style ls).cmds, (renderLayers style ls).ok⟩
    else o

/-- The function `AddLayersToSVG`: the calls it makes on the document, and
whether it returns (`ok = true`, with the error `nil`). -/
def AddLayersToSVG {α : Type} (style : Int → α) (c : Canvas) : Out α :=
  renderLayers style c.Layers

/-- The number of `Line` calls in a list of calls. -/
def lineCount {α : Type} (cs : List (Cmd α)) : Nat :=
  (cs.filter fun c => match c with
    | Cmd.Line _ _ _ _ _ => true
    | _ => false).length

/-- The number of `Gid` calls in a list of calls. -/
def gidCount {α : Type} (cs : List (Cmd α)) : Nat :=
  (cs.filter fun c => match c with
    | Cmd.Gid _ => true
    | _ => false).length

/-! ## Blocks: the stream as the decoder takes it apart -/

/-- A block of the stream, as the decoder takes it apart: the auxiliary byte
`a` of the header and what follows the header. -/
inductive Block where
  | control (a id : Byte)
  | position (a b0 b1 b2 b3 : Byte)
  | pressure (a b0 b1 b2 b3 : Byte)
  | tilt (a b0 b1 b2 b3 : Byte)
  | reserved (t a : Byte) (payload : List Byte)
  | ignored (t a : Byte)
deriving DecidableEq, Repr

/-- The bytes of a block in the stream. -/
def Block.bytes : Block → List Byte
  | Block.control a id => [BLK_STROKE, a, id]
  | Block.position a b0 b1 b2 b3 => [BLK_PEN_XY, a, b0, b1, b2, b3]
  | Block.pressure a b0 b1 b2 b3 => [BLK_PEN_PRESSURE, a, b0, b1, b2, b3]
  | Block.tilt a b0 b1 b2 b3 => [BLK_PEN_TILT, a, b0, b1, b2, b3]
  | Block.reserved t a payload => t :: a :: payload
  | Block.ignored t a => [t, a]

/-- The three reserved tags. -/
def isReserved (t : Byte) : Prop := t = BLK_UNKNOWN_1 ∨ t = BLK_UNKNOWN_2 ∨ t = BLK_UNKNOWN_3

instance (t : Byte) : Decidable (isReserved t) := by unfold isReserved; infer_instance

/-- A block whose tag belongs to its kind and whose payload has the length the
decoder asks for. -/
def Block.Complete : Block → Prop
  | Block.reserved t a payload => isReserved t ∧ payload.length = usub8_2 a
  | Block.ignored t _ =>
    t ≠ BLK_STROKE ∧ t ≠ BLK_PEN_XY ∧ t ≠ BLK_PEN_PRESSURE ∧ t ≠ BLK_PEN_TILT ∧ ¬ isReserved t
  | _ => True

/-- The bytes of a sequence of blocks. -/
def blocksBytes : List Block → List Byte
  | [] => []
  | b :: bs => b.bytes ++ blocksBytes bs

/-- What a data block does to the stroke it is added to. -/
def Block.onStroke (b : Block) (s : Stroke) : Stroke :=
  match b with
  | Block.position _ b0 b1 b2 b3 => s.AddCoords (transformX (be16 b0 b1)) (transformY (be16 b2 b3))
  | Block.pressure _ _ _ b2 b3 => s.AddPressure (be16 b2 b3)
  | Block.tilt _ b0 b1 _ _ => s.AddTilt b0 b1
  | _ => s

/-- The iteration of the block loop that takes a complete block, the reader
left aside. -/
def blockStep (b : Block) (σ : Dec) : Step :=
  match b with
  | Block.control a id =>
    if id = ID_LAYER then
      if udec64 σ.c.AddLayer.LayersCount < σ.c.AddLayer.Layers.length then
        Step.next { σ with c := σ.c.AddLayer, l := udec64 σ.c.AddLayer.LayersCount,
                           head := (BLK_STROKE, a), e := none }
      else Step.panic
    else if id = ID_STROKE_BEGIN then
      match onCurrentLayer σ.c σ.l Layer.AddStroke with
      | none => Step.panic
      | some c => Step.next { σ with c := c, head := (BLK_STROKE, a), e := none }
    else Step.next { σ with head := (BLK_STROKE, a), e := none }
  | Block.position a b0 b1 b2 b3 =>
    match onCurrentStroke σ.c σ.l (Block.position a b0 b1 b2 b3).onStroke with
    | none => Step.panic
    | some c => Step.next { σ with c := c, head := (BLK_PEN_XY, a), data := (b0, b1, b2, b3), e := none }
  | Block.pressure a b0 b1 b2 b3 =>
    match onCurrentStroke σ.c σ.l (Block.pressure a b0 b1 b2 b3).onStroke with
    | none => Step.panic
    | some c => Step.next { σ with c := c, head := (BLK_PEN_PRESSURE, a), data := (b0, b1, b2, b3), e := none }
  | Block.tilt a b0 b1 b2 b3 =>
    match onCurrentStroke σ.c σ.l (Block.tilt a b0 b1 b2 b3).onStroke with
    | none => Step.panic
    | some c => Step.next { σ with c := c, head := (BLK_PEN_TILT, a), data := (b0, b1, b2, b3), e := none }
  | Block.reserved t a _ => Step.next { σ with head := (t, a), e := none }
  | Block.ignored t a => Step.next { σ with head := (t, a), e := none }

/-- The step with the reader of its state replaced. -/
def Step.withReader (r : Reader) : Step → Step
  | Step.next σ => Step.next { σ with r := r }
  | s => s

/-- The iterations of the block loop that take a sequence of complete blocks,
the reader left aside. -/
def runBlocks : List Block → Dec → Step
  | [], σ => Step.next σ
  | b :: bs, σ =>
    match blockStep b σ with
    | Step.next σ' => runBlocks bs σ'
    | s => s

/-- The state in which the block loop is entered, the reader left aside. -/
def init0 : Dec :=
  { c := ⟨[⟨"l1", [], 0⟩], 1⟩, l := 0, head := (0, 0), data := (0, 0, 0, 0), e := none, r := [] }

/-- A stroke-control block. -/
def Block.isControl : Block → Bool
  | Block.control _ _ => true
  | _ => false

/-- A position block. -/
def Block.isPosition : Block → Bool
  | Block.position _ _ _ _ _ => true
  | _ => false

/-- The raw pairs `(x, y)` of the position blocks of a sequence of blocks, in
stream order. -/
def positions : List Block → List (Int × Int)
  | [] => []
  | Block.position _ b0 b1 b2 b3 :: bs => (be16 b0 b1, be16 b2 b3) :: positions bs
  | _ :: bs => positions bs

/-- What a sequence of data blocks does to the stroke they are added to. -/
def strokeOf : List Block → Stroke → Stroke
  | [], s => s
  | b :: bs, s => strokeOf bs (b.onStroke s)

instance (b : Block) : Decidable b.Complete := by
  cases b <;> unfold Block.Complete <;> infer_instance

/-! ## The document of a canvas whose strokes are complete -/

/-- The lines of a stroke: one for every two consecutive points, the `j`-th
from `(X[j], Y[j])` to `(X[j+1], Y[j+1])`, styled from `P[j] + P[j+1]`. -/
def strokeLines {α : Type} (style : Int → α) (s : Stroke) : List (Cmd α) :=
  (List.range (s.X.length - 1)).map (fun j =>
    Cmd.Line (s.X.getD j 0) (s.Y.getD j 0) (s.X.getD (j + 1) 0) (s.Y.getD (j + 1) 0)
      (style (wrap64 (s.P.getD j 0 + s.P.getD (j + 1) 0))))

/-- The groups of the strokes of a layer, numbered from `i` on. -/
def strokeGroups {α : Type} (style : Int → α) : Nat → List Stroke → List (Cmd α)
  | _, [] => []
  | i, s :: ss =>
    (Cmd.Gid ("s" ++ toString i) :: strokeLines style s ++ [Cmd.Gend]) ++
      strokeGroups style (i + 1) ss

/-- The groups of the layers of a canvas. -/
def layerGroups {α : Type} (style : Int → α) : List Layer → List (Cmd α)
  | [] => []
  | l :: ls =>
    (Cmd.Gid l.Name :: strokeGroups style 0 l.Strokes ++ [Cmd.Gend]) ++ layerGroups style ls

/-- A stroke with at least one point, as many `Y` as `X`, the segment count of
its points and a pressure sample for every point. -/
def Stroke.Full (s : Stroke) : Prop :=
  1 ≤ s.X.length ∧ s.Y.length = s.X.length ∧ s.SegmentsCount = s.X.length ∧
    s.X.length ≤ s.P.length ∧ s.X.length < 2 ^ 64

/-! ## Well-formed canvases -/

/-- A stroke whose `X`, `Y` and segment count agree and whose tilt sequences
have one length. -/
def Stroke.WellFormed (s : Stroke) : Prop :=
  s.X.length = s.Y.length ∧ s.SegmentsCount = s.X.length ∧ s.TiltX.length = s.TiltY.length

/-- A layer whose stroke count is the number of its strokes, all well formed. -/
def Layer.WellFormed (L : Layer) : Prop :=
  L.StrokesCount = L.Strokes.length ∧ ∀ s ∈ L.Strokes, s.WellFormed

/-- A canvas with at least one layer whose layer count is the number of its
layers, all well formed. -/
def Canvas.WellFormed (c : Canvas) : Prop :=
  1 ≤ c.Layers.length ∧ c.LayersCount = c.Layers.length ∧ ∀ L ∈ c.Layers, L.WellFormed

/-- No slice of the canvas (layers, strokes of a layer, points of a stroke) is
longer than `B`. -/
def Canvas.Within (B : Nat) (c : Canvas) : Prop :=
  c.Layers.length ≤ B ∧
    ∀ L ∈ c.Layers, L.Strokes.length ≤ B ∧ ∀ s ∈ L.Strokes, s.X.length ≤ B

/-- The three methods that the decoder calls on the current stroke. -/
def StrokeOp (f : Stroke → Stroke) : Prop :=
  (∃ x y, f = fun s => s.AddCoords x y) ∨ (∃ p, f = fun s => s.AddPressure p) ∨
    (∃ tx ty, f = fun s => s.AddTilt tx ty)

/-- What the decoder keeps true of its state: the canvas is well formed, its
slices are no longer than `B`, and `l` points to the last layer. -/
def Dec.Inv (B : Nat) (σ : Dec) : Prop :=
  σ.c.WellFormed ∧ σ.c.Within B ∧ σ.l + 1 = σ.c.Layers.length

/-! ## Data blocks and the stroke they are added to -/

/-- A position, pressure or tilt block. -/
def Block.isData : Block → Bool
  | Block.position _ _ _ _ _ => true
  | Block.pressure _ _ _ _ _ => true
  | Block.tilt _ _ _ _ _ => true
  | _ => false

/-- The tag of a position, pressure or tilt block. -/
def isDataTag (t : Byte) : Bool :=
  decide (t = BLK_PEN_XY ∨ t = BLK_PEN_PRESSURE ∨ t = BLK_PEN_TILT)

/-- Whether a stroke-begin block was met since the most recent layer marker,
after one more block; `none` when the block is a data block and no stroke-begin
block was met. -/
def scanBlock (has : Bool) : Block → Option Bool
  | Block.control _ id =>
    some (if id = ID_LAYER then false else if id = ID_STROKE_BEGIN then true else has)
  | Block.position _ _ _ _ _ => if has then some true else none
  | Block.pressure _ _ _ _ _ => if has then some true else none
  | Block.tilt _ _ _ _ _ => if has then some true else none
  | _ => some has

/-- The same after a sequence of blocks. -/
def scanBlocks : Bool → List Block → Option Bool
  | has, [] => some has
  | has, b :: bs =>
    match scanBlock has b with
    | none => none
    | some has' => scanBlocks has' bs

/-- Every data block of the sequence is preceded, since the most recent layer
marker before it (or since the start), by a stroke-begin block; `final` says
whether a data block follows the sequence, which is then held to the same. -/
def guarded (bl : List Block) (final : Bool) : Bool :=
  match scanBlocks false bl with
  | none => false
  | some has => !final || has

/-- The bytes of a block that the stream ends in the middle of: one byte, a
stroke-control header without its control byte, or a header with less payload
than the decoder asks for. -/
def Truncated (tail : List Byte) : Prop :=
  tail = [] ∨ (∃ t, tail = [t]) ∨ (∃ a, tail = [BLK_STROKE, a]) ∨
    (∃ t a p, tail = t :: a :: p ∧ isDataTag t = true ∧ p.length < 4) ∨
    (∃ t a p, tail = t :: a :: p ∧ isReserved t ∧ p.length < usub8_2 a)

/-- Whether the first byte is the tag of a data block. -/
def tailIsData : List Byte → Bool
  | [] => false
  | t :: _ => isDataTag t

/-- The current layer has a current stroke: the index `StrokesCount-1` is in
range. -/
def Dec.HasStroke (σ : Dec) : Prop :=
  ∃ L s, σ.c.Layers[σ.l]? = some L ∧ L.Strokes[udec64 L.StrokesCount]? = some s

/-- The current layer has no stroke. -/
def Dec.NoStroke (σ : Dec) : Prop :=
  ∃ L, σ.c.Layers[σ.l]? = some L ∧ L.Strokes = [] ∧ L.StrokesCount = 0

/-- The flag `has` tells whether the current layer has a stroke. -/
def Dec.Track (σ : Dec) (has : Bool) : Prop :=
  (has = true → σ.HasStroke) ∧ (has = false → σ.NoStroke)

/-- A stroke-control block whose control byte is `ID_STROKE_BEGIN`. -/
def Block.isStrokeBegin : Block → Bool
  | Block.control _ id => decide (id = ID_STROKE_BEGIN)
  | _ => false

/-- A stroke-control block whose control byte is `ID_LAYER`. -/
def Block.isLayerMarker : Block → Bool
  | Block.control _ id => decide (id = ID_LAYER)
  | _ => false

/-- Among the blocks `pre` there is a stroke-begin block with no layer marker
behind it: a stroke was begun since the most recent layer marker, or since the
start when there is none. -/
def StrokeOpen (pre : List Block) : Prop :=
  ∃ p b q, pre = p ++ b :: q ∧ b.isStrokeBegin = true ∧ ∀ b' ∈ q, b'.isLayerMarker = false

/-- Every data block of the sequence has a stroke begun before it. -/
def Guarded (bl : List Block) : Prop :=
  ∀ pre b post, bl = pre ++ b :: post → b.isData = true → StrokeOpen pre

/-! ## The style of a segment -/

/-- The constant `MAX_P_TO_WIDTH = 6.0`. -/
def MAX_P_TO_WIDTH {K : Type} [LinearOrderedField K] : K := 6

/-- The constant `MAX_P_TO_COLOUR = 254.0`. -/
def MAX_P_TO_COLOUR {K : Type} [LinearOrderedField K] : K := 254

/-- The constant `MAX_P_LEVELS = 1024.0`. -/
def MAX_P_LEVELS {K : Type} [LinearOrderedField K] : K := 1024

/-- The function `PressureToColourFunc` (lines 168 to 170) in the ordered field
`K` that stands for `float64`; `sqrt` stands for `math.Sqrt`. -/
def PressureToColourFunc {K : Type} [LinearOrderedField K] (sqrt : K → K) (p : K) : K :=
  (1 - sqrt p) * MAX_P_TO_COLOUR

/-- The function `PressureToWidthFunc` (lines 172 to 174). -/
def PressureToWidthFunc {K : Type} [LinearOrderedField K] (p : K) : K :=
  p * MAX_P_TO_WIDTH

/-- The conversion `int(colour)` of line 186: the fraction is dropped, which
rounds toward zero. -/
def truncToInt {K : Type} [LinearOrderedField K] [FloorRing K] (x : K) : Int :=
  if 0 ≤ x then Int.floor x else Int.ceil x

/-- Line 183, `p := 0.5 * float64(stroke.P[i]+stroke.P[i+1]) / MAX_P_LEVELS`,
from the integer `sum = stroke.P[i]+stroke.P[i+1]`. -/
def segmentPressure {K : Type} [LinearOrderedField K] (sum : Int) : K :=
  1 / 2 * (sum : K) / MAX_P_LEVELS

/-- Rounding to the nearest integer, a half going to the even neighbour: the
rounding of `strconv` when it writes a float with a fixed number of decimals. -/
def roundHalfEven {K : Type} [LinearOrderedField K] [FloorRing K] (x : K) : Int :=
  if x - (Int.floor x : K) < 1 / 2 then Int.floor x
  else if 1 / 2 < x - (Int.floor x : K) then Int.floor x + 1
  else if Int.floor x % 2 = 0 then Int.floor x
  else Int.floor x + 1

/-- Line 187, `swidth := fmt.Sprintf("%.2f", width)`: the number that the
string denotes, counted in hundredths (`"0.38"` is 38). -/
def sprintf2 {K : Type} [LinearOrderedField K] [FloorRing K] (width : K) : Int :=
  roundHalfEven (width * 100)

/-- The values that the style of a line is written from: the variable `width`
of line 184, the width that reaches the output (`swidth`, in hundredths) and
the three arguments of `s.RGB`. -/
structure Style (K : Type) where
  width : K
  swidth : Int
  red : Int
  green : Int
  blue : Int

/-- Lines 184 to 188 for the pressure `p`: `width`, `colour`, `icolour`,
`swidth` and the call `s.RGB(icolour, icolour, icolour)`. -/
def styleOf {K : Type} [LinearOrderedField K] [FloorRing K] (sqrt : K → K) (p : K) : Style K :=
  let width := PressureToWidthFunc p
  let colour := PressureToColourFunc sqrt p
  let icolour := truncToInt colour
  let swidth := sprintf2 width
  ⟨width, swidth, icolour, icolour, icolour⟩

/-- Lines 183 to 188: the style of the segment whose two pressure samples add
up to `sum`; this is the `style` that `AddLayersToSVG` is run with. -/
def segmentStyle {K : Type} [LinearOrderedField K] [FloorRing K] (sqrt : K → K)
    (sum : Int) : Style K :=
  styleOf sqrt (segmentPressure sum)

/-! ## Integer arithmetic of the decoder -/

theorem be16_eq (hi lo : Byte) : be16 hi lo = wrap16 (256 * (hi.val : Int) + lo.val) := by
  unfold be16
  have h1 : hi.val <<< 8 < 65536 := by
    rw [Nat.shiftLeft_eq]; have := hi.isLt; omega
  rw [Nat.mod_eq_of_lt h1]
  have h2 : hi.val <<< 8 ||| lo.val = 2 ^ 8 * hi.val + lo.val := by
    rw [Nat.shiftLeft_eq, Nat.mul_comm]
    exact (Nat.mul_add_lt_is_or lo.isLt hi.val).symm
  rw [h2]
  congr 1

theorem be16_range (hi lo : Byte) : -32768 ≤ be16 hi lo ∧ be16 hi lo ≤ 32767 := by
  rw [be16_eq]; unfold wrap16; omega

theorem tdiv8_nonneg (a : Int) (h : 0 ≤ a) : Int.tdiv a 8 = a / 8 :=
  Int.tdiv_eq_ediv h (by decide)

theorem tdiv8_neg (a : Int) (h : a < 0) : Int.tdiv a 8 = -((-a) / 8) := by
  have : a = -(-a) := by omega
  rw [this, Int.neg_tdiv, Int.tdiv_eq_ediv (by omega) (by decide)]
  simp

theorem transformX_exact (x : Int) (h0 : -32768 ≤ x) (h1 : x ≤ 32762) :
    transformX x = Int.tdiv (x + 5) 8 + 1414 := by
  unfold transformX
  have hw : wrap16 (x + 5) = x + 5 := by unfold wrap16; omega
  rw [hw]
  rcases lt_or_le (x + 5) 0 with h | h
  · rw [tdiv8_neg _ h]; unfold wrap16; omega
  · rw [tdiv8_nonneg _ h]; unfold wrap16; omega

theorem transformY_exact (y : Int) (h0 : -16386 ≤ y) (h1 : y ≤ 16381) :
    transformY y = Int.tdiv (2 * y + 5) 8 := by
  unfold transformY
  have hw : wrap16 (wrap16 (2 * y) + 5) = 2 * y + 5 := by unfold wrap16; omega
  rw [hw]
  rcases lt_or_le (2 * y + 5) 0 with h | h
  · rw [tdiv8_neg _ h]; unfold wrap16; omega
  · rw [tdiv8_nonneg _ h]; unfold wrap16; omega

theorem udec64_pos (n : Nat) (h1 : 1 ≤ n) (h2 : n < 2 ^ 64) : udec64 n = n - 1 := by
  unfold udec64; omega

theorem udec64_uinc64 (n : Nat) (h : n < 2 ^ 64) : udec64 (uinc64 n) = n := by
  unfold udec64 uinc64; omega

theorem uinc64_lt (n : Nat) (h : n + 1 < 2 ^ 64) : uinc64 n = n + 1 := by
  unfold uinc64; omega

/-! ## Lists -/

theorem set_same {α : Type} (l : List α) (i : Nat) (a : α) (h : l[i]? = some a) :
    l.set i a = l := by
  induction l generalizing i with
  | nil => rfl
  | cons x l ih =>
    cases i with
    | zero => simp at h; simp [h]
    | succ i => simp at h; simp [ih i h]

theorem set_concat {α : Type} (l : List α) (a b : α) :
    (l ++ [a]).set l.length b = l ++ [b] := by
  rw [List.set_append_right _ _ (Nat.le_refl _)]
  simp

theorem getElem?_lt_length {α : Type} (l : List α) (i : Nat) (a : α) (h : l[i]? = some a) :
    i < l.length := by
  rcases Nat.lt_or_ge i l.length with h' | h'
  · exact h'
  · rw [List.getElem?_eq_none h'] at h; cases h

/-! ## The reader and the fuel of the loop -/

theorem takeBytes_length_le (n : Nat) (r : Reader) : (takeBytes n r).2.length ≤ r.length := by
  induction r generalizing n with
  | nil => cases n <;> simp [takeBytes]
  | cons ev r ih =>
    cases n with
    | zero => simp [takeBytes]
    | succ n =>
      cases ev with
      | byte b => simp only [takeBytes, List.length_cons]; exact Nat.le_succ_of_le (ih n)
      | fail k => simp [takeBytes]
      | fill b => simp [takeBytes]

theorem Read_length_le (n : Nat) (r : Reader) : (Read n r).2.2.length ≤ r.length := by
  unfold Read
  split
  · exact Nat.le_refl _
  · split
    · exact Nat.le_refl _
    · simp
    · simp only [List.length_cons]; exact Nat.le_succ_of_le (takeBytes_length_le _ _)
    · simp only [List.length_cons]; exact Nat.le_succ_of_le (takeBytes_length_le _ _)

theorem ReadByte_length_le (r : Reader) : (ReadByte r).2.2.length ≤ r.length := by
  unfold ReadByte
  split <;> simp

theorem Read_two_length_lt (r : Reader) (h : (Read 2 r).2.1 ≠ some IOErr.EOF) :
    (Read 2 r).2.2.length < r.length := by
  unfold Read at h ⊢
  cases r with
  | nil => simp at h
  | cons ev r =>
    cases ev with
    | byte b => simp only [List.length_cons]; exact Nat.lt_succ_of_le (takeBytes_length_le _ _)
    | fail k => simp
    | fill b => simp only [List.length_cons]; exact Nat.lt_succ_of_le (takeBytes_length_le _ _)

theorem body_length_le (σ σ' : Dec) (h : body σ = Step.next σ') : σ'.r.length ≤ σ.r.length := by
  have h4 := Read_length_le 4 σ.r
  have hn := Read_length_le (usub8_2 σ.head.2) σ.r
  have hb := ReadByte_length_le σ.r
  dsimp only [body] at h
  split_ifs at h
  · injection h with h; subst h; exact hb
  · split at h
    · injection h
    · injection h with h; subst h; exact hb
  · injection h with h; subst h; exact hb
  · split at h
    · injection h
    · injection h with h; subst h; exact h4
  · split at h
    · injection h
    · injection h with h; subst h; exact h4
  · split at h
    · injection h
    · injection h with h; subst h; exact h4
  · injection h with h; subst h; exact hn
  · injection h with h; subst h; exact Nat.le_refl _

theorem body_ne_done (σ : Dec) (c : Canvas) (e : Option IOErr) : body σ ≠ Step.done c e := by
  intro h
  dsimp only [body] at h
  split_ifs at h <;> (try split at h) <;> injection h

theorem step_length_lt (σ σ' : Dec) (h : step σ = Step.next σ') : σ'.r.length < σ.r.length := by
  dsimp only [step] at h
  split_ifs at h with he
  have h1 := body_length_le _ _ h
  have h2 := Read_two_length_lt σ.r he
  exact Nat.lt_of_le_of_lt h1 h2

theorem loop_fuel (n m : Nat) (σ : Dec) (hn : σ.r.length < n) (hm : σ.r.length < m) :
    loop n σ = loop m σ := by
  induction n generalizing m σ with
  | zero => omega
  | succ n ih =>
    cases m with
    | zero => omega
    | succ m =>
      simp only [loop]
      cases hs : step σ with
      | next σ' =>
        have := step_length_lt σ σ' hs
        exact ih m σ' (by omega) (by omega)
      | done c e => rfl
      | panic => rfl

theorem loop_ne_timeout (n : Nat) (σ : Dec) (hn : σ.r.length < n) : loop n σ ≠ Outcome.timeout := by
  induction n generalizing σ with
  | zero => omega
  | succ n ih =>
    simp only [loop]
    cases hs : step σ with
    | next σ' =>
      have := step_length_lt σ σ' hs
      exact ih σ' (by omega)
    | done c e => simp
    | panic => simp

theorem loop_error (n : Nat) (σ : Dec) (c : Canvas) (e : Option IOErr)
    (h : loop n σ = Outcome.ret c e) : e = some IOErr.EOF := by
  induction n generalizing σ with
  | zero => simp [loop] at h
  | succ n ih =>
    simp only [loop] at h
    cases hs : step σ with
    | next σ' => rw [hs] at h; exact ih σ' h
    | done c' e' =>
      rw [hs] at h
      dsimp only [step] at hs
      split_ifs at hs with he
      · cases hs; cases h; exact he
      · exact absurd hs (body_ne_done _ _ _)
    | panic => rw [hs] at h; cases h

/-- What `loop` does after the first `k` iterations. -/
theorem loop_of_iter (k n : Nat) (σ : Dec) (hn : σ.r.length < n) :
    loop n σ = match iter k σ with
      | Step.next σ' => loop (σ'.r.length + 1) σ'
      | Step.done c e => Outcome.ret c e
      | Step.panic => Outcome.panic := by
  induction k generalizing n σ with
  | zero => simp only [iter]; exact loop_fuel _ _ _ hn (Nat.lt_succ_self _)
  | succ k ih =>
    cases n with
    | zero => omega
    | succ n =>
      simp only [loop, iter]
      cases hs : step σ with
      | next σ' =>
        have := step_length_lt σ σ' hs
        exact ih n σ' (by omega)
      | done c e => rfl
      | panic => rfl

theorem loop_succ_next (n : Nat) (σ σ' : Dec) (h : step σ = Step.next σ') :
    loop (n + 1) σ = loop n σ' := by
  simp only [loop, h]

theorem step_e_irrel (σ : Dec) (e : Option IOErr) : step { σ with e := e } = step σ := rfl

theorem loop_e_irrel (n : Nat) (σ : Dec) (e : Option IOErr) :
    loop n { σ with e := e } = loop n σ := by
  cases n with
  | zero => rfl
  | succ n => simp only [loop, step_e_irrel]

theorem step_nil (σ : Dec) (h : σ.r = []) : step σ = Step.done σ.c (some IOErr.EOF) := by
  simp [step, h, Read]

theorem init_eq (r : Reader) : init r = some { init0 with r := r } := rfl

/-- The outcome of `ReadLayers` from what the first `k` iterations do. -/
theorem ReadLayers_of_iter (k : Nat) (r : Reader) :
    ReadLayers r = match iter k { init0 with r := r } with
      | Step.next σ' => loop (σ'.r.length + 1) σ'
      | Step.done c e => Outcome.ret c e
      | Step.panic => Outcome.panic := by
  simp only [ReadLayers, init_eq]
  exact loop_of_iter k _ _ (Nat.lt_succ_self _)

theorem ReadLayers_total (r : Reader) :
    ReadLayers r = Outcome.panic ∨ ∃ c, ReadLayers r = Outcome.ret c (some IOErr.EOF) := by
  have h : ReadLayers r = loop (r.length + 1) { init0 with r := r } := by
    simp only [ReadLayers, init_eq]
  cases hl : loop (r.length + 1) { init0 with r := r } with
  | ret c e =>
    have := loop_error _ _ _ _ hl
    subst this
    exact Or.inr ⟨c, h.trans hl⟩
  | panic => exact Or.inl (h.trans hl)
  | timeout => exact absurd hl (loop_ne_timeout _ _ (Nat.lt_succ_self _))

/-! ## The decoder on complete blocks -/

theorem takeBytes_ofBytes (p : List Byte) (rest : Reader) :
    takeBytes p.length (ofBytes p ++ rest) = (p, rest) := by
  induction p with
  | nil => simp [takeBytes, ofBytes]
  | cons b p ih =>
    show ((b :: (takeBytes p.length (ofBytes p ++ rest)).1),
      (takeBytes p.length (ofBytes p ++ rest)).2) = (b :: p, rest)
    rw [ih]

theorem Read_ofBytes (p : List Byte) (rest : Reader) :
    Read p.length (ofBytes p ++ rest) = (p, none, rest) := by
  cases p with
  | nil => rfl
  | cons b p =>
    show (b :: (takeBytes p.length (ofBytes p ++ rest)).1, none,
      (takeBytes p.length (ofBytes p ++ rest)).2) = (b :: p, none, rest)
    rw [takeBytes_ofBytes]

theorem Read_two (a b : Byte) (r : Reader) :
    Read 2 (Ev.byte a :: Ev.byte b :: r) = ([a, b], none, r) := rfl

theorem Read_four (b0 b1 b2 b3 : Byte) (r : Reader) :
    Read 4 (Ev.byte b0 :: Ev.byte b1 :: Ev.byte b2 :: Ev.byte b3 :: r) = ([b0, b1, b2, b3], none, r) := rfl

theorem ReadByte_byte (b : Byte) (r : Reader) : ReadByte (Ev.byte b :: r) = (b, none, r) := rfl

theorem step_two (σ : Dec) (a b : Byte) (r : Reader) :
    step { σ with r := Ev.byte a :: Ev.byte b :: r } =
      body { σ with head := (a, b), e := none, r := r } := by
  simp [step, Read_two, copy2]

theorem step_control (σ : Dec) (a id : Byte) (rest : Reader) :
    step { σ with r := ofBytes (Block.control a id).bytes ++ rest } =
      (blockStep (Block.control a id) σ).withReader rest := by
  simp only [Block.bytes, ofBytes, List.map_cons, List.map_nil, List.cons_append, List.nil_append,
    step_two]
  simp only [body, blockStep, ReadByte_byte, if_true]
  split_ifs
  · rfl
  · rfl
  · cases onCurrentLayer σ.c σ.l Layer.AddStroke <;> rfl
  · rfl

theorem step_position (σ : Dec) (a b0 b1 b2 b3 : Byte) (rest : Reader) :
    step { σ with r := ofBytes (Block.position a b0 b1 b2 b3).bytes ++ rest } =
      (blockStep (Block.position a b0 b1 b2 b3) σ).withReader rest := by
  simp only [Block.bytes, ofBytes, List.map_cons, List.map_nil, List.cons_append, List.nil_append,
    step_two]
  have h : BLK_PEN_XY ≠ BLK_STROKE := by decide
  simp only [body, blockStep, Read_four, copy4, h, if_true, if_false]
  simp only [List.getD_cons_zero, List.getD_cons_succ]
  rw [show (Block.position a b0 b1 b2 b3).onStroke =
    (fun s => s.AddCoords (transformX (be16 b0 b1)) (transformY (be16 b2 b3))) from rfl]
  cases onCurrentStroke σ.c σ.l _ <;> rfl

theorem step_pressure (σ : Dec) (a b0 b1 b2 b3 : Byte) (rest : Reader) :
    step { σ with r := ofBytes (Block.pressure a b0 b1 b2 b3).bytes ++ rest } =
      (blockStep (Block.pressure a b0 b1 b2 b3) σ).withReader rest := by
  simp only [Block.bytes, ofBytes, List.map_cons, List.map_nil, List.cons_append, List.nil_append,
    step_two]
  have h : BLK_PEN_PRESSURE ≠ BLK_STROKE := by decide
  have h' : BLK_PEN_PRESSURE ≠ BLK_PEN_XY := by decide
  simp only [body, blockStep, Read_four, copy4, h, h', if_true, if_false]
  simp only [List.getD_cons_zero, List.getD_cons_succ]
  rw [show (Block.pressure a b0 b1 b2 b3).onStroke =
    (fun s => s.AddPressure (be16 b2 b3)) from rfl]
  cases onCurrentStroke σ.c σ.l _ <;> rfl

theorem step_tilt (σ : Dec) (a b0 b1 b2 b3 : Byte) (rest : Reader) :
    step { σ with r := ofBytes (Block.tilt a b0 b1 b2 b3).bytes ++ rest } =
      (blockStep (Block.tilt a b0 b1 b2 b3) σ).withReader rest := by
  simp only [Block.bytes, ofBytes, List.map_cons, List.map_nil, List.cons_append, List.nil_append,
    step_two]
  have h : BLK_PEN_TILT ≠ BLK_STROKE := by decide
  have h' : BLK_PEN_TILT ≠ BLK_PEN_XY := by decide
  have h'' : BLK_PEN_TILT ≠ BLK_PEN_PRESSURE := by decide
  simp only [body, blockStep, Read_four, copy4, h, h', h'', if_true, if_false]
  simp only [List.getD_cons_zero, List.getD_cons_succ]
  rw [show (Block.tilt a b0 b1 b2 b3).onStroke = (fun s => s.AddTilt b0 b1) from rfl]
  cases onCurrentStroke σ.c σ.l _ <;> rfl

theorem isReserved_ne (t : Byte) (h : isReserved t) :
    t ≠ BLK_STROKE ∧ t ≠ BLK_PEN_XY ∧ t ≠ BLK_PEN_PRESSURE ∧ t ≠ BLK_PEN_TILT := by
  rcases h with h | h | h <;> subst h <;> decide

theorem step_reserved (σ : Dec) (t a : Byte) (p : List Byte) (rest : Reader)
    (h : (Block.reserved t a p).Complete) :
    step { σ with r := ofBytes (Block.reserved t a p).bytes ++ rest } =
      (blockStep (Block.reserved t a p) σ).withReader rest := by
  obtain ⟨ht, hp⟩ := h
  obtain ⟨h1, h2, h3, h4⟩ := isReserved_ne t ht
  simp only [Block.bytes, ofBytes, List.map_cons, List.cons_append, step_two]
  have hr : Read (usub8_2 a) (List.map Ev.byte p ++ rest) = (p, none, rest) := by
    rw [← hp]; exact Read_ofBytes p rest
  have ht' : t = BLK_UNKNOWN_1 ∨ t = BLK_UNKNOWN_2 ∨ t = BLK_UNKNOWN_3 := ht
  simp only [body, blockStep, h1, h2, h3, h4, ht', hr, if_true, if_false]
  rfl

theorem step_ignored (σ : Dec) (t a : Byte) (rest : Reader)
    (h : (Block.ignored t a).Complete) :
    step { σ with r := ofBytes (Block.ignored t a).bytes ++ rest } =
      (blockStep (Block.ignored t a) σ).withReader rest := by
  obtain ⟨h1, h2, h3, h4, h5⟩ := h
  have h5' : ¬ (t = BLK_UNKNOWN_1 ∨ t = BLK_UNKNOWN_2 ∨ t = BLK_UNKNOWN_3) := h5
  simp only [Block.bytes, ofBytes, List.map_cons, List.map_nil, List.cons_append, List.nil_append,
    step_two]
  simp only [body, blockStep, h1, h2, h3, h4, h5', if_false]
  rfl

/-- The decoder takes a complete block as `blockStep` says and goes on behind it. -/
theorem step_block (b : Block) (hb : b.Complete) (σ : Dec) (rest : Reader) :
    step { σ with r := ofBytes b.bytes ++ rest } = (blockStep b σ).withReader rest := by
  cases b with
  | control a id => exact step_control σ a id rest
  | position a b0 b1 b2 b3 => exact step_position σ a b0 b1 b2 b3 rest
  | pressure a b0 b1 b2 b3 => exact step_pressure σ a b0 b1 b2 b3 rest
  | tilt a b0 b1 b2 b3 => exact step_tilt σ a b0 b1 b2 b3 rest
  | reserved t a p => exact step_reserved σ t a p rest hb
  | ignored t a => exact step_ignored σ t a rest hb

theorem ofBytes_append (x y : List Byte) : ofBytes (x ++ y) = ofBytes x ++ ofBytes y := by
  simp [ofBytes]

theorem iter_blocks (bl : List Block) (hb : ∀ b ∈ bl, b.Complete) (σ : Dec) (rest : Reader) :
    iter bl.length { σ with r := ofBytes (blocksBytes bl) ++ rest } =
      (runBlocks bl σ).withReader rest := by
  induction bl generalizing σ with
  | nil => rfl
  | cons b bl ih =>
    have hb1 : b.Complete := hb b (List.mem_cons_self _ _)
    have hb2 : ∀ b' ∈ bl, b'.Complete := fun b' h => hb b' (List.mem_cons_of_mem _ h)
    simp only [blocksBytes, ofBytes_append, List.append_assoc, List.length_cons, iter, runBlocks]
    rw [step_block b hb1 σ]
    cases hs : blockStep b σ with
    | next σ1 =>
      simp only [Step.withReader]
      exact ih hb2 σ1
    | done c e => rfl
    | panic => rfl

theorem runBlocks_ReadLayers (bl : List Block) (hb : ∀ b ∈ bl, b.Complete) :
    ReadLayers (ofBytes (blocksBytes bl)) = match runBlocks bl init0 with
      | Step.next σ' => Outcome.ret σ'.c (some IOErr.EOF)
      | Step.done c e => Outcome.ret c e
      | Step.panic => Outcome.panic := by
  rw [ReadLayers_of_iter bl.length]
  have h := iter_blocks bl hb init0 []
  rw [List.append_nil] at h
  rw [h]
  cases runBlocks bl init0 with
  | next σ' => simp only [Step.withReader, List.length_nil, loop, step_nil]
  | done c e => rfl
  | panic => rfl

theorem Dec.eta_r (σ : Dec) (x : Reader) (h : σ.r = x) : σ = { σ with r := x } := by
  cases σ; cases h; rfl

theorem onCurrentStroke_some (c : Canvas) (l : Nat) (f : Stroke → Stroke) (L : Layer) (s : Stroke)
    (hL : c.Layers[l]? = some L) (hs : L.Strokes[udec64 L.StrokesCount]? = some s) :
    onCurrentStroke c l f =
      some { c with
        Layers := c.Layers.set l
          { L with Strokes := L.Strokes.set (udec64 L.StrokesCount) (f s) } } := by
  simp only [onCurrentStroke, hL, hs]

theorem onCurrentLayer_some (c : Canvas) (l : Nat) (f : Layer → Layer) (L : Layer)
    (hL : c.Layers[l]? = some L) :
    onCurrentLayer c l f = some { c with Layers := c.Layers.set l (f L) } := by
  simp only [onCurrentLayer, hL]

/-- A complete block other than a stroke-control block acts on the current
stroke as `Block.onStroke` says and leaves the rest of the model alone. -/
theorem blockStep_data (b : Block) (hb : b.isControl = false) (τ : Dec) (L : Layer) (S : Stroke)
    (hL : τ.c.Layers[τ.l]? = some L) (hS : L.Strokes[udec64 L.StrokesCount]? = some S) :
    ∃ τ', blockStep b τ = Step.next τ' ∧ τ'.l = τ.l ∧ τ'.c.LayersCount = τ.c.LayersCount ∧
      τ'.c.Layers = τ.c.Layers.set τ.l
        { L with Strokes := L.Strokes.set (udec64 L.StrokesCount) (b.onStroke S) } := by
  cases b with
  | control a id => cases hb
  | position a b0 b1 b2 b3 =>
    simp only [blockStep, onCurrentStroke_some _ _ _ L S hL hS]
    exact ⟨_, rfl, rfl, rfl, rfl⟩
  | pressure a b0 b1 b2 b3 =>
    simp only [blockStep, onCurrentStroke_some _ _ _ L S hL hS]
    exact ⟨_, rfl, rfl, rfl, rfl⟩
  | tilt a b0 b1 b2 b3 =>
    simp only [blockStep, onCurrentStroke_some _ _ _ L S hL hS]
    exact ⟨_, rfl, rfl, rfl, rfl⟩
  | reserved t a p =>
    refine ⟨_, rfl, rfl, rfl, ?_⟩
    simp only [Block.onStroke]
    rw [set_same L.Strokes _ S hS, set_same _ _ L hL]
  | ignored t a =>
    refine ⟨_, rfl, rfl, rfl, ?_⟩
    simp only [Block.onStroke]
    rw [set_same L.Strokes _ S hS, set_same _ _ L hL]

/-- A run of complete blocks without a stroke-control block, met when the last
stroke `S` of the current layer is the current stroke, turns `S` into
`strokeOf run S` and changes nothing else in the model. -/
theorem runBlocks_data (run : List Block) (hrun : ∀ b ∈ run, b.isControl = false)
    (Ls : List Layer) (n cnt : Nat) (L : Layer) (l : Nat) (hl : l < Ls.length)
    (hcnt : udec64 cnt = L.Strokes.length)
    (τ : Dec) (S : Stroke) (hτl : τ.l = l) (hτn : τ.c.LayersCount = n)
    (hτc : τ.c.Layers = Ls.set l { L with Strokes := L.Strokes ++ [S], StrokesCount := cnt }) :
    ∃ τ', runBlocks run τ = Step.next τ' ∧ τ'.l = l ∧ τ'.c.LayersCount = n ∧
      τ'.c.Layers = Ls.set l
        { L with Strokes := L.Strokes ++ [strokeOf run S], StrokesCount := cnt } := by
  induction run generalizing τ S with
  | nil => exact ⟨τ, rfl, hτl, hτn, hτc⟩
  | cons b run ih =>
    have hb : b.isControl = false := hrun b (List.mem_cons_self _ _)
    have hrun' : ∀ b' ∈ run, b'.isControl = false := fun b' h => hrun b' (List.mem_cons_of_mem _ h)
    have h1 : τ.c.Layers[τ.l]? =
        some { L with Strokes := L.Strokes ++ [S], StrokesCount := cnt } := by
      rw [hτc, hτl]; exact List.getElem?_set_self (by simpa using hl)
    have h2 : (L.Strokes ++ [S])[udec64 cnt]? = some S := by
      rw [hcnt]; exact List.getElem?_concat_length _ _
    obtain ⟨τ1, e1, e2, e3, e4⟩ := blockStep_data b hb τ _ S h1 h2
    simp only [runBlocks, e1, strokeOf]
    refine ih hrun' τ1 (b.onStroke S) (e2.trans hτl) (e3.trans hτn) ?_
    rw [e4, hτc, hτl, List.set_set]
    simp only [hcnt, set_concat]

theorem strokeOf_X (run : List Block) (S : Stroke) :
    (strokeOf run S).X = S.X ++ (positions run).map (fun p => transformX p.1) := by
  induction run generalizing S with
  | nil => simp [strokeOf, positions]
  | cons b run ih =>
    cases b <;> simp [strokeOf, positions, ih, Block.onStroke, Stroke.AddCoords,
      Stroke.AddPressure, Stroke.AddTilt]

theorem strokeOf_Y (run : List Block) (S : Stroke) :
    (strokeOf run S).Y = S.Y ++ (positions run).map (fun p => transformY p.2) := by
  induction run generalizing S with
  | nil => simp [strokeOf, positions]
  | cons b run ih =>
    cases b <;> simp [strokeOf, positions, ih, Block.onStroke, Stroke.AddCoords,
      Stroke.AddPressure, Stroke.AddTilt]

theorem positions_length (run : List Block) :
    (positions run).length = run.countP Block.isPosition := by
  induction run with
  | nil => rfl
  | cons b run ih =>
    cases b <;> simp [positions, ih, Block.isPosition]

theorem strokeOf_SegmentsCount (run : List Block) (S : Stroke) :
    (strokeOf run S).SegmentsCount % 2 ^ 64 =
      (S.SegmentsCount + run.countP Block.isPosition) % 2 ^ 64 := by
  induction run generalizing S with
  | nil => simp [strokeOf]
  | cons b run ih =>
    cases b
    all_goals
      simp only [strokeOf, ih, Block.onStroke, Stroke.AddCoords, Stroke.AddPressure,
        Stroke.AddTilt, List.countP_cons, Block.isPosition, uinc64, Bool.false_eq_true, if_false,
        if_true, Nat.add_zero]
    all_goals omega

theorem strokeOf_SegmentsCount_lt (run : List Block) (S : Stroke)
    (h : S.SegmentsCount < 2 ^ 64) : (strokeOf run S).SegmentsCount < 2 ^ 64 := by
  induction run generalizing S with
  | nil => exact h
  | cons b run ih =>
    cases b
    all_goals
      simp only [strokeOf, Block.onStroke]
      apply ih
    all_goals first
      | exact h
      | (simp only [Stroke.AddCoords, uinc64]; omega)

/-! ## The header buffer at the end of the stream -/

theorem Read_nil (n : Nat) : (Read n []).1 = [] ∧ (Read n []).2.2 = [] := by
  unfold Read; split <;> simp

theorem copy4_nil (d : Byte × Byte × Byte × Byte) : copy4 d [] = d := rfl

/-- With nothing left to read, the iteration that follows a header does the
same to the model whatever the second byte of the header buffer holds. -/
theorem body_last (τ : Dec) (hτ : τ.r = []) (b x y : Byte) :
    (body { τ with head := (b, x) } = Step.panic ∧ body { τ with head := (b, y) } = Step.panic) ∨
    ∃ (τ' : Dec) (e1 e2 : Option IOErr), τ'.r = [] ∧
      body { τ with head := (b, x) } = Step.next { τ' with head := (b, x), e := e1 } ∧
      body { τ with head := (b, y) } = Step.next { τ' with head := (b, y), e := e2 } := by
  obtain ⟨c, l, hd, dt, e, r⟩ := τ
  simp only at hτ
  subst hτ
  by_cases h1 : b = BLK_STROKE
  · subst h1
    exact Or.inr ⟨⟨c, l, hd, dt, e, []⟩, some IOErr.EOF, some IOErr.EOF, rfl, rfl, rfl⟩
  by_cases h2 : b = BLK_PEN_XY
  · subst h2
    have hne : BLK_PEN_XY ≠ BLK_STROKE := by decide
    simp only [body, hne, if_false, if_true, copy4_nil, (Read_nil _).1, (Read_nil _).2]
    cases onCurrentStroke c l _ with
    | none => exact Or.inl ⟨rfl, rfl⟩
    | some c' => exact Or.inr ⟨⟨c', l, hd, dt, e, []⟩, _, _, rfl, rfl, rfl⟩
  by_cases h3 : b = BLK_PEN_PRESSURE
  · subst h3
    have hne : BLK_PEN_PRESSURE ≠ BLK_STROKE := by decide
    have hne' : BLK_PEN_PRESSURE ≠ BLK_PEN_XY := by decide
    simp only [body, hne, hne', if_false, if_true, copy4_nil, (Read_nil _).1, (Read_nil _).2]
    cases onCurrentStroke c l _ with
    | none => exact Or.inl ⟨rfl, rfl⟩
    | some c' => exact Or.inr ⟨⟨c', l, hd, dt, e, []⟩, _, _, rfl, rfl, rfl⟩
  by_cases h4 : b = BLK_PEN_TILT
  · subst h4
    have hne : BLK_PEN_TILT ≠ BLK_STROKE := by decide
    have hne' : BLK_PEN_TILT ≠ BLK_PEN_XY := by decide
    have hne'' : BLK_PEN_TILT ≠ BLK_PEN_PRESSURE := by decide
    simp only [body, hne, hne', hne'', if_false, if_true, copy4_nil, (Read_nil _).1,
      (Read_nil _).2]
    cases onCurrentStroke c l _ with
    | none => exact Or.inl ⟨rfl, rfl⟩
    | some c' => exact Or.inr ⟨⟨c', l, hd, dt, e, []⟩, _, _, rfl, rfl, rfl⟩
  by_cases h5 : b = BLK_UNKNOWN_1 ∨ b = BLK_UNKNOWN_2 ∨ b = BLK_UNKNOWN_3
  · simp only [body, h1, h2, h3, h4, h5, if_false, if_true, (Read_nil _).2]
    exact Or.inr ⟨⟨c, l, hd, dt, e, []⟩, _, _, rfl, rfl, rfl⟩
  · simp only [body, h1, h2, h3, h4, h5, if_false]
    exact Or.inr ⟨⟨c, l, hd, dt, e, []⟩, e, e, rfl, rfl, rfl⟩

theorem step_one (σ : Dec) (b : Byte) :
    step { σ with r := [Ev.byte b] } = body { σ with head := (b, σ.head.2), e := none, r := [] } := by
  rfl

/-- On a stream of bytes, what the loop does from a state on does not depend
on what the header buffer and the error variable hold. -/
theorem loop_head_irrel (n : Nat) (σ : Dec) (bs : List Byte) (h : σ.r = ofBytes bs)
    (hd : Byte × Byte) (e : Option IOErr) :
    loop n { σ with head := hd, e := e } = loop n σ := by
  induction n generalizing σ bs hd e with
  | zero => rfl
  | succ n ih =>
    obtain ⟨c, l, hd0, dt, e0, r⟩ := σ
    simp only at h
    subst h
    match bs with
    | [] => rfl
    | [b] =>
      simp only [loop]
      have h1 := step_one ⟨c, l, hd, dt, e, []⟩ b
      have h2 := step_one ⟨c, l, hd0, dt, e0, []⟩ b
      simp only [ofBytes, List.map_cons, List.map_nil] at h1 h2 ⊢
      rw [h1, h2]
      rcases body_last ⟨c, l, hd, dt, none, []⟩ rfl b hd.2 hd0.2 with ⟨p1, p2⟩ | ⟨τ', e1, e2, hτ', p1, p2⟩
      · simp only at p1 p2
        rw [p1, p2]
      · simp only at p1 p2
        rw [p1, p2]
        simp only
        rw [ih τ' [] hτ' (b, hd.2) e1, ih τ' [] hτ' (b, hd0.2) e2]
    | b0 :: b1 :: bs' => rfl

/-! ## The renderer -/

theorem segments_range {α : Type} (style : Int → α) (s : Stroke) (n i : Nat)
    (hX : i + n + 1 ≤ s.X.length) (hY : i + n + 1 ≤ s.Y.length) (hP : i + n + 1 ≤ s.P.length) :
    segments style s n i =
      ⟨(List.range' i n).map (fun j =>
          Cmd.Line (s.X.getD j 0) (s.Y.getD j 0) (s.X.getD (j + 1) 0) (s.Y.getD (j + 1) 0)
            (style (wrap64 (s.P.getD j 0 + s.P.getD (j + 1) 0)))), true⟩ := by
  induction n generalizing i with
  | zero => rfl
  | succ n ih =>
    have e1 : s.P[i]? = some (s.P.getD i 0) := by
      rw [List.getD_eq_getElem?_getD, List.getElem?_eq_getElem (by omega)]; rfl
    have e2 : s.P[i + 1]? = some (s.P.getD (i + 1) 0) := by
      rw [List.getD_eq_getElem?_getD, List.getElem?_eq_getElem (by omega)]; rfl
    have e3 : s.X[i]? = some (s.X.getD i 0) := by
      rw [List.getD_eq_getElem?_getD, List.getElem?_eq_getElem (by omega)]; rfl
    have e4 : s.Y[i]? = some (s.Y.getD i 0) := by
      rw [List.getD_eq_getElem?_getD, List.getElem?_eq_getElem (by omega)]; rfl
    have e5 : s.X[i + 1]? = some (s.X.getD (i + 1) 0) := by
      rw [List.getD_eq_getElem?_getD, List.getElem?_eq_getElem (by omega)]; rfl
    have e6 : s.Y[i + 1]? = some (s.Y.getD (i + 1) 0) := by
      rw [List.getD_eq_getElem?_getD, List.getElem?_eq_getElem (by omega)]; rfl
    simp only [segments, e1, e2, e3, e4, e5, e6]
    rw [ih (i + 1) (by omega) (by omega) (by omega)]
    rfl

theorem renderStroke_full {α : Type} (style : Int → α) (i : Nat) (s : Stroke) (h : s.Full) :
    renderStroke style i s =
      ⟨Cmd.Gid ("s" ++ toString i) :: strokeLines style s ++ [Cmd.Gend], true⟩ := by
  obtain ⟨h1, h2, h3, h4, h5⟩ := h
  have hseg := segments_range style s (s.X.length - 1) 0 (by omega) (by omega) (by omega)
  simp only [renderStroke, h3, udec64_pos _ h1 h5, hseg, if_true, List.range_eq_range',
    strokeLines]

theorem renderStrokes_full {α : Type} (style : Int → α) (i : Nat) (ss : List Stroke)
    (h : ∀ s ∈ ss, s.Full) :
    renderStrokes style i ss = ⟨strokeGroups style i ss, true⟩ := by
  induction ss generalizing i with
  | nil => rfl
  | cons s ss ih =>
    have h1 := renderStroke_full style i s (h s (List.mem_cons_self _ _))
    have h2 := ih (i + 1) (fun s' hs' => h s' (List.mem_cons_of_mem _ hs'))
    simp only [renderStrokes, h1, h2, if_true, strokeGroups]

theorem renderLayers_full {α : Type} (style : Int → α) (ls : List Layer)
    (h : ∀ l ∈ ls, ∀ s ∈ l.Strokes, s.Full) :
    renderLayers style ls = ⟨layerGroups style ls, true⟩ := by
  induction ls with
  | nil => rfl
  | cons l ls ih =>
    have h1 := renderStrokes_full style 0 l.Strokes (h l (List.mem_cons_self _ _))
    have h2 := ih (fun l' hl' => h l' (List.mem_cons_of_mem _ hl'))
    simp only [renderLayers, renderLayer, h1, h2, if_true, layerGroups]

theorem lineCount_strokeLines {α : Type} (style : Int → α) (i : Nat) (s : Stroke) :
    lineCount (Cmd.Gid ("s" ++ toString i) :: strokeLines style s ++ [Cmd.Gend]) =
      s.X.length - 1 := by
  simp only [lineCount, List.filter_cons, List.filter_append, List.filter_nil,
    List.length_append, List.length_nil, Bool.false_eq_true, if_false]
  rw [List.filter_eq_self.mpr]
  · simp [strokeLines]
  · intro c hc
    obtain ⟨j, _, rfl⟩ := List.mem_map.mp hc
    rfl

theorem segments_no_point {α : Type} (style : Int → α) (s : Stroke) (hX : s.X = []) (n i : Nat) :
    segments style s (n + 1) i = ⟨[], false⟩ := by
  have h : s.X[i]? = none := by rw [hX]; rfl
  simp only [segments]
  split
  · rename_i h3 _ _ _
    rw [h] at h3
    cases h3
  · rfl

theorem renderStroke_no_point {α : Type} (style : Int → α) (i : Nat) (s : Stroke)
    (hX : s.X = []) (hC : s.SegmentsCount = 0) :
    renderStroke style i s = ⟨[Cmd.Gid ("s" ++ toString i)], false⟩ := by
  have h0 : udec64 0 = 18446744073709551614 + 1 := by decide
  simp only [renderStroke, hC, h0, segments_no_point style s hX, Bool.false_eq_true, if_false]

theorem renderStroke_one_point {α : Type} (style : Int → α) (i : Nat) (s : Stroke)
    (hC : s.SegmentsCount = 1) :
    renderStroke style i s = ⟨[Cmd.Gid ("s" ++ toString i), Cmd.Gend], true⟩ := by
  have h0 : udec64 1 = 0 := by decide
  have h1 : segments style s 0 0 = ⟨[], true⟩ := rfl
  unfold renderStroke
  rw [hC, h0, h1]
  rfl

theorem render_three_points_two_pressures {α : Type} (style : Int → α) (name : String)
    (x0 x1 x2 y0 y1 y2 p0 p1 : Int) :
    AddLayersToSVG style ⟨[⟨name, [⟨[x0, x1, x2], [y0, y1, y2], [p0, p1], [], [], 3⟩], 1⟩], 1⟩ =
      ⟨[Cmd.Gid name, Cmd.Gid "s0", Cmd.Line x0 y0 x1 y1 (style (wrap64 (p0 + p1)))], false⟩ := by
  have h0 : udec64 3 = 2 := by decide
  have h1 : segments style ⟨[x0, x1, x2], [y0, y1, y2], [p0, p1], [], [], 3⟩ 2 0 =
      ⟨[Cmd.Line x0 y0 x1 y1 (style (wrap64 (p0 + p1)))], false⟩ := rfl
  have h2 : renderStroke style 0 ⟨[x0, x1, x2], [y0, y1, y2], [p0, p1], [], [], 3⟩ =
      ⟨[Cmd.Gid "s0", Cmd.Line x0 y0 x1 y1 (style (wrap64 (p0 + p1)))], false⟩ := by
    simp only [renderStroke, h0, h1, Bool.false_eq_true, if_false]
    rfl
  simp only [AddLayersToSVG, renderLayers, renderLayer, renderStrokes, h2, Bool.false_eq_true,
    if_false]

/-! ## Blocks that are skipped: lemmas -/

/-- A complete block that leaves the model alone can be taken out of a stream
of bytes: `ReadLayers` returns the same with and without it. -/
theorem ReadLayers_skip_block (B : Block) (hB : B.Complete) (hd : Byte × Byte)
    (hstep : ∀ σ : Dec, blockStep B σ = Step.next { σ with head := hd, e := none })
    (pre : List Block) (hpre : ∀ b ∈ pre, b.Complete) (rest : List Byte) :
    ReadLayers (ofBytes (blocksBytes pre ++ B.bytes ++ rest)) =
      ReadLayers (ofBytes (blocksBytes pre ++ rest)) := by
  rw [ReadLayers_of_iter pre.length, ReadLayers_of_iter pre.length]
  have e1 : ofBytes (blocksBytes pre ++ B.bytes ++ rest) =
      ofBytes (blocksBytes pre) ++ (ofBytes B.bytes ++ ofBytes rest) := by
    simp only [ofBytes_append, List.append_assoc]
  have e2 : ofBytes (blocksBytes pre ++ rest) = ofBytes (blocksBytes pre) ++ ofBytes rest :=
    ofBytes_append _ _
  rw [e1, e2, iter_blocks pre hpre, iter_blocks pre hpre]
  cases runBlocks pre init0 with
  | done c e => rfl
  | panic => rfl
  | next σ' =>
    simp only [Step.withReader]
    have hs : step { σ' with r := ofBytes B.bytes ++ ofBytes rest } =
        Step.next { σ' with head := hd, e := none, r := ofBytes rest } := by
      rw [step_block B hB σ' (ofBytes rest), hstep]
      rfl
    rw [loop_succ_next _ _ _ hs]
    have h1 := loop_head_irrel (ofBytes B.bytes ++ ofBytes rest).length
      { σ' with r := ofBytes rest } rest rfl hd none
    simp only at h1
    rw [h1]
    have hlen : 2 ≤ (ofBytes B.bytes).length := by
      cases B <;> simp [ofBytes, Block.bytes]
    exact loop_fuel _ _ _ (by simp only [List.length_append]; omega) (Nat.lt_succ_self _)

/-! ## The position transform in 16 bits: lemmas -/

theorem wrap16_wrap16_add (a b : Int) : wrap16 (wrap16 a + b) = wrap16 (a + b) := by
  unfold wrap16; omega

theorem wrap16_of_range (a : Int) (h0 : -32768 ≤ a) (h1 : a ≤ 32767) : wrap16 a = a := by
  unfold wrap16; omega

theorem wrap16_range (a : Int) : -32768 ≤ wrap16 a ∧ wrap16 a ≤ 32767 := by
  unfold wrap16; omega

theorem tdiv8_bounds (a : Int) : 8 * Int.tdiv a 8 ≤ a + 7 ∧ a - 7 ≤ 8 * Int.tdiv a 8 ∧
    (0 ≤ a → 0 ≤ Int.tdiv a 8 ∧ 8 * Int.tdiv a 8 ≤ a) ∧
    (a ≤ 0 → Int.tdiv a 8 ≤ 0 ∧ a ≤ 8 * Int.tdiv a 8) := by
  rcases lt_or_le a 0 with h | h
  · rw [tdiv8_neg a h]; omega
  · rw [tdiv8_nonneg a h]; omega

/-- The value that line 145 assigns to `x`: only the sum `x + 5` wraps. -/
theorem transformX_eq (x : Int) :
    transformX x = Int.tdiv (wrap16 (x + 5)) 8 + 1414 := by
  unfold transformX
  have hw := wrap16_range (x + 5)
  have hb := tdiv8_bounds (wrap16 (x + 5))
  apply wrap16_of_range <;> omega

/-- The value that line 146 assigns to `y`: the product and the sum wrap, the
quotient does not. -/
theorem transformY_eq (y : Int) : transformY y = Int.tdiv (wrap16 (2 * y + 5)) 8 := by
  unfold transformY
  rw [wrap16_wrap16_add]
  have hw := wrap16_range (2 * y + 5)
  have hb := tdiv8_bounds (wrap16 (2 * y + 5))
  apply wrap16_of_range <;> omega

theorem transformX_exact_iff (x : Int) (h0 : -32768 ≤ x) (h1 : x ≤ 32767) :
    transformX x = Int.tdiv (x + 5) 8 + 1414 ↔ x ≤ 32762 := by
  constructor
  · intro h
    by_contra hx
    rw [transformX_eq x] at h
    have hw : wrap16 (x + 5) = x + 5 - 65536 := by unfold wrap16; omega
    rw [hw] at h
    have hb1 := tdiv8_bounds (x + 5 - 65536)
    have hb2 := tdiv8_bounds (x + 5)
    omega
  · exact transformX_exact x h0

theorem transformY_exact_iff (y : Int) (h0 : -32768 ≤ y) (h1 : y ≤ 32767) :
    transformY y = Int.tdiv (2 * y + 5) 8 ↔ (-16386 ≤ y ∧ y ≤ 16381) := by
  constructor
  · intro h
    rw [transformY_eq y] at h
    by_contra hy
    have hb2 := tdiv8_bounds (2 * y + 5)
    rcases lt_or_le y (-16386) with hlt | hge
    · have hw : wrap16 (2 * y + 5) = 2 * y + 5 + 65536 := by unfold wrap16; omega
      rw [hw] at h
      have hb1 := tdiv8_bounds (2 * y + 5 + 65536)
      omega
    · have hw : wrap16 (2 * y + 5) = 2 * y + 5 - 65536 := by unfold wrap16; omega
      rw [hw] at h
      have hb1 := tdiv8_bounds (2 * y + 5 - 65536)
      omega
  · intro h
    exact transformY_exact y h.1 h.2

/-! ## Reads on a stream of bytes: lemmas -/

theorem takeBytes_bytes (n : Nat) (bs : List Byte) :
    takeBytes n (ofBytes bs) = (bs.take n, ofBytes (bs.drop n)) := by
  induction bs generalizing n with
  | nil => cases n <;> rfl
  | cons b bs ih =>
    cases n with
    | zero => rfl
    | succ n =>
      show ((b :: (takeBytes n (ofBytes bs)).1), (takeBytes n (ofBytes bs)).2) = _
      rw [ih n]
      rfl

/-- A read on a stream of bytes. -/
theorem Read_bytes (n : Nat) (bs : List Byte) :
    Read n (ofBytes bs) =
      (bs.take n, (if n = 0 ∨ bs ≠ [] then none else some IOErr.EOF), ofBytes (bs.drop n)) := by
  cases n with
  | zero => simp [Read]
  | succ n =>
    cases bs with
    | nil => simp [Read, ofBytes]
    | cons b bs =>
      show (b :: (takeBytes n (ofBytes bs)).1, none, (takeBytes n (ofBytes bs)).2) = _
      rw [takeBytes_bytes]
      simp

theorem usub8_2_eq (a : Byte) : (usub8_2 a : Int) = ((a.val : Int) - 2) % 256 := by
  unfold usub8_2
  have := a.isLt
  omega

/-! ## Well-formed canvases: lemmas -/

theorem AddCoords_wellFormed (s : Stroke) (x y : Int) (h : s.WellFormed)
    (hb : s.X.length + 1 < 2 ^ 64) : (s.AddCoords x y).WellFormed := by
  obtain ⟨h1, h2, h3⟩ := h
  refine ⟨?_, ?_, h3⟩
  · simp [Stroke.AddCoords, h1]
  · simp only [Stroke.AddCoords, List.length_append, List.length_singleton, h2, uinc64]
    omega

theorem AddPressure_wellFormed (s : Stroke) (p : Int) (h : s.WellFormed) :
    (s.AddPressure p).WellFormed := h

theorem AddTilt_wellFormed (s : Stroke) (tx ty : Byte) (h : s.WellFormed) :
    (s.AddTilt tx ty).WellFormed := by
  obtain ⟨h1, h2, h3⟩ := h
  exact ⟨h1, h2, by simp [Stroke.AddTilt, h3]⟩

theorem StrokeOp_wellFormed (f : Stroke → Stroke) (hf : StrokeOp f) (s : Stroke)
    (h : s.WellFormed) (hb : s.X.length + 1 < 2 ^ 64) :
    (f s).WellFormed ∧ (f s).X.length ≤ s.X.length + 1 := by
  rcases hf with ⟨x, y, rfl⟩ | ⟨p, rfl⟩ | ⟨tx, ty, rfl⟩
  · exact ⟨AddCoords_wellFormed s x y h hb, by simp [Stroke.AddCoords]⟩
  · exact ⟨AddPressure_wellFormed s p h, by simp [Stroke.AddPressure]⟩
  · exact ⟨AddTilt_wellFormed s tx ty h, by simp [Stroke.AddTilt]⟩

theorem zeroStroke_wellFormed : Stroke.zero.WellFormed := ⟨rfl, rfl, rfl⟩

theorem AddStroke_wellFormed (L : Layer) (h : L.WellFormed)
    (hb : L.Strokes.length + 1 < 2 ^ 64) : L.AddStroke.WellFormed := by
  obtain ⟨h1, h2⟩ := h
  refine ⟨?_, ?_⟩
  · simp only [Layer.AddStroke, List.length_append, List.length_singleton, h1, uinc64]
    omega
  · intro s hs
    simp only [Layer.AddStroke, List.mem_append, List.mem_singleton] at hs
    rcases hs with hs | rfl
    · exact h2 s hs
    · exact zeroStroke_wellFormed

theorem zeroLayer_wellFormed : Layer.zero.WellFormed :=
  ⟨rfl, fun s hs => by cases hs⟩

theorem AddLayer_wellFormed (c : Canvas) (h : c.WellFormed)
    (hb : c.Layers.length + 1 < 2 ^ 64) : c.AddLayer.WellFormed := by
  obtain ⟨h1, h2, h3⟩ := h
  refine ⟨?_, ?_, ?_⟩
  · simp [Canvas.AddLayer]
  · simp only [Canvas.AddLayer, List.length_append, List.length_singleton, h2, uinc64]
    omega
  · intro L hL
    simp only [Canvas.AddLayer, List.mem_append, List.mem_singleton] at hL
    rcases hL with hL | rfl
    · exact h3 L hL
    · exact zeroLayer_wellFormed

theorem mem_of_getElem? {α : Type} (l : List α) (i : Nat) (a : α) (h : l[i]? = some a) :
    a ∈ l := by
  have hi := getElem?_lt_length l i a h
  rw [List.getElem?_eq_getElem hi] at h
  injection h with h
  exact h ▸ List.getElem_mem hi

/-- Replacing the layer that `l` points to by a well formed layer. -/
theorem set_layer_wellFormed (c : Canvas) (l : Nat) (L' : Layer) (B : Nat)
    (h : c.WellFormed) (hw : c.Within B) (hL' : L'.WellFormed)
    (hB : L'.Strokes.length ≤ B + 1 ∧ ∀ s ∈ L'.Strokes, s.X.length ≤ B + 1) :
    ({ c with Layers := c.Layers.set l L' } : Canvas).WellFormed ∧
    ({ c with Layers := c.Layers.set l L' } : Canvas).Within (B + 1) := by
  obtain ⟨h1, h2, h3⟩ := h
  obtain ⟨w1, w2⟩ := hw
  refine ⟨⟨?_, ?_, ?_⟩, ?_, ?_⟩
  · simpa using h1
  · simpa using h2
  · intro L hL
    rcases List.mem_or_eq_of_mem_set hL with hL | rfl
    · exact h3 L hL
    · exact hL'
  · simp only [List.length_set]; omega
  · intro L hL
    rcases List.mem_or_eq_of_mem_set hL with hL | rfl
    · exact ⟨Nat.le_succ_of_le (w2 L hL).1, fun s hs => Nat.le_succ_of_le ((w2 L hL).2 s hs)⟩
    · exact hB

theorem onCurrentLayer_wellFormed (c c' : Canvas) (l B : Nat) (h : c.WellFormed)
    (hw : c.Within B) (hB : B + 1 < 2 ^ 64)
    (hc : onCurrentLayer c l Layer.AddStroke = some c') :
    c'.WellFormed ∧ c'.Within (B + 1) ∧ c'.Layers.length = c.Layers.length := by
  simp only [onCurrentLayer] at hc
  split at hc
  · cases hc
  · rename_i L hL
    injection hc with hc
    subst hc
    have hmem := mem_of_getElem? _ _ _ hL
    have hLw := h.2.2 L hmem
    have hLb := hw.2 L hmem
    have := set_layer_wellFormed c l L.AddStroke B h hw
      (AddStroke_wellFormed L hLw (by omega))
      ⟨by simp only [Layer.AddStroke, List.length_append, List.length_singleton]; omega,
       by
        intro s hs
        simp only [Layer.AddStroke, List.mem_append, List.mem_singleton] at hs
        rcases hs with hs | rfl
        · exact Nat.le_succ_of_le (hLb.2 s hs)
        · simp [Stroke.zero]⟩
    exact ⟨this.1, this.2, by simp⟩

theorem onCurrentStroke_wellFormed (c c' : Canvas) (l B : Nat) (f : Stroke → Stroke)
    (hf : StrokeOp f) (h : c.WellFormed) (hw : c.Within B) (hB : B + 1 < 2 ^ 64)
    (hc : onCurrentStroke c l f = some c') :
    c'.WellFormed ∧ c'.Within (B + 1) ∧ c'.Layers.length = c.Layers.length := by
  simp only [onCurrentStroke] at hc
  split at hc
  · cases hc
  · rename_i L hL
    split at hc
    · cases hc
    · rename_i s hs
      injection hc with hc
      subst hc
      have hmem := mem_of_getElem? _ _ _ hL
      have hsmem := mem_of_getElem? _ _ _ hs
      have hLw := h.2.2 L hmem
      have hLb := hw.2 L hmem
      have hfs := StrokeOp_wellFormed f hf s (hLw.2 s hsmem) (by have := hLb.2 s hsmem; omega)
      have := set_layer_wellFormed c l
        { L with Strokes := L.Strokes.set (udec64 L.StrokesCount) (f s) } B h hw
        ⟨by simpa using hLw.1, by
          intro s' hs'
          rcases List.mem_or_eq_of_mem_set hs' with hs' | rfl
          · exact hLw.2 s' hs'
          · exact hfs.1⟩
        ⟨by simp only [List.length_set]; omega, by
          intro s' hs'
          rcases List.mem_or_eq_of_mem_set hs' with hs' | rfl
          · exact Nat.le_succ_of_le (hLb.2 s' hs')
          · have := hLb.2 s hsmem
            omega⟩
      exact ⟨this.1, this.2, by simp⟩

/-- What an iteration can do to the canvas and to the pointer `l`: nothing, add
a layer and point to it, add a stroke to the current layer, or call one method
on the current stroke. -/
theorem body_effect (σ σ' : Dec) (h : body σ = Step.next σ') :
    (σ'.c = σ.c ∧ σ'.l = σ.l) ∨
    (σ'.c = σ.c.AddLayer ∧ σ'.l = udec64 σ.c.AddLayer.LayersCount ∧
      σ'.l < σ.c.AddLayer.Layers.length) ∨
    (onCurrentLayer σ.c σ.l Layer.AddStroke = some σ'.c ∧ σ'.l = σ.l) ∨
    (∃ f, StrokeOp f ∧ onCurrentStroke σ.c σ.l f = some σ'.c ∧ σ'.l = σ.l) := by
  dsimp only [body] at h
  split_ifs at h with h1 h2 h3 h4 h5 h6 h7 h8
  · injection h with h; subst h
    exact Or.inr (Or.inl ⟨rfl, rfl, h3⟩)
  · split at h
    · injection h
    · rename_i c hc
      injection h with h; subst h
      exact Or.inr (Or.inr (Or.inl ⟨hc, rfl⟩))
  · injection h with h; subst h
    exact Or.inl ⟨rfl, rfl⟩
  · split at h
    · injection h
    · rename_i c hc
      injection h with h; subst h
      exact Or.inr (Or.inr (Or.inr ⟨_, Or.inl ⟨_, _, rfl⟩, hc, rfl⟩))
  · split at h
    · injection h
    · rename_i c hc
      injection h with h; subst h
      exact Or.inr (Or.inr (Or.inr ⟨_, Or.inr (Or.inl ⟨_, rfl⟩), hc, rfl⟩))
  · split at h
    · injection h
    · rename_i c hc
      injection h with h; subst h
      exact Or.inr (Or.inr (Or.inr ⟨_, Or.inr (Or.inr ⟨_, _, rfl⟩), hc, rfl⟩))
  · injection h with h; subst h
    exact Or.inl ⟨rfl, rfl⟩
  · injection h with h; subst h
    exact Or.inl ⟨rfl, rfl⟩

theorem Within_mono (c : Canvas) (B : Nat) (h : c.Within B) : c.Within (B + 1) :=
  ⟨Nat.le_succ_of_le h.1, fun L hL =>
    ⟨Nat.le_succ_of_le (h.2 L hL).1, fun s hs => Nat.le_succ_of_le ((h.2 L hL).2 s hs)⟩⟩

theorem AddLayer_within (c : Canvas) (B : Nat) (h : c.Within B) : c.AddLayer.Within (B + 1) := by
  refine ⟨by simp only [Canvas.AddLayer, List.length_append, List.length_singleton]
             exact Nat.succ_le_succ h.1, ?_⟩
  intro L hL
  simp only [Canvas.AddLayer, List.mem_append, List.mem_singleton] at hL
  rcases hL with hL | rfl
  · exact ⟨Nat.le_succ_of_le (h.2 L hL).1, fun s hs => Nat.le_succ_of_le ((h.2 L hL).2 s hs)⟩
  · exact ⟨Nat.zero_le _, fun s hs => by cases hs⟩

/-- An iteration that goes on keeps the invariant, with slices longer by one
at most. -/
theorem body_Inv (B : Nat) (σ σ' : Dec) (hI : σ.Inv B) (hB : B + 1 < 2 ^ 64)
    (h : body σ = Step.next σ') : σ'.Inv (B + 1) := by
  obtain ⟨hw, hb, hl⟩ := hI
  rcases body_effect σ σ' h with ⟨e1, e2⟩ | ⟨e1, e2, _⟩ | ⟨e1, e2⟩ | ⟨f, hf, e1, e2⟩
  · exact ⟨e1 ▸ hw, e1 ▸ Within_mono _ _ hb, by rw [e1, e2]; exact hl⟩
  · have hlen : σ.c.Layers.length + 1 < 2 ^ 64 := by have := hb.1; omega
    refine ⟨e1 ▸ AddLayer_wellFormed _ hw hlen, e1 ▸ AddLayer_within _ _ hb, ?_⟩
    rw [e2, e1]
    simp only [Canvas.AddLayer, List.length_append, List.length_singleton, hw.2.1, uinc64,
      udec64]
    omega
  · obtain ⟨a, b, c⟩ := onCurrentLayer_wellFormed _ _ _ _ hw hb hB e1
    exact ⟨a, b, by rw [e2, c]; exact hl⟩
  · obtain ⟨a, b, c⟩ := onCurrentStroke_wellFormed _ _ _ _ f hf hw hb hB e1
    exact ⟨a, b, by rw [e2, c]; exact hl⟩

theorem step_Inv (B : Nat) (σ σ' : Dec) (hI : σ.Inv B) (hB : B + 1 < 2 ^ 64)
    (h : step σ = Step.next σ') : σ'.Inv (B + 1) := by
  dsimp only [step] at h
  split_ifs at h
  exact body_Inv B
    { σ with head := copy2 σ.head (Read 2 σ.r).1, e := (Read 2 σ.r).2.1, r := (Read 2 σ.r).2.2 }
    σ' hI hB h

theorem step_done_canvas (σ : Dec) (c : Canvas) (e : Option IOErr)
    (h : step σ = Step.done c e) : c = σ.c := by
  dsimp only [step] at h
  split_ifs at h
  · injection h with h1 _
    exact h1.symm
  · exact absurd h (body_ne_done _ _ _)

/-- The canvas that the loop returns is well formed. -/
theorem loop_wellFormed (n B : Nat) (σ : Dec) (hI : σ.Inv B) (hB : B + n < 2 ^ 64)
    (c : Canvas) (e : Option IOErr) (h : loop n σ = Outcome.ret c e) : c.WellFormed := by
  induction n generalizing B σ with
  | zero => simp [loop] at h
  | succ n ih =>
    simp only [loop] at h
    cases hs : step σ with
    | next σ' =>
      rw [hs] at h
      exact ih (B + 1) σ' (step_Inv B σ σ' hI (by omega) hs) (by omega) h
    | done c' e' =>
      rw [hs] at h
      injection h with h1 _
      rw [← h1, step_done_canvas σ c' e' hs]
      exact hI.1
    | panic => rw [hs] at h; cases h

theorem init0_Inv (r : Reader) : ({ init0 with r := r } : Dec).Inv 1 := by
  refine ⟨⟨Nat.le_refl 1, rfl, ?_⟩, ⟨Nat.le_refl 1, ?_⟩, rfl⟩
  · intro L hL
    simp only [init0, List.mem_singleton] at hL
    subst hL
    exact ⟨rfl, fun s hs => by cases hs⟩
  · intro L hL
    simp only [init0, List.mem_singleton] at hL
    subst hL
    exact ⟨by decide, fun s hs => by cases hs⟩

/-! ## Data blocks and the stroke they are added to: lemmas -/

theorem onCurrentStroke_of_has (σ : Dec) (f : Stroke → Stroke) (h : σ.HasStroke) :
    ∃ L s, σ.c.Layers[σ.l]? = some L ∧ L.Strokes[udec64 L.StrokesCount]? = some s ∧
      onCurrentStroke σ.c σ.l f =
        some { σ.c with
          Layers := σ.c.Layers.set σ.l
            { L with Strokes := L.Strokes.set (udec64 L.StrokesCount) (f s) } } := by
  obtain ⟨L, s, hL, hs⟩ := h
  exact ⟨L, s, hL, hs, onCurrentStroke_some _ _ _ L s hL hs⟩

theorem onCurrentStroke_of_no (σ : Dec) (f : Stroke → Stroke) (h : σ.NoStroke) :
    onCurrentStroke σ.c σ.l f = none := by
  obtain ⟨L, hL, h1, h2⟩ := h
  simp only [onCurrentStroke, hL, h1, h2]
  rfl

/-- A method called on the current stroke leaves a current stroke. -/
theorem HasStroke_after_op (σ σ' : Dec) (f : Stroke → Stroke)
    (hc : onCurrentStroke σ.c σ.l f = some σ'.c) (hl : σ'.l = σ.l) : σ'.HasStroke := by
  simp only [onCurrentStroke] at hc
  split at hc
  · cases hc
  · rename_i L hL
    split at hc
    · cases hc
    · rename_i s hs
      injection hc with hc
      refine ⟨{ L with Strokes := L.Strokes.set (udec64 L.StrokesCount) (f s) }, f s, ?_, ?_⟩
      · rw [← hc, hl]
        exact List.getElem?_set_self (getElem?_lt_length _ _ _ hL)
      · exact List.getElem?_set_self (getElem?_lt_length _ _ _ hs)

/-- Under the invariant `l.AddStroke()` succeeds and leaves a current stroke. -/
theorem AddStroke_has (B : Nat) (σ : Dec) (hI : σ.Inv B) (hB : B + 1 < 2 ^ 64) :
    ∃ c', onCurrentLayer σ.c σ.l Layer.AddStroke = some c' ∧
      ∀ σ' : Dec, σ'.c = c' → σ'.l = σ.l → σ'.HasStroke := by
  obtain ⟨hw, hb, hl⟩ := hI
  have hlt : σ.l < σ.c.Layers.length := by omega
  have hL : σ.c.Layers[σ.l]? = some (σ.c.Layers[σ.l]) := List.getElem?_eq_getElem hlt
  have hmem := mem_of_getElem? _ _ _ hL
  have hLw := hw.2.2 _ hmem
  have hLb := hb.2 _ hmem
  refine ⟨_, onCurrentLayer_some _ _ _ _ hL, ?_⟩
  intro σ' hc' hl'
  refine ⟨(σ.c.Layers[σ.l]).AddStroke, Stroke.zero, ?_, ?_⟩
  · rw [hc', hl']
    exact List.getElem?_set_self hlt
  · have hidx : udec64 (σ.c.Layers[σ.l]).AddStroke.StrokesCount
        = (σ.c.Layers[σ.l]).Strokes.length := by
      simp only [Layer.AddStroke, hLw.1, uinc64, udec64]
      omega
    rw [hidx]
    exact List.getElem?_concat_length _ _

/-- Under the invariant `c.AddLayer()` and the assignment to `l` succeed and
leave a current layer without a stroke. -/
theorem AddLayer_no (B : Nat) (σ : Dec) (hI : σ.Inv B) (hB : B + 1 < 2 ^ 64) :
    udec64 σ.c.AddLayer.LayersCount < σ.c.AddLayer.Layers.length ∧
    ∀ σ' : Dec, σ'.c = σ.c.AddLayer → σ'.l = udec64 σ.c.AddLayer.LayersCount → σ'.NoStroke := by
  obtain ⟨hw, hb, hl⟩ := hI
  have hidx : udec64 σ.c.AddLayer.LayersCount = σ.c.Layers.length := by
    have := hb.1
    simp only [Canvas.AddLayer, hw.2.1, uinc64, udec64]
    omega
  refine ⟨by rw [hidx]; simp [Canvas.AddLayer], ?_⟩
  intro σ' hc' hl'
  refine ⟨Layer.zero, ?_, rfl, rfl⟩
  rw [hc', hl', hidx]
  exact List.getElem?_concat_length _ _

theorem blockStep_Inv (b : Block) (hb : b.Complete) (B : Nat) (σ σ' : Dec) (hI : σ.Inv B)
    (hB : B + 1 < 2 ^ 64) (h : blockStep b σ = Step.next σ') : σ'.Inv (B + 1) := by
  have hs := step_block b hb σ []
  rw [h] at hs
  exact step_Inv B { σ with r := ofBytes b.bytes ++ [] } { σ' with r := [] } hI hB hs

/-- A complete block on a state that keeps the invariant: the decoder stops on
an index out of range exactly when `scanBlock` says so, and otherwise goes on
in a state that `scanBlock` tracks. -/
theorem blockStep_track (b : Block) (hb : b.Complete) (B : Nat) (σ : Dec) (has : Bool)
    (hI : σ.Inv B) (hB : B + 1 < 2 ^ 64) (hT : σ.Track has) :
    (scanBlock has b = none ∧ blockStep b σ = Step.panic) ∨
    (∃ has' σ', scanBlock has b = some has' ∧ blockStep b σ = Step.next σ' ∧
      σ'.Inv (B + 1) ∧ σ'.Track has') := by
  have data : ∀ (f : Stroke → Stroke) (hd : Byte × Byte) (dt : Byte × Byte × Byte × Byte),
      ((if has then some true else none : Option Bool) = none ∧
        (match onCurrentStroke σ.c σ.l f with
          | none => Step.panic
          | some c => Step.next { σ with c := c, head := hd, data := dt, e := none }) =
          Step.panic) ∨
      (∃ has' σ', (if has then some true else none : Option Bool) = some has' ∧
        (match onCurrentStroke σ.c σ.l f with
          | none => Step.panic
          | some c => Step.next { σ with c := c, head := hd, data := dt, e := none }) =
          Step.next σ' ∧ σ'.Track has' ∧ σ'.l = σ.l) := by
    intro f hd dt
    cases has with
    | false =>
      left
      rw [onCurrentStroke_of_no σ f (hT.2 rfl)]
      exact ⟨rfl, rfl⟩
    | true =>
      right
      obtain ⟨L, s, hL, hs, hc⟩ := onCurrentStroke_of_has σ f (hT.1 rfl)
      rw [hc]
      exact ⟨true, _, rfl, rfl,
        And.intro (fun _ => HasStroke_after_op σ _ f hc rfl) (fun h => by cases h), rfl⟩
  cases b with
  | control a id =>
    right
    by_cases h1 : id = ID_LAYER
    · subst h1
      obtain ⟨hlt, hno⟩ := AddLayer_no B σ hI hB
      have hbs : blockStep (Block.control a ID_LAYER) σ =
          Step.next { σ with c := σ.c.AddLayer, l := udec64 σ.c.AddLayer.LayersCount,
                             head := (BLK_STROKE, a), e := none } := by
        simp only [blockStep, hlt, if_true]
      exact ⟨false, _, by simp only [scanBlock, if_true], hbs,
        blockStep_Inv _ hb B σ _ hI hB hbs,
        And.intro (fun h => by cases h) (fun _ => hno _ rfl rfl)⟩
    · by_cases h2 : id = ID_STROKE_BEGIN
      · subst h2
        obtain ⟨c', hc', hhas⟩ := AddStroke_has B σ hI hB
        have hbs : blockStep (Block.control a ID_STROKE_BEGIN) σ =
            Step.next { σ with c := c', head := (BLK_STROKE, a), e := none } := by
          simp only [blockStep, h1, hc', if_true, if_false]
        exact ⟨true, _, by simp only [scanBlock, h1, if_true, if_false], hbs,
          blockStep_Inv _ hb B σ _ hI hB hbs,
          And.intro (fun _ => hhas _ rfl rfl) (fun h => by cases h)⟩
      · have hbs : blockStep (Block.control a id) σ =
            Step.next { σ with head := (BLK_STROKE, a), e := none } := by
          simp only [blockStep, h1, h2, if_false]
        exact ⟨has, _, by simp only [scanBlock, h1, h2, if_false], hbs,
          blockStep_Inv _ hb B σ _ hI hB hbs, hT⟩
  | position a b0 b1 b2 b3 =>
    rcases data (Block.position a b0 b1 b2 b3).onStroke (BLK_PEN_XY, a) (b0, b1, b2, b3) with
      ⟨h1, h2⟩ | ⟨has', σ', h1, h2, h3, _⟩
    · exact Or.inl ⟨h1, h2⟩
    · exact Or.inr ⟨has', σ', h1, h2, blockStep_Inv _ hb B σ σ' hI hB h2, h3⟩
  | pressure a b0 b1 b2 b3 =>
    rcases data (Block.pressure a b0 b1 b2 b3).onStroke (BLK_PEN_PRESSURE, a)
      (b0, b1, b2, b3) with ⟨h1, h2⟩ | ⟨has', σ', h1, h2, h3, _⟩
    · exact Or.inl ⟨h1, h2⟩
    · exact Or.inr ⟨has', σ', h1, h2, blockStep_Inv _ hb B σ σ' hI hB h2, h3⟩
  | tilt a b0 b1 b2 b3 =>
    rcases data (Block.tilt a b0 b1 b2 b3).onStroke (BLK_PEN_TILT, a) (b0, b1, b2, b3) with
      ⟨h1, h2⟩ | ⟨has', σ', h1, h2, h3, _⟩
    · exact Or.inl ⟨h1, h2⟩
    · exact Or.inr ⟨has', σ', h1, h2, blockStep_Inv _ hb B σ σ' hI hB h2, h3⟩
  | reserved t a p =>
    exact Or.inr ⟨has, _, rfl, rfl, blockStep_Inv _ hb B σ _ hI hB rfl, hT⟩
  | ignored t a =>
    exact Or.inr ⟨has, _, rfl, rfl, blockStep_Inv _ hb B σ _ hI hB rfl, hT⟩

/-- The same for a sequence of complete blocks. -/
theorem runBlocks_track (bl : List Block) (hbl : ∀ b ∈ bl, b.Complete) (B : Nat) (σ : Dec)
    (has : Bool) (hI : σ.Inv B) (hB : B + bl.length < 2 ^ 64) (hT : σ.Track has) :
    (scanBlocks has bl = none ∧ runBlocks bl σ = Step.panic) ∨
    (∃ has' σ', scanBlocks has bl = some has' ∧ runBlocks bl σ = Step.next σ' ∧
      σ'.Inv (B + bl.length) ∧ σ'.Track has') := by
  induction bl generalizing B σ has with
  | nil => exact Or.inr ⟨has, σ, rfl, rfl, hI, hT⟩
  | cons b bl ih =>
    have hb : b.Complete := hbl b (List.mem_cons_self _ _)
    have hbl' : ∀ b' ∈ bl, b'.Complete := fun b' h => hbl b' (List.mem_cons_of_mem _ h)
    simp only [List.length_cons] at hB
    rcases blockStep_track b hb B σ has hI (by omega) hT with
      ⟨h1, h2⟩ | ⟨has1, σ1, h1, h2, h3, h4⟩
    · left
      simp only [scanBlocks, runBlocks, h1, h2]
      exact ⟨trivial, trivial⟩
    · rcases ih hbl' (B + 1) σ1 has1 h3 (by omega) h4 with
        ⟨k1, k2⟩ | ⟨has', σ', k1, k2, k3, k4⟩
      · left
        simp only [scanBlocks, runBlocks, h1, h2]
        exact ⟨k1, k2⟩
      · right
        refine ⟨has', σ', ?_, ?_, ?_, k4⟩
        · simp only [scanBlocks, h1]; exact k1
        · simp only [runBlocks, h2]; exact k2
        · simp only [List.length_cons]
          rw [show B + (bl.length + 1) = B + 1 + bl.length by omega]
          exact k3

theorem ofBytes_drop_nil (p : List Byte) (n : Nat) (h : p.length ≤ n) :
    ofBytes (p.drop n) = [] := by
  rw [List.drop_eq_nil_of_le h]; rfl

/-- The iteration that takes the last, truncated block of a stream: it stops on
an index out of range when the block is a data block and the current layer has
no stroke, and otherwise goes on with nothing left to read. -/
theorem body_truncated (τ : Dec) (has : Bool) (hT : τ.Track has) (p : List Byte)
    (hr : τ.r = ofBytes p)
    (h241 : τ.head.1 = BLK_STROKE → p = [])
    (hdata : isDataTag τ.head.1 = true → p.length ≤ 4)
    (hres : isReserved τ.head.1 → p.length ≤ usub8_2 τ.head.2)
    (hoth : τ.head.1 ≠ BLK_STROKE → isDataTag τ.head.1 = false → ¬ isReserved τ.head.1 →
      p = []) :
    (isDataTag τ.head.1 = true ∧ has = false ∧ body τ = Step.panic) ∨
    (¬ (isDataTag τ.head.1 = true ∧ has = false) ∧ ∃ τ', body τ = Step.next τ' ∧ τ'.r = []) := by
  obtain ⟨c, l, ⟨t, a⟩, dt, e, r⟩ := τ
  simp only at hr h241 hdata hres hoth
  subst hr
  have datacase : ∀ (f : Stroke → Stroke) (e' : Option IOErr) (dt' : Byte × Byte × Byte × Byte),
      isDataTag t = true →
      (isDataTag t = true ∧ has = false ∧
        (match onCurrentStroke c l f with
          | none => Step.panic
          | some c' => Step.next ⟨c', l, (t, a), dt', e', ofBytes (p.drop 4)⟩) = Step.panic) ∨
      (¬ (isDataTag t = true ∧ has = false) ∧ ∃ τ',
        (match onCurrentStroke c l f with
          | none => Step.panic
          | some c' => Step.next ⟨c', l, (t, a), dt', e', ofBytes (p.drop 4)⟩) = Step.next τ' ∧
        τ'.r = []) := by
    intro f e' dt' hd
    cases has with
    | false =>
      left
      have := onCurrentStroke_of_no ⟨c, l, (t, a), dt, e, ofBytes p⟩ f (hT.2 rfl)
      simp only at this
      rw [this]
      exact ⟨hd, rfl, rfl⟩
    | true =>
      right
      obtain ⟨L, s, _, _, hc⟩ := onCurrentStroke_of_has ⟨c, l, (t, a), dt, e, ofBytes p⟩ f
        (hT.1 rfl)
      simp only at hc
      rw [hc]
      exact ⟨(fun h => by cases h.2), _, rfl, ofBytes_drop_nil p 4 (hdata hd)⟩
  by_cases h1 : t = BLK_STROKE
  · subst h1
    have hp := h241 rfl
    subst hp
    exact Or.inr ⟨(fun h => by cases h.1), ⟨c, l, (BLK_STROKE, a), dt, some IOErr.EOF, []⟩, rfl, rfl⟩
  by_cases h2 : t = BLK_PEN_XY
  · subst h2
    have hne : BLK_PEN_XY ≠ BLK_STROKE := by decide
    simp only [body, hne, if_false, if_true, Read_bytes]
    exact datacase _ _ _ rfl
  by_cases h3 : t = BLK_PEN_PRESSURE
  · subst h3
    have hne : BLK_PEN_PRESSURE ≠ BLK_STROKE := by decide
    have hne' : BLK_PEN_PRESSURE ≠ BLK_PEN_XY := by decide
    simp only [body, hne, hne', if_false, if_true, Read_bytes]
    exact datacase _ _ _ rfl
  by_cases h4 : t = BLK_PEN_TILT
  · subst h4
    have hne : BLK_PEN_TILT ≠ BLK_STROKE := by decide
    have hne' : BLK_PEN_TILT ≠ BLK_PEN_XY := by decide
    have hne'' : BLK_PEN_TILT ≠ BLK_PEN_PRESSURE := by decide
    simp only [body, hne, hne', hne'', if_false, if_true, Read_bytes]
    exact datacase _ _ _ rfl
  have hnd : isDataTag t = false := by
    simp only [isDataTag, h2, h3, h4, or_self, decide_False]
  by_cases h5 : t = BLK_UNKNOWN_1 ∨ t = BLK_UNKNOWN_2 ∨ t = BLK_UNKNOWN_3
  · simp only [body, h1, h2, h3, h4, h5, if_false, if_true, Read_bytes]
    exact Or.inr ⟨(fun h => by rw [hnd] at h; cases h.1), _, rfl, ofBytes_drop_nil p _ (hres h5)⟩
  · have hp := hoth h1 hnd h5
    subst hp
    simp only [body, h1, h2, h3, h4, h5, if_false]
    exact Or.inr ⟨(fun h => by rw [hnd] at h; cases h.1), _, rfl, rfl⟩

theorem isDataTag_not_stroke (t : Byte) (h : isDataTag t = true) : t ≠ BLK_STROKE := by
  intro ht; subst ht; revert h; decide

theorem isDataTag_not_reserved (t : Byte) (h : isDataTag t = true) : ¬ isReserved t := by
  simp only [isDataTag, decide_eq_true_eq] at h
  rcases h with h | h | h <;> subst h <;> decide

theorem isReserved_not_stroke (t : Byte) (h : isReserved t) : t ≠ BLK_STROKE := by
  rcases h with h | h | h <;> subst h <;> decide

/-- The loop after an iteration that ran the body on a truncated block. -/
theorem loop_of_body_truncated (n : Nat) (σ0 τ : Dec) (has d : Bool) (hn : 2 ≤ n)
    (hstep : step σ0 = body τ) (hd : isDataTag τ.head.1 = d)
    (hb : (isDataTag τ.head.1 = true ∧ has = false ∧ body τ = Step.panic) ∨
      (¬ (isDataTag τ.head.1 = true ∧ has = false) ∧
        ∃ τ', body τ = Step.next τ' ∧ τ'.r = [])) :
    (d = true ∧ has = false ∧ loop n σ0 = Outcome.panic) ∨
    (¬ (d = true ∧ has = false) ∧ ∃ c, loop n σ0 = Outcome.ret c (some IOErr.EOF)) := by
  subst hd
  obtain ⟨m, rfl⟩ : ∃ m, n = m + 2 := ⟨n - 2, by omega⟩
  rcases hb with ⟨h1, h2, h3⟩ | ⟨h1, τ', h2, h3⟩
  · left
    refine ⟨h1, h2, ?_⟩
    simp only [loop, hstep, h3]
  · right
    refine ⟨h1, τ'.c, ?_⟩
    rw [loop_succ_next (m + 1) σ0 τ' (hstep.trans h2)]
    simp only [loop, step_nil τ' h3]

/-- The loop on the truncated block that a stream ends with. -/
theorem loop_truncated (σ : Dec) (has : Bool) (hT : σ.Track has) (tail : List Byte)
    (ht : Truncated tail) (n : Nat) (hn : tail.length < n) :
    (tailIsData tail = true ∧ has = false ∧
      loop n { σ with r := ofBytes tail } = Outcome.panic) ∨
    (¬ (tailIsData tail = true ∧ has = false) ∧
      ∃ c, loop n { σ with r := ofBytes tail } = Outcome.ret c (some IOErr.EOF)) := by
  rcases ht with h | ⟨t, h⟩ | ⟨a, h⟩ | ⟨t, a, p, h, hd, hp⟩ | ⟨t, a, p, h, hd, hp⟩
  · subst h
    right
    refine ⟨(fun h => by cases h.1), σ.c, ?_⟩
    obtain ⟨m, rfl⟩ : ∃ m, n = m + 1 := ⟨n - 1, by omega⟩
    simp only [loop]
    rw [step_nil _ rfl]
  · subst h
    simp only [List.length_singleton] at hn
    refine loop_of_body_truncated n _ { σ with head := (t, σ.head.2), e := none, r := [] } has _
      (by omega) (step_one σ t) rfl ?_
    exact body_truncated _ has hT [] rfl (fun _ => rfl) (fun _ => Nat.zero_le _)
      (fun _ => Nat.zero_le _) (fun _ _ _ => rfl)
  · subst h
    simp only [List.length_cons, List.length_nil] at hn
    refine loop_of_body_truncated n _ { σ with head := (BLK_STROKE, a), e := none, r := [] } has _
      (by omega) (step_two σ BLK_STROKE a []) rfl ?_
    exact body_truncated _ has hT [] rfl (fun _ => rfl) (fun _ => Nat.zero_le _)
      (fun _ => Nat.zero_le _) (fun _ _ _ => rfl)
  · subst h
    simp only [List.length_cons] at hn
    refine loop_of_body_truncated n _ { σ with head := (t, a), e := none, r := ofBytes p } has _
      (by omega) (step_two σ t a (ofBytes p)) rfl ?_
    exact body_truncated _ has hT p rfl (fun h => absurd h (isDataTag_not_stroke t hd))
      (fun _ => Nat.le_of_lt hp) (fun h => absurd h (isDataTag_not_reserved t hd))
      (fun _ h _ => by rw [hd] at h; cases h)
  · subst h
    simp only [List.length_cons] at hn
    refine loop_of_body_truncated n _ { σ with head := (t, a), e := none, r := ofBytes p } has _
      (by omega) (step_two σ t a (ofBytes p)) rfl ?_
    exact body_truncated _ has hT p rfl (fun h => absurd h (isReserved_not_stroke t hd))
      (fun h => absurd hd (isDataTag_not_reserved t h))
      (fun _ => Nat.le_of_lt hp) (fun _ _ h => absurd hd h)

theorem Block.bytes_length (b : Block) : 2 ≤ b.bytes.length := by
  cases b <;> simp [Block.bytes]

theorem blocksBytes_length (bl : List Block) : 2 * bl.length ≤ (blocksBytes bl).length := by
  induction bl with
  | nil => simp [blocksBytes]
  | cons b bl ih =>
    have := Block.bytes_length b
    simp only [blocksBytes, List.length_append, List.length_cons]
    omega

theorem nil_complete : ∀ b ∈ ([] : List Block), b.Complete := fun _ hb => by cases hb

theorem decompose_cons (b : Block) (hb : b.Complete) (bs rest : List Byte)
    (hbs : bs = b.bytes ++ rest)
    (h : ∃ bl tail, rest = blocksBytes bl ++ tail ∧ (∀ b ∈ bl, b.Complete) ∧ Truncated tail) :
    ∃ bl tail, bs = blocksBytes bl ++ tail ∧ (∀ b ∈ bl, b.Complete) ∧ Truncated tail := by
  obtain ⟨bl, tail, h1, h2, h3⟩ := h
  refine ⟨b :: bl, tail, ?_, ?_, h3⟩
  · rw [hbs, h1, blocksBytes, List.append_assoc]
  · intro b' hb'
    rcases List.mem_cons.1 hb' with h | h
    · rw [h]; exact hb
    · exact h2 b' h

theorem data_decompose (t a : Byte) (rest : List Byte) (ht : isDataTag t = true)
    (h4 : 4 ≤ rest.length) :
    ∃ b : Block, b.Complete ∧ b.isData = true ∧ t :: a :: rest = b.bytes ++ rest.drop 4 := by
  match rest, h4 with
  | b0 :: b1 :: b2 :: b3 :: rest', _ =>
    simp only [isDataTag, decide_eq_true_eq] at ht
    rcases ht with h | h | h
    · exact ⟨Block.position a b0 b1 b2 b3, trivial, rfl, by rw [h]; rfl⟩
    · exact ⟨Block.pressure a b0 b1 b2 b3, trivial, rfl, by rw [h]; rfl⟩
    · exact ⟨Block.tilt a b0 b1 b2 b3, trivial, rfl, by rw [h]; rfl⟩

theorem bytes_decompose_aux (n : Nat) : ∀ bs : List Byte, bs.length ≤ n →
    ∃ bl tail, bs = blocksBytes bl ++ tail ∧ (∀ b ∈ bl, b.Complete) ∧ Truncated tail := by
  induction n with
  | zero =>
    intro bs h
    have : bs = [] := List.length_eq_zero.1 (Nat.le_zero.1 h)
    exact ⟨[], [], by rw [this]; rfl, nil_complete, Or.inl rfl⟩
  | succ n ih =>
    intro bs h
    match bs, h with
    | [], _ => exact ⟨[], [], rfl, nil_complete, Or.inl rfl⟩
    | [t], _ => exact ⟨[], [t], rfl, nil_complete, Or.inr (Or.inl ⟨t, rfl⟩)⟩
    | t :: a :: rest, h =>
      simp only [List.length_cons] at h
      by_cases h1 : t = BLK_STROKE
      · subst h1
        match rest, h with
        | [], _ =>
          exact ⟨[], [BLK_STROKE, a], rfl, nil_complete,
            Or.inr (Or.inr (Or.inl ⟨a, rfl⟩))⟩
        | id :: rest', h =>
          simp only [List.length_cons] at h
          exact decompose_cons (Block.control a id) trivial _ rest' rfl (ih rest' (by omega))
      by_cases h2 : isDataTag t = true
      · by_cases h4 : 4 ≤ rest.length
        · obtain ⟨b, hb, _, hbs⟩ := data_decompose t a rest h2 h4
          exact decompose_cons b hb _ _ hbs
            (ih _ (by rw [List.length_drop]; omega))
        · exact ⟨[], t :: a :: rest, rfl, nil_complete,
            Or.inr (Or.inr (Or.inr (Or.inl ⟨t, a, rest, rfl, h2, by omega⟩)))⟩
      by_cases h3 : isReserved t
      · by_cases h4 : usub8_2 a ≤ rest.length
        · refine decompose_cons (Block.reserved t a (rest.take (usub8_2 a)))
            ⟨h3, by rw [List.length_take]; omega⟩ _ (rest.drop (usub8_2 a)) ?_
            (ih _ (by rw [List.length_drop]; omega))
          simp only [Block.bytes, List.cons_append, List.take_append_drop]
        · exact ⟨[], t :: a :: rest, rfl, nil_complete,
            Or.inr (Or.inr (Or.inr (Or.inr ⟨t, a, rest, rfl, h3, by omega⟩)))⟩
      · have hc : (Block.ignored t a).Complete := by
          simp only [isDataTag, decide_eq_true_eq, not_or] at h2
          exact ⟨h1, h2.1, h2.2.1, h2.2.2, h3⟩
        exact decompose_cons (Block.ignored t a) hc _ rest rfl (ih rest (by omega))

/-- Every finite sequence of bytes is a sequence of complete blocks followed by
a truncated block (which may be empty). -/
theorem bytes_decompose (bs : List Byte) :
    ∃ bl tail, bs = blocksBytes bl ++ tail ∧ (∀ b ∈ bl, b.Complete) ∧ Truncated tail :=
  bytes_decompose_aux bs.length bs (Nat.le_refl _)

theorem init0_Track : init0.Track false :=
  And.intro (fun h => by cases h) (fun _ => ⟨⟨"l1", [], 0⟩, rfl, rfl, rfl⟩)

/-- On a sequence of complete blocks followed by a truncated block, `ReadLayers`
stops on an index out of range exactly when the scan of the blocks says so. -/
theorem ReadLayers_scan (bl : List Block) (tail : List Byte) (hbl : ∀ b ∈ bl, b.Complete)
    (htail : Truncated tail) (hlen : (blocksBytes bl ++ tail).length < 2 ^ 63) :
    (guarded bl (tailIsData tail) = false ∧
      ReadLayers (ofBytes (blocksBytes bl ++ tail)) = Outcome.panic) ∨
    (guarded bl (tailIsData tail) = true ∧
      ∃ c, ReadLayers (ofBytes (blocksBytes bl ++ tail)) = Outcome.ret c (some IOErr.EOF)) := by
  have hlb := blocksBytes_length bl
  simp only [List.length_append] at hlen
  have hI : init0.Inv 1 := init0_Inv []
  rw [ReadLayers_of_iter bl.length, ofBytes_append, iter_blocks bl hbl init0 (ofBytes tail)]
  rcases runBlocks_track bl hbl 1 init0 false hI (by omega) init0_Track with
    ⟨h1, h2⟩ | ⟨has, σ', h1, h2, _, h4⟩
  · left
    simp only [guarded, h1, h2, Step.withReader, and_self]
  · simp only [guarded, h1, h2, Step.withReader]
    rcases loop_truncated σ' has h4 tail htail ((ofBytes tail).length + 1)
      (by simp [ofBytes]) with ⟨h5, h6, h7⟩ | ⟨h5, c, h7⟩
    · left
      refine ⟨by rw [h5, h6]; rfl, h7⟩
    · right
      refine ⟨?_, c, h7⟩
      cases htd : tailIsData tail <;> cases has <;> simp_all

theorem StrokeOpen_nil : ¬ StrokeOpen [] := by
  rintro ⟨p, b, q, h, _⟩
  cases p <;> cases h

theorem StrokeOpen_concat (pre : List Block) (b : Block) :
    StrokeOpen (pre ++ [b]) ↔
      b.isStrokeBegin = true ∨ (StrokeOpen pre ∧ b.isLayerMarker = false) := by
  constructor
  · rintro ⟨p, c, q, h, hc, hq⟩
    rcases List.eq_nil_or_concat q with hq0 | ⟨q', d, hq1⟩
    · subst hq0
      have := List.append_inj' h rfl
      have hbc : b = c := by injection this.2
      left; rw [hbc]; exact hc
    · rw [List.concat_eq_append] at hq1
      subst hq1
      have h' : pre ++ [b] = (p ++ c :: q') ++ [d] := by
        rw [h]; simp only [List.append_assoc, List.cons_append]
      have := List.append_inj' h' rfl
      have hbd : b = d := by injection this.2
      right
      refine ⟨⟨p, c, q', this.1, hc, fun b' hb' => hq b' (List.mem_append_left _ hb')⟩, ?_⟩
      rw [hbd]
      exact hq d (List.mem_append_right _ (List.mem_singleton_self d))
  · rintro (h | ⟨⟨p, c, q, h, hc, hq⟩, hb⟩)
    · exact ⟨pre, b, [], rfl, h, fun _ hb' => by cases hb'⟩
    · refine ⟨p, c, q ++ [b], ?_, hc, ?_⟩
      · rw [h]; simp only [List.append_assoc, List.cons_append]
      · intro b' hb'
        rcases List.mem_append.1 hb' with h1 | h1
        · exact hq b' h1
        · rw [List.mem_singleton.1 h1]; exact hb

theorem scanBlock_spec (has : Bool) (pre : List Block) (b : Block)
    (h : has = true ↔ StrokeOpen pre) :
    (scanBlock has b = none ↔ b.isData = true ∧ ¬ StrokeOpen pre) ∧
    (∀ has', scanBlock has b = some has' → (has' = true ↔ StrokeOpen (pre ++ [b]))) := by
  have hID : ID_STROKE_BEGIN ≠ ID_LAYER := by decide
  cases b with
  | control a id =>
    refine ⟨⟨(fun h' => by cases h'), fun h' => by cases h'.1⟩, ?_⟩
    intro has' h'
    simp only [scanBlock, Option.some.injEq] at h'
    rw [StrokeOpen_concat, ← h, ← h']
    simp only [Block.isStrokeBegin, Block.isLayerMarker, decide_eq_true_eq, decide_eq_false_iff_not]
    by_cases h1 : id = ID_LAYER
    · subst h1
      simp only [if_true, hID.symm, not_true_eq_false, and_false, or_self]
      exact ⟨(fun h => by cases h), fun h => h.elim⟩
    · by_cases h2 : id = ID_STROKE_BEGIN
      · subst h2
        simp only [hID, if_false, if_true, true_or]
      · simp only [h1, h2, if_false, false_or, not_false_eq_true, and_true]
  | position a b0 b1 b2 b3 =>
    cases has <;>
      simp_all [scanBlock, Block.isData, StrokeOpen_concat, Block.isStrokeBegin,
        Block.isLayerMarker]
  | pressure a b0 b1 b2 b3 =>
    cases has <;>
      simp_all [scanBlock, Block.isData, StrokeOpen_concat, Block.isStrokeBegin,
        Block.isLayerMarker]
  | tilt a b0 b1 b2 b3 =>
    cases has <;>
      simp_all [scanBlock, Block.isData, StrokeOpen_concat, Block.isStrokeBegin,
        Block.isLayerMarker]
  | reserved t a p =>
    cases has <;>
      simp_all [scanBlock, Block.isData, StrokeOpen_concat, Block.isStrokeBegin,
        Block.isLayerMarker]
  | ignored t a =>
    cases has <;>
      simp_all [scanBlock, Block.isData, StrokeOpen_concat, Block.isStrokeBegin,
        Block.isLayerMarker]

theorem scanBlocks_spec (bl : List Block) : ∀ (has : Bool) (pre0 : List Block),
    (has = true ↔ StrokeOpen pre0) →
    (scanBlocks has bl = none ↔
      ∃ pre b post, bl = pre ++ b :: post ∧ b.isData = true ∧ ¬ StrokeOpen (pre0 ++ pre)) ∧
    (∀ has', scanBlocks has bl = some has' → (has' = true ↔ StrokeOpen (pre0 ++ bl))) := by
  induction bl with
  | nil =>
    intro has pre0 h
    refine ⟨⟨(fun h' => by cases h'), ?_⟩, ?_⟩
    · rintro ⟨pre, b, post, h', _⟩
      cases pre <;> cases h'
    · intro has' h'
      simp only [scanBlocks, Option.some.injEq] at h'
      rw [← h', List.append_nil]
      exact h
  | cons b bl ih =>
    intro has pre0 h
    obtain ⟨hs1, hs2⟩ := scanBlock_spec has pre0 b h
    cases hsb : scanBlock has b with
    | none =>
      simp only [scanBlocks, hsb]
      refine ⟨⟨fun _ => ⟨[], b, bl, rfl, (hs1.1 hsb).1, ?_⟩, fun _ => trivial⟩,
        fun has' h' => by cases h'⟩
      rw [List.append_nil]
      exact (hs1.1 hsb).2
    | some h1 =>
      simp only [scanBlocks, hsb]
      obtain ⟨ih1, ih2⟩ := ih h1 (pre0 ++ [b]) (hs2 h1 hsb)
      have hcons : pre0 ++ b :: bl = pre0 ++ [b] ++ bl := by
        simp only [List.append_assoc, List.cons_append, List.nil_append]
      refine ⟨?_, ?_⟩
      · rw [ih1]
        constructor
        · rintro ⟨pre, b', post, e1, e2, e3⟩
          refine ⟨b :: pre, b', post, by rw [e1]; rfl, e2, ?_⟩
          have : pre0 ++ b :: pre = pre0 ++ [b] ++ pre := by
            simp only [List.append_assoc, List.cons_append, List.nil_append]
          rw [this]; exact e3
        · rintro ⟨pre, b', post, e1, e2, e3⟩
          cases pre with
          | nil =>
            simp only [List.nil_append, List.cons.injEq] at e1
            rw [List.append_nil] at e3
            have : scanBlock has b = none := hs1.2 ⟨by rw [e1.1]; exact e2, e3⟩
            rw [hsb] at this; cases this
          | cons c pre =>
            simp only [List.cons_append, List.cons.injEq] at e1
            refine ⟨pre, b', post, e1.2, e2, ?_⟩
            have : pre0 ++ [b] ++ pre = pre0 ++ c :: pre := by
              rw [e1.1]; simp only [List.append_assoc, List.cons_append, List.nil_append]
            rw [this]; exact e3
      · intro has' h'
        rw [hcons]
        exact ih2 has' h'

/-- The scan of the blocks computes the property stated on the sequence. -/
theorem guarded_iff (bl : List Block) (final : Bool) :
    guarded bl final = true ↔ Guarded bl ∧ (final = true → StrokeOpen bl) := by
  have h0 : (false = true ↔ StrokeOpen []) :=
    ⟨(fun h => by cases h), fun h => (StrokeOpen_nil h).elim⟩
  obtain ⟨h1, h2⟩ := scanBlocks_spec bl false [] h0
  simp only [List.nil_append] at h1 h2
  cases hs : scanBlocks false bl with
  | none =>
    simp only [guarded, hs]
    refine ⟨(fun h => by cases h), ?_⟩
    rintro ⟨hg, _⟩
    obtain ⟨pre, b, post, e1, e2, e3⟩ := h1.1 hs
    exact (e3 (hg pre b post e1 e2)).elim
  | some has =>
    simp only [guarded, hs]
    have hg : Guarded bl := by
      intro pre b post e1 e2
      by_contra hn
      have := h1.2 ⟨pre, b, post, e1, e2, hn⟩
      rw [hs] at this; cases this
    have := h2 has hs
    cases final <;> cases has <;> simp_all

/-- A data block met while the current layer has no stroke: the index
`StrokesCount-1` wraps to `2^64-1` and is out of range. -/
theorem step_data_no_stroke (σ : Dec) (L : Layer) (b : Block) (rest : Reader)
    (hd : b.isData = true) (hL : σ.c.Layers[σ.l]? = some L) (h1 : L.Strokes = [])
    (h2 : L.StrokesCount = 0) :
    udec64 L.StrokesCount = 18446744073709551615 ∧
    L.Strokes[udec64 L.StrokesCount]? = none ∧
    step { σ with r := ofBytes b.bytes ++ rest } = Step.panic := by
  have hno : onCurrentStroke σ.c σ.l b.onStroke = none :=
    onCurrentStroke_of_no σ b.onStroke ⟨L, hL, h1, h2⟩
  refine ⟨by rw [h2]; rfl, by rw [h1]; rfl, ?_⟩
  cases b with
  | control a id => cases hd
  | position a b0 b1 b2 b3 =>
    rw [step_position σ a b0 b1 b2 b3 rest]
    simp only [blockStep, hno, Step.withReader]
  | pressure a b0 b1 b2 b3 =>
    rw [step_pressure σ a b0 b1 b2 b3 rest]
    simp only [blockStep, hno, Step.withReader]
  | tilt a b0 b1 b2 b3 =>
    rw [step_tilt σ a b0 b1 b2 b3 rest]
    simp only [blockStep, hno, Step.withReader]
  | reserved t a p => cases hd
  | ignored t a => cases hd

/-! ## The style of a segment: lemmas -/

theorem wrap64_of_int16 (p0 p1 : Int) (h0 : -32768 ≤ p0 ∧ p0 ≤ 32767)
    (h1 : -32768 ≤ p1 ∧ p1 ≤ 32767) : wrap64 (p0 + p1) = p0 + p1 := by
  unfold wrap64; omega

/-- One iteration of the loop over the segments: the line drawn and its style. -/
theorem segments_cons {α : Type} (style : Int → α) (s : Stroke) (n i : Nat)
    (p0 p1 x0 y0 x1 y1 : Int)
    (hP0 : s.P[i]? = some p0) (hP1 : s.P[i + 1]? = some p1)
    (hX0 : s.X[i]? = some x0) (hY0 : s.Y[i]? = some y0)
    (hX1 : s.X[i + 1]? = some x1) (hY1 : s.Y[i + 1]? = some y1) :
    segments style s (n + 1) i =
      ⟨Cmd.Line x0 y0 x1 y1 (style (wrap64 (p0 + p1))) :: (segments style s n (i + 1)).cmds,
        (segments style s n (i + 1)).ok⟩ := by
  rw [segments]
  simp only [hP0, hP1, hX0, hY0, hX1, hY1]

theorem segmentPressure_eq {K : Type} [LinearOrderedField K] (sum : Int) :
    (segmentPressure sum : K) = (sum : K) / 2048 := by
  unfold segmentPressure MAX_P_LEVELS
  ring

theorem width_eq {K : Type} [LinearOrderedField K] (sum : Int) :
    PressureToWidthFunc (segmentPressure sum : K) = 6 * ((sum : K) / 2048) := by
  rw [segmentPressure_eq]
  unfold PressureToWidthFunc MAX_P_TO_WIDTH
  ring

theorem segmentPressure_range {K : Type} [LinearOrderedField K] (sum : Int) :
    (0 ≤ (segmentPressure sum : K) ∧ (segmentPressure sum : K) ≤ 1) ↔
      (0 ≤ sum ∧ sum ≤ 2048) := by
  rw [segmentPressure_eq]
  have h2048 : (0 : K) < 2048 := by norm_num
  rw [le_div_iff₀ h2048, div_le_iff₀ h2048, zero_mul, one_mul]
  constructor
  · rintro ⟨h1, h2⟩
    exact ⟨by exact_mod_cast h1, by exact_mod_cast h2⟩
  · rintro ⟨h1, h2⟩
    exact ⟨by exact_mod_cast h1, by exact_mod_cast h2⟩

theorem width_range {K : Type} [LinearOrderedField K] (p : K) (h0 : 0 ≤ p) (h1 : p ≤ 1) :
    0 ≤ PressureToWidthFunc p ∧ PressureToWidthFunc p ≤ 6 := by
  unfold PressureToWidthFunc MAX_P_TO_WIDTH
  constructor
  · positivity
  · linarith

theorem colour_range (p : ℝ) (h1 : p ≤ 1) :
    0 ≤ PressureToColourFunc Real.sqrt p ∧ PressureToColourFunc Real.sqrt p ≤ 254 := by
  have hs0 := Real.sqrt_nonneg p
  have hs1 : Real.sqrt p ≤ 1 := Real.sqrt_le_one.2 h1
  unfold PressureToColourFunc MAX_P_TO_COLOUR
  constructor
  · exact mul_nonneg (by linarith) (by norm_num)
  · linarith

theorem truncToInt_nonneg {K : Type} [LinearOrderedField K] [FloorRing K] (x : K) (h : 0 ≤ x) :
    truncToInt x = Int.floor x := by
  unfold truncToInt
  rw [if_pos h]

theorem channel_range (p : ℝ) (h1 : p ≤ 1) :
    0 ≤ truncToInt (PressureToColourFunc Real.sqrt p) ∧
      truncToInt (PressureToColourFunc Real.sqrt p) ≤ 254 := by
  obtain ⟨hc0, hc1⟩ := colour_range p h1
  rw [truncToInt_nonneg _ hc0]
  constructor
  · exact Int.floor_nonneg.2 hc0
  · have := Int.floor_le (PressureToColourFunc Real.sqrt p)
    have h : ((Int.floor (PressureToColourFunc Real.sqrt p) : Int) : ℝ) ≤ ((254 : Int) : ℝ) := by
      push_cast; linarith
    exact_mod_cast h

theorem channel_antitone (p q : ℝ) (hq : q ≤ 1) (hpq : p ≤ q) :
    truncToInt (PressureToColourFunc Real.sqrt q) ≤
      truncToInt (PressureToColourFunc Real.sqrt p) := by
  obtain ⟨hp0, _⟩ := colour_range p (hpq.trans hq)
  obtain ⟨hq0, _⟩ := colour_range q hq
  rw [truncToInt_nonneg _ hp0, truncToInt_nonneg _ hq0]
  apply Int.floor_mono
  have := Real.sqrt_le_sqrt hpq
  unfold PressureToColourFunc MAX_P_TO_COLOUR
  linarith

theorem channel_zero : truncToInt (PressureToColourFunc Real.sqrt 0) = 254 := by
  have h : PressureToColourFunc Real.sqrt 0 = ((254 : Int) : ℝ) := by
    unfold PressureToColourFunc MAX_P_TO_COLOUR
    rw [Real.sqrt_zero]; norm_num
  rw [h, truncToInt_nonneg _ (by norm_num), Int.floor_intCast]

theorem channel_one : truncToInt (PressureToColourFunc Real.sqrt 1) = 0 := by
  have h : PressureToColourFunc Real.sqrt 1 = ((0 : Int) : ℝ) := by
    unfold PressureToColourFunc MAX_P_TO_COLOUR
    rw [Real.sqrt_one]; norm_num
  rw [h, truncToInt_nonneg _ (by norm_num), Int.floor_intCast]

theorem channel_two_neg : truncToInt (PressureToColourFunc Real.sqrt 2) < 0 := by
  have hs : (255 / 254 : ℝ) ≤ Real.sqrt 2 := by
    rw [Real.le_sqrt (by norm_num) (by norm_num)]
    norm_num
  have hc : PressureToColourFunc Real.sqrt 2 ≤ ((-1 : Int) : ℝ) := by
    unfold PressureToColourFunc MAX_P_TO_COLOUR
    push_cast
    linarith
  have hneg : ¬ (0 ≤ PressureToColourFunc Real.sqrt 2) := by
    push_cast at hc
    linarith
  unfold truncToInt
  rw [if_neg hneg]
  have := Int.ceil_le.2 hc
  omega

/-! ## Blocks that stand in the buffer: lemmas -/

/-- A stroke-begin block and a run of complete blocks, none of them a
stroke-control block, that stand in the stream with no end of the buffer inside
them: the stroke-begin block appends one empty stroke to the current layer and
the run leaves it with one point per position block, in stream order. -/
theorem stroke_begin_run_buffered (σ : Dec) (a : Byte) (run : List Block) (rest : Reader) (L : Layer)
    (hL : σ.c.Layers[σ.l]? = some L)
    (hcnt : L.StrokesCount = L.Strokes.length) (h64 : L.Strokes.length < 2 ^ 64)
    (hrun : ∀ b ∈ run, b.Complete ∧ b.isControl = false)
    (hr : σ.r = ofBytes (blocksBytes (Block.control a ID_STROKE_BEGIN :: run)) ++ rest) :
    (∃ σ1, step σ = Step.next σ1 ∧ σ1.r = ofBytes (blocksBytes run) ++ rest ∧ σ1.l = σ.l ∧
      σ1.c.LayersCount = σ.c.LayersCount ∧
      σ1.c.Layers = σ.c.Layers.set σ.l
        { L with Strokes := L.Strokes ++ [Stroke.zero], StrokesCount := uinc64 L.StrokesCount }) ∧
    (∃ σ2 S, iter (run.length + 1) σ = Step.next σ2 ∧ σ2.r = rest ∧ σ2.l = σ.l ∧
      σ2.c.LayersCount = σ.c.LayersCount ∧
      σ2.c.Layers = σ.c.Layers.set σ.l
        { L with Strokes := L.Strokes ++ [S], StrokesCount := uinc64 L.StrokesCount } ∧
      S.X = (positions run).map (fun p => transformX p.1) ∧
      S.Y = (positions run).map (fun p => transformY p.2) ∧
      S.X.length = run.countP Block.isPosition ∧
      S.Y.length = run.countP Block.isPosition ∧
      S.SegmentsCount = run.countP Block.isPosition % 2 ^ 64) := by
  have hbegin : blockStep (Block.control a ID_STROKE_BEGIN) σ =
      Step.next { σ with c := { σ.c with Layers := σ.c.Layers.set σ.l L.AddStroke },
                         head := (BLK_STROKE, a), e := none } := by
    have hne : ID_STROKE_BEGIN ≠ ID_LAYER := by decide
    simp only [blockStep, hne, if_false, if_true, onCurrentLayer_some _ _ _ L hL]
  constructor
  · rw [Dec.eta_r σ _ hr]
    simp only [blocksBytes, ofBytes_append, List.append_assoc]
    rw [step_block (Block.control a ID_STROKE_BEGIN) trivial σ, hbegin]
    exact ⟨_, rfl, rfl, rfl, rfl, rfl⟩
  · have hall : ∀ b ∈ Block.control a ID_STROKE_BEGIN :: run, b.Complete := by
      intro b hb
      rcases List.mem_cons.mp hb with rfl | hb
      · trivial
      · exact (hrun b hb).1
    have hit := iter_blocks _ hall σ rest
    rw [← Dec.eta_r σ _ hr] at hit
    simp only [List.length_cons] at hit
    obtain ⟨τ', e1, e2, e3, e4⟩ := runBlocks_data run (fun b hb => (hrun b hb).2)
      σ.c.Layers σ.c.LayersCount (uinc64 L.StrokesCount) L σ.l
      (getElem?_lt_length _ _ _ hL) (by rw [hcnt]; exact udec64_uinc64 _ h64)
      { σ with c := { σ.c with Layers := σ.c.Layers.set σ.l L.AddStroke },
               head := (BLK_STROKE, a), e := none }
      Stroke.zero rfl rfl rfl
    refine ⟨{ τ' with r := rest }, strokeOf run Stroke.zero, ?_, rfl, e2, e3, e4, ?_, ?_, ?_, ?_, ?_⟩
    · rw [hit]
      simp only [runBlocks, hbegin, e1, Step.withReader]
    · rw [strokeOf_X]; rfl
    · rw [strokeOf_Y]; rfl
    · rw [strokeOf_X]; simp [Stroke.zero, positions_length]
    · rw [strokeOf_Y]; simp [Stroke.zero, positions_length]
    · have h1 := strokeOf_SegmentsCount run Stroke.zero
      have h2 := strokeOf_SegmentsCount_lt run Stroke.zero (by decide)
      have h3 : Stroke.zero.SegmentsCount = 0 := rfl
      rw [h3, Nat.zero_add] at h1
      rw [← h1]
      exact (Nat.mod_eq_of_lt h2).symm

/-- A reserved block with `a ≥ 2` and `a - 2` payload bytes in a stream with
no end of the buffer inside it is taken whole and changes nothing. -/
theorem reserved_block_skipped_buffered (t a : Byte) (payload : List Byte) (pre : List Block)
    (rest : List Byte) (ht : isReserved t) (ha : 2 ≤ a.val) (hp : payload.length = a.val - 2)
    (hpre : ∀ b ∈ pre, b.Complete) :
    ReadLayers (ofBytes (blocksBytes pre ++ [t, a] ++ payload ++ rest)) =
      ReadLayers (ofBytes (blocksBytes pre ++ rest)) ∧
    ∀ (σ : Dec) (tail : Reader),
      step { σ with r := ofBytes ([t, a] ++ payload) ++ tail } =
        Step.next { σ with head := (t, a), e := none, r := tail } := by
  have hB : (Block.reserved t a payload).Complete :=
    ⟨ht, by rw [hp]; unfold usub8_2; omega⟩
  have hstep : ∀ (σ : Dec) (tail : Reader),
      step { σ with r := ofBytes ([t, a] ++ payload) ++ tail } =
        Step.next { σ with head := (t, a), e := none, r := tail } := by
    intro σ tail
    exact step_block (Block.reserved t a payload) hB σ tail
  refine ⟨?_, hstep⟩
  rw [ReadLayers_of_iter pre.length, ReadLayers_of_iter pre.length]
  have e1 : ofBytes (blocksBytes pre ++ [t, a] ++ payload ++ rest) =
      ofBytes (blocksBytes pre) ++ (ofBytes ([t, a] ++ payload) ++ ofBytes rest) := by
    simp only [ofBytes_append, List.append_assoc]
  have e2 : ofBytes (blocksBytes pre ++ rest) = ofBytes (blocksBytes pre) ++ ofBytes rest :=
    ofBytes_append _ _
  rw [e1, e2, iter_blocks pre hpre, iter_blocks pre hpre]
  cases runBlocks pre init0 with
  | done c e => rfl
  | panic => rfl
  | next σ' =>
    simp only [Step.withReader]
    rw [loop_succ_next _ _ _ (hstep σ' (ofBytes rest))]
    have h1 := loop_head_irrel (ofBytes ([t, a] ++ payload) ++ ofBytes rest).length
      { σ' with r := ofBytes rest } rest rfl (t, a) none
    simp only at h1
    rw [h1]
    exact loop_fuel _ _ _ (by simp [ofBytes]; omega) (Nat.lt_succ_self _)

/-- A block with a tag outside the `switch` in a stream with no end of the
buffer inside it takes its two header bytes and changes nothing. -/
theorem ignored_block_skipped_buffered (t a : Byte) (pre : List Block) (rest : List Byte)
    (ht : t ≠ BLK_STROKE ∧ t ≠ BLK_PEN_XY ∧ t ≠ BLK_PEN_PRESSURE ∧ t ≠ BLK_PEN_TILT ∧
      t ≠ BLK_UNKNOWN_1 ∧ t ≠ BLK_UNKNOWN_2 ∧ t ≠ BLK_UNKNOWN_3)
    (hpre : ∀ b ∈ pre, b.Complete) :
    ReadLayers (ofBytes (blocksBytes pre ++ [t, a] ++ rest)) =
      ReadLayers (ofBytes (blocksBytes pre ++ rest)) ∧
    ∀ (σ : Dec) (tail : Reader),
      step { σ with r := ofBytes [t, a] ++ tail } =
        Step.next { σ with head := (t, a), e := none, r := tail } := by
  obtain ⟨h1, h2, h3, h4, h5, h6, h7⟩ := ht
  have hB : (Block.ignored t a).Complete :=
    ⟨h1, h2, h3, h4, fun h => by rcases h with h | h | h <;> contradiction⟩
  exact ⟨ReadLayers_skip_block (Block.ignored t a) hB (t, a) (fun _ => rfl) pre hpre rest,
    fun σ tail => step_block (Block.ignored t a) hB σ tail⟩

/-- On a stream with no end of the buffer inside it, `ReadLayers` stops on an
index out of range exactly when a data block has no stroke begun before it. -/
theorem no_panic_iff_guarded_buffered (bl : List Block) (tail : List Byte)
    (hbl : ∀ b ∈ bl, b.Complete) (htail : Truncated tail)
    (hlen : (blocksBytes bl ++ tail).length < 2 ^ 63) :
    (ReadLayers (ofBytes (blocksBytes bl ++ tail)) ≠ Outcome.panic ↔
      Guarded bl ∧ (tailIsData tail = true → StrokeOpen bl)) ∧
    (ReadLayers (ofBytes (blocksBytes bl ++ tail)) ≠ Outcome.panic ↔
      guarded bl (tailIsData tail) = true) ∧
    (∀ bs : List Byte, ∃ bl' tail',
      bs = blocksBytes bl' ++ tail' ∧ (∀ b ∈ bl', b.Complete) ∧ Truncated tail') ∧
    (∀ (σ : Dec) (L : Layer) (b : Block) (rest : Reader), b.isData = true →
      σ.c.Layers[σ.l]? = some L → L.Strokes = [] → L.StrokesCount = 0 →
      udec64 L.StrokesCount = 18446744073709551615 ∧
      L.Strokes[udec64 L.StrokesCount]? = none ∧
      step { σ with r := ofBytes b.bytes ++ rest } = Step.panic) := by
  have key : ReadLayers (ofBytes (blocksBytes bl ++ tail)) ≠ Outcome.panic ↔
      guarded bl (tailIsData tail) = true := by
    rcases ReadLayers_scan bl tail hbl htail hlen with ⟨h1, h2⟩ | ⟨h1, c, h2⟩
    · rw [h1, h2]
      exact ⟨fun h => (h rfl).elim, fun h => by cases h⟩
    · rw [h1, h2]
      exact ⟨fun _ => rfl, fun _ h => by cases h⟩
  exact ⟨key.trans (guarded_iff bl (tailIsData tail)), key, bytes_decompose,
    fun σ L b rest hd hL h1 h2 => step_data_no_stroke σ L b rest hd hL h1 h2⟩

/-! ## The reader of a file: lemmas -/

theorem chunk_append (B : Nat) (xs ys : List Byte) (k : Nat) (h : xs.length ≤ k) :
    chunk B k (xs ++ ys) = ofBytes xs ++ chunk B (k - xs.length) ys := by
  induction xs generalizing k with
  | nil => rfl
  | cons x xs ih =>
    cases k with
    | zero => simp at h
    | succ k =>
      simp only [List.length_cons, Nat.succ_le_succ_iff] at h
      have := ih k h
      show Ev.byte x :: chunk B k (xs ++ ys) =
        Ev.byte x :: (ofBytes xs ++ chunk B (k + 1 - (xs.length + 1)) ys)
      rw [this, Nat.add_sub_add_right]

theorem chunk_of_le (B : Nat) (xs : List Byte) (k : Nat) (h : xs.length ≤ k) :
    chunk B k xs = ofBytes xs := by
  have := chunk_append B xs [] k h
  rw [List.append_nil] at this
  rw [this]
  cases (k - xs.length) <;> simp [chunk]

/-- A file that the buffer holds whole is read with no end of the buffer
inside it. -/
theorem fileReader_of_le (bs : List Byte) (h : bs.length ≤ BUFLEN) :
    fileReader bs = ofBytes bs :=
  chunk_of_le BUFLEN bs BUFLEN h

/-- A file with more than `BUFLEN` and at most `2 * BUFLEN` bytes: the buffer
ends once, after `BUFLEN` bytes. -/
theorem fileReader_boundary (xs : List Byte) (b : Byte) (rest : List Byte)
    (hx : xs.length = BUFLEN) (hr : rest.length < BUFLEN) :
    fileReader (xs ++ b :: rest) = ofBytes xs ++ Ev.fill b :: ofBytes rest := by
  unfold fileReader
  rw [chunk_append BUFLEN xs (b :: rest) BUFLEN (Nat.le_of_eq hx), hx, Nat.sub_self]
  simp only [chunk]
  rw [chunk_of_le BUFLEN rest (BUFLEN - 1) (by omega)]

theorem blockStep_ignored (t a : Byte) (σ : Dec) :
    blockStep (Block.ignored t a) σ = Step.next { σ with head := (t, a), e := none } := rfl

theorem runBlocks_ignored (k : Nat) (t a : Byte) (σ : Dec) :
    runBlocks (List.replicate (k + 1) (Block.ignored t a)) σ =
      Step.next { σ with head := (t, a), e := none } := by
  induction k generalizing σ with
  | zero => rfl
  | succ k ih =>
    rw [List.replicate_succ, runBlocks, blockStep_ignored]
    exact ih _

theorem blocksBytes_replicate_length (k : Nat) (b : Block) :
    (blocksBytes (List.replicate k b)).length = k * b.bytes.length := by
  induction k with
  | zero => simp [blocksBytes]
  | succ k ih =>
    rw [List.replicate_succ, blocksBytes, List.length_append, ih]
    ring

/-- The outcome of `ReadLayers` from what the decoder does on complete blocks
that stand at the front of the stream with no end of the buffer inside. -/
theorem ReadLayers_blocks_then (bl : List Block) (hb : ∀ b ∈ bl, b.Complete) (tail : Reader) :
    ReadLayers (ofBytes (blocksBytes bl) ++ tail) = match runBlocks bl init0 with
      | Step.next σ' => loop (tail.length + 1) { σ' with r := tail }
      | Step.done c e => Outcome.ret c e
      | Step.panic => Outcome.panic := by
  rw [ReadLayers_of_iter bl.length, iter_blocks bl hb init0 tail]
  cases runBlocks bl init0 with
  | next σ' => rfl
  | done c e => rfl
  | panic => rfl

/-- The blocks that the files of the counterexamples begin with: a
stroke-control block and `k + 1` blocks `00 02`, which the decoder passes
over. They take `2 * k + 5` bytes. -/
theorem padding_complete (id : Byte) (k : Nat) :
    ∀ b ∈ Block.control 0 id :: List.replicate (k + 1) (Block.ignored 0 2), b.Complete := by
  intro b hb
  rcases List.mem_cons.1 hb with h | h
  · rw [h]; trivial
  · rw [List.eq_of_mem_replicate h]; decide

theorem padding_length (id : Byte) (k : Nat) :
    (blocksBytes (Block.control 0 id :: List.replicate (k + 1) (Block.ignored 0 2))).length =
      2 * k + 5 := by
  rw [blocksBytes, List.length_append, blocksBytes_replicate_length]
  simp only [Block.bytes, List.length_cons, List.length_nil]
  omega

theorem runBlocks_padding (id : Byte) (k : Nat) (σ : Dec) :
    runBlocks (Block.control 0 id :: List.replicate (k + 1) (Block.ignored 0 2)) σ =
      match blockStep (Block.control 0 id) σ with
      | Step.next σ' => Step.next { σ' with head := (0, 2), e := none }
      | s => s := by
  rw [runBlocks]
  cases blockStep (Block.control 0 id) σ with
  | next σ' => exact runBlocks_ignored k 0 2 σ'
  | done c e => rfl
  | panic => rfl

/-- A file in which the padding and the bytes `mid` fill the buffer exactly
and `b :: rest` comes with the next fill. -/
theorem ReadLayers_at_boundary (id : Byte) (k : Nat) (mid : List Byte) (b : Byte)
    (rest : List Byte) (hk : 2 * k + 5 + mid.length = BUFLEN) (hr : rest.length < BUFLEN) :
    ReadLayers (fileReader
      (blocksBytes (Block.control 0 id :: List.replicate (k + 1) (Block.ignored 0 2)) ++
        (mid ++ b :: rest))) =
      match blockStep (Block.control 0 id) init0 with
      | Step.next σ' =>
        loop (mid.length + (rest.length + 1) + 1)
          { σ' with head := (0, 2), e := none, r := ofBytes mid ++ Ev.fill b :: ofBytes rest }
      | Step.done c e => Outcome.ret c e
      | Step.panic => Outcome.panic := by
  have hlen : (blocksBytes (Block.control 0 id :: List.replicate (k + 1) (Block.ignored 0 2)) ++
      mid).length = BUFLEN := by
    rw [List.length_append, padding_length]; exact hk
  rw [← List.append_assoc, fileReader_boundary _ b rest hlen hr, ofBytes_append, List.append_assoc,
    ReadLayers_blocks_then _ (padding_complete id k), runBlocks_padding]
  cases blockStep (Block.control 0 id) init0 with
  | next σ' =>
    simp only [List.length_append, List.length_cons, ofBytes, List.length_map]
  | done c e => rfl
  | panic => rfl

/-- A file of padding and bytes `tail` that the buffer holds whole. -/
theorem ReadLayers_padding_fit (id : Byte) (k : Nat) (tail : List Byte)
    (hk : 2 * k + 5 + tail.length ≤ BUFLEN) :
    ReadLayers (fileReader
      (blocksBytes (Block.control 0 id :: List.replicate (k + 1) (Block.ignored 0 2)) ++ tail)) =
      match blockStep (Block.control 0 id) init0 with
      | Step.next σ' =>
        loop (tail.length + 1) { σ' with head := (0, 2), e := none, r := ofBytes tail }
      | Step.done c e => Outcome.ret c e
      | Step.panic => Outcome.panic := by
  rw [fileReader_of_le _ (by rw [List.length_append, padding_length]; exact hk), ofBytes_append,
    ReadLayers_blocks_then _ (padding_complete id k), runBlocks_padding]
  cases blockStep (Block.control 0 id) init0 with
  | next σ' => simp only [ofBytes, List.length_map]
  | done c e => rfl
  | panic => rfl

theorem append_header_split (pre : List Byte) (t a : Byte) (rest : List Byte) :
    pre ++ [t, a] ++ rest = pre ++ ([t] ++ a :: rest) := by
  simp

theorem blocksBytes_append (xs ys : List Block) :
    blocksBytes (xs ++ ys) = blocksBytes xs ++ blocksBytes ys := by
  induction xs with
  | nil => rfl
  | cons x xs ih =>
    show x.bytes ++ blocksBytes (xs ++ ys) = x.bytes ++ blocksBytes xs ++ blocksBytes ys
    rw [ih, List.append_assoc]

theorem Guarded_of_no_data (bl : List Block) (h : ∀ b ∈ bl, b.isData = false) : Guarded bl := by
  intro pre b post e hb
  have hm : b ∈ bl := by rw [e]; exact List.mem_append_right _ (List.mem_cons_self _ _)
  rw [h b hm] at hb
  cases hb

/-! ## Reads that keep failing: lemmas -/

theorem step_fail (σ : Dec) (k : Nat) (r : Reader) :
    step { σ with r := Ev.fail k :: r } = body { σ with e := some (IOErr.other k), r := r } :=
  rfl

/-- A header read that fails in the state in which the loop is entered: the
`switch` finds the tag `0` and the loop goes on. -/
theorem step_fail_init (k : Nat) (e : Option IOErr) (r : Reader) :
    step { init0 with e := e, r := Ev.fail k :: r } =
      Step.next { init0 with e := some (IOErr.other k), r := r } :=
  rfl

theorem iter_fail_init (k n : Nat) (e : Option IOErr) (rest : Reader) :
    iter (n + 1) { init0 with e := e, r := List.replicate (n + 1) (Ev.fail k) ++ rest } =
      Step.next { init0 with e := some (IOErr.other k), r := rest } := by
  induction n generalizing e with
  | zero => rfl
  | succ n ih =>
    rw [List.replicate_succ, List.cons_append, iter, step_fail_init]
    exact ih _

theorem loop_fail_init (k n : Nat) (e : Option IOErr) (rest : Reader) :
    loop n { init0 with e := e, r := List.replicate n (Ev.fail k) ++ rest } =
      Outcome.timeout := by
  induction n generalizing e with
  | zero => rfl
  | succ n ih =>
    rw [List.replicate_succ, List.cons_append, loop, step_fail_init]
    exact ih _

/-! ## The width that reaches the output: lemmas -/

/-- The rounded value is within one half of the number. -/
theorem roundHalfEven_near {K : Type} [LinearOrderedField K] [FloorRing K] (x : K) :
    x - 1 / 2 ≤ (roundHalfEven x : K) ∧ (roundHalfEven x : K) ≤ x + 1 / 2 := by
  have h1 : (Int.floor x : K) ≤ x := Int.floor_le x
  have h2 : x < (Int.floor x : K) + 1 := Int.lt_floor_add_one x
  unfold roundHalfEven
  split_ifs with c1 c2 c3
  · constructor <;> linarith
  · push_cast; constructor <;> linarith
  · constructor <;> linarith
  · push_cast; constructor <;> linarith

theorem roundHalfEven_of_near {K : Type} [LinearOrderedField K] [FloorRing K] (x : K) (z : Int)
    (h1 : (z : K) - 1 / 2 < x) (h2 : x < (z : K) + 1 / 2) : roundHalfEven x = z := by
  obtain ⟨h3, h4⟩ := roundHalfEven_near x
  have h5 : (roundHalfEven x : K) < ((z + 1 : Int) : K) := by push_cast; linarith
  have h6 : ((z - 1 : Int) : K) < (roundHalfEven x : K) := by push_cast; linarith
  have h7 : roundHalfEven x < z + 1 := by exact_mod_cast h5
  have h8 : z - 1 < roundHalfEven x := by exact_mod_cast h6
  omega

theorem roundHalfEven_ge {K : Type} [LinearOrderedField K] [FloorRing K] (x : K) (a : Int)
    (h : (a : K) ≤ x) : a ≤ roundHalfEven x := by
  obtain ⟨h3, _⟩ := roundHalfEven_near x
  have h6 : ((a - 1 : Int) : K) < (roundHalfEven x : K) := by push_cast; linarith
  have h8 : a - 1 < roundHalfEven x := by exact_mod_cast h6
  omega

theorem roundHalfEven_le {K : Type} [LinearOrderedField K] [FloorRing K] (x : K) (b : Int)
    (h : x ≤ (b : K)) : roundHalfEven x ≤ b := by
  obtain ⟨_, h4⟩ := roundHalfEven_near x
  have h5 : (roundHalfEven x : K) < ((b + 1 : Int) : K) := by push_cast; linarith
  have h7 : roundHalfEven x < b + 1 := by exact_mod_cast h5
  omega

/-- The width that reaches the output is within half a hundredth of `width`. -/
theorem sprintf2_near {K : Type} [LinearOrderedField K] [FloorRing K] (w : K) :
    w - 1 / 200 ≤ (sprintf2 w : K) / 100 ∧ (sprintf2 w : K) / 100 ≤ w + 1 / 200 := by
  obtain ⟨h1, h2⟩ := roundHalfEven_near (w * 100)
  unfold sprintf2
  constructor
  · rw [le_div_iff₀ (by norm_num)]; linarith
  · rw [div_le_iff₀ (by norm_num)]; linarith

theorem sprintf2_range {K : Type} [LinearOrderedField K] [FloorRing K] (w : K)
    (h0 : 0 ≤ w) (h1 : w ≤ 6) : 0 ≤ sprintf2 w ∧ sprintf2 w ≤ 600 := by
  unfold sprintf2
  constructor
  · apply roundHalfEven_ge; push_cast; linarith
  · apply roundHalfEven_le; push_cast; linarith

/-! ## The claims -/

/-- C1 (amended). A position block with a complete payload, met while the
current layer has a stroke, appends exactly one pair to that stroke and
changes nothing else in the model; when the raw values `x` and `y` satisfy
`x ≤ 32762` and `-16386 ≤ y ≤ 16381`, the pair is `(x+5)/8 + 1414` and
`(2*y+5)/8` over the integers, the division truncating toward zero. -/
theorem position_block_exact (σ : Dec) (a b0 b1 b2 b3 : Byte) (rest : Reader)
    (L : Layer) (s : Stroke) (x y : Int)
    (hr : σ.r = Ev.byte BLK_PEN_XY :: Ev.byte a :: Ev.byte b0 :: Ev.byte b1 :: Ev.byte b2 ::
      Ev.byte b3 :: rest)
    (hL : σ.c.Layers[σ.l]? = some L)
    (hs : L.Strokes[udec64 L.StrokesCount]? = some s)
    (hx : x = be16 b0 b1) (hy : y = be16 b2 b3)
    (hxr : x ≤ 32762) (hyr : -16386 ≤ y ∧ y ≤ 16381) :
    x = wrap16 (256 * (b0.val : Int) + b1.val) ∧ y = wrap16 (256 * (b2.val : Int) + b3.val) ∧
    step σ = Step.next { σ with
      c := { σ.c with Layers := σ.c.Layers.set σ.l { L with
        Strokes := L.Strokes.set (udec64 L.StrokesCount) { s with
          X := s.X ++ [Int.tdiv (x + 5) 8 + 1414]
          Y := s.Y ++ [Int.tdiv (2 * y + 5) 8]
          SegmentsCount := uinc64 s.SegmentsCount } } }
      head := (BLK_PEN_XY, a), data := (b0, b1, b2, b3), e := none, r := rest } := by
  refine ⟨by rw [hx, be16_eq], by rw [hy, be16_eq], ?_⟩
  rw [Dec.eta_r σ _ hr]
  have h := step_position σ a b0 b1 b2 b3 rest
  simp only [Block.bytes, ofBytes, List.map_cons, List.map_nil, List.cons_append,
    List.nil_append] at h
  rw [h]
  simp only [blockStep, onCurrentStroke_some _ _ _ L s hL hs, Step.withReader, Block.onStroke,
    Stroke.AddCoords]
  rw [← hx, ← hy, transformX_exact x (by rw [hx]; exact (be16_range _ _).1) hxr,
    transformY_exact y hyr.1 hyr.2]

/-- C1 witness: the payload `[0x00, 0x0A, 0x00, 0x14]` (x = 10, y = 20) on a
layer with one empty stroke. -/
theorem position_block_exact_witness :
    (10 : Int) ≤ 32762 ∧ (-16386 ≤ (20 : Int) ∧ (20 : Int) ≤ 16381) ∧
    step { c := ⟨[⟨"l1", [Stroke.zero], 1⟩], 1⟩, l := 0, head := (0, 0), data := (0, 0, 0, 0),
           e := none, r := ofBytes [97, 0, 0, 10, 0, 20] } =
      Step.next { c := ⟨[⟨"l1", [⟨[1415], [5], [], [], [], 1⟩], 1⟩], 1⟩, l := 0, head := (97, 0),
                  data := (0, 10, 0, 20), e := none, r := [] } :=
  ⟨by decide, by decide,
    (position_block_exact
      { c := ⟨[⟨"l1", [Stroke.zero], 1⟩], 1⟩, l := 0, head := (0, 0), data := (0, 0, 0, 0),
        e := none, r := ofBytes [97, 0, 0, 10, 0, 20] }
      0 0 10 0 20 [] ⟨"l1", [Stroke.zero], 1⟩ Stroke.zero 10 20 rfl rfl rfl rfl rfl
      (by decide) (by decide)).2.2⟩

/-- C1 counterexample: for the payload `[0x7F, 0xFF, 0x00, 0x00]` (x = 32767,
y = 0) the value appended to `X` is `-2681`, while `(x+5)/8 + 1414` over the
integers is `5510`. -/
theorem position_block_exact_counterexample :
    be16 0x7F 0xFF = 32767 ∧ Int.tdiv (32767 + 5) 8 + 1414 = 5510 ∧
    step { c := ⟨[⟨"l1", [Stroke.zero], 1⟩], 1⟩, l := 0, head := (0, 0), data := (0, 0, 0, 0),
           e := none, r := ofBytes [97, 0, 0x7F, 0xFF, 0, 0] } =
      Step.next { c := ⟨[⟨"l1", [⟨[-2681], [0], [], [], [], 1⟩], 1⟩], 1⟩, l := 0, head := (97, 0),
                  data := (0x7F, 0xFF, 0, 0), e := none, r := [] } ∧
    (-2681 : Int) ≠ Int.tdiv (be16 0x7F 0xFF + 5) 8 + 1414 := by
  decide

/-- C2. A stroke with `N ≥ 1` points (`len X = len Y = SegmentsCount = N`) and
at least `N` pressure samples is rendered, without failing, as its group
opening, exactly `N - 1` lines and the group end; the `j`-th line runs from
`(X[j], Y[j])` to `(X[j+1], Y[j+1])` (all these indices are in range), and a
stroke with one point gives no line. A canvas whose strokes are all of this
kind is rendered without failing as the layer groups of these stroke groups. -/
theorem renderStroke_segments {α : Type} (style : Int → α) (i : Nat) (s : Stroke) (N : Nat)
    (hN : 1 ≤ N) (hX : s.X.length = N) (hY : s.Y.length = N) (hC : s.SegmentsCount = N)
    (hP : N ≤ s.P.length) (h64 : N < 2 ^ 64) :
    renderStroke style i s =
      ⟨Cmd.Gid ("s" ++ toString i) ::
        (List.range (N - 1)).map (fun j =>
          Cmd.Line (s.X.getD j 0) (s.Y.getD j 0) (s.X.getD (j + 1) 0) (s.Y.getD (j + 1) 0)
            (style (wrap64 (s.P.getD j 0 + s.P.getD (j + 1) 0)))) ++ [Cmd.Gend], true⟩ ∧
    lineCount (renderStroke style i s).cmds = N - 1 ∧
    (N = 1 → renderStroke style i s = ⟨[Cmd.Gid ("s" ++ toString i), Cmd.Gend], true⟩) ∧
    ∀ c : Canvas, (∀ l ∈ c.Layers, ∀ s' ∈ l.Strokes, s'.Full) →
      AddLayersToSVG style c = ⟨layerGroups style c.Layers, true⟩ := by
  have hfull : s.Full := ⟨hX ▸ hN, hY.trans hX.symm, hC.trans hX.symm, hX ▸ hP, hX ▸ h64⟩
  have hrs := renderStroke_full style i s hfull
  refine ⟨?_, ?_, ?_, fun c hc => renderLayers_full style c.Layers hc⟩
  · rw [hrs, strokeLines, hX]
  · rw [hrs, lineCount_strokeLines, hX]
  · intro h1
    rw [hrs, strokeLines, hX, h1]
    rfl

/-- C2 witness: a stroke with three points and three pressure samples gives
two lines, alone and as the only stroke of a canvas. -/
theorem renderStroke_segments_witness :
    (1 ≤ 3 ∧ 3 < 2 ^ 64) ∧
    renderStroke (fun n => n) 0 ⟨[1, 2, 3], [4, 5, 6], [10, 20, 30], [], [], 3⟩ =
      ⟨[Cmd.Gid "s0", Cmd.Line 1 4 2 5 30, Cmd.Line 2 5 3 6 50, Cmd.Gend], true⟩ ∧
    AddLayersToSVG (fun n => n) ⟨[⟨"l1", [⟨[1, 2, 3], [4, 5, 6], [10, 20, 30], [], [], 3⟩], 1⟩], 1⟩ =
      ⟨[Cmd.Gid "l1", Cmd.Gid "s0", Cmd.Line 1 4 2 5 30, Cmd.Line 2 5 3 6 50, Cmd.Gend,
        Cmd.Gend], true⟩ :=
  ⟨by decide,
    (renderStroke_segments (fun n => n) 0 ⟨[1, 2, 3], [4, 5, 6], [10, 20, 30], [], [], 3⟩ 3
      (by decide) rfl rfl rfl (by decide) (by decide)).1.trans (by decide),
    ((renderStroke_segments (fun n => n) 0 ⟨[1, 2, 3], [4, 5, 6], [10, 20, 30], [], [], 3⟩ 3
      (by decide) rfl rfl rfl (by decide) (by decide)).2.2.2
      ⟨[⟨"l1", [⟨[1, 2, 3], [4, 5, 6], [10, 20, 30], [], [], 3⟩], 1⟩], 1⟩
      (by
        intro l hl s' hs'
        simp only [List.mem_singleton] at hl
        subst hl
        simp only [List.mem_singleton] at hs'
        subst hs'
        exact ⟨by decide, rfl, rfl, by decide, by decide⟩)).trans (by decide)⟩

/-- C3. A stroke with no point (a stroke-begin block followed by no position
block): `SegmentsCount - 1` wraps to `2^64 - 1`, the segment loop is entered and
its first iteration indexes `X[0]` out of range, whatever the pressure and tilt
sequences hold. The renderer stops there, with the groups opened and no line.
A stroke with one point is rendered as an empty group. -/
theorem zero_point_stroke_fails {α : Type} (style : Int → α) (i : Nat)
    (P TiltX TiltY : List Int) (x y : Int) :
    udec64 0 = 18446744073709551615 ∧
    renderStroke style i ⟨[], [], P, TiltX, TiltY, 0⟩ =
      ⟨[Cmd.Gid ("s" ++ toString i)], false⟩ ∧
    ReadLayers (ofBytes [241, 0, 1]) =
      Outcome.ret ⟨[⟨"l1", [Stroke.zero], 1⟩], 1⟩ (some IOErr.EOF) ∧
    AddLayersToSVG style ⟨[⟨"l1", [Stroke.zero], 1⟩], 1⟩ =
      ⟨[Cmd.Gid "l1", Cmd.Gid "s0"], false⟩ ∧
    renderStroke style i ⟨[x], [y], P, TiltX, TiltY, 1⟩ =
      ⟨[Cmd.Gid ("s" ++ toString i), Cmd.Gend], true⟩ := by
  refine ⟨by decide, renderStroke_no_point style i _ rfl rfl, by decide, ?_,
    renderStroke_one_point style i _ rfl⟩
  have h := renderStroke_no_point style 0 Stroke.zero rfl rfl
  simp only [AddLayersToSVG, renderLayers, renderLayer, renderStrokes, h, Bool.false_eq_true,
    if_false]
  rfl

/-- C4. One stroke-begin block, three position blocks and two pressure
blocks: `ReadLayers` returns a stroke with three points and two pressure
samples, on which the renderer opens the layer group and the stroke group,
emits one line and then indexes `P[2]` out of range. -/
theorem short_pressure_fails {α : Type} (style : Int → α) (a0 a1 a2 a3 a4 a5 : Byte)
    (x0 x1 x2 x3 y0 y1 y2 y3 z0 z1 z2 z3 p0 p1 p2 p3 q0 q1 q2 q3 : Byte) :
    ∃ c, ReadLayers (ofBytes [241, a0, 1, 97, a1, x0, x1, x2, x3, 97, a2, y0, y1, y2, y3,
        97, a3, z0, z1, z2, z3, 100, a4, p0, p1, p2, p3, 100, a5, q0, q1, q2, q3]) =
      Outcome.ret c (some IOErr.EOF) ∧
      c = ⟨[⟨"l1", [⟨[transformX (be16 x0 x1), transformX (be16 y0 y1), transformX (be16 z0 z1)],
        [transformY (be16 x2 x3), transformY (be16 y2 y3), transformY (be16 z2 z3)],
        [be16 p2 p3, be16 q2 q3], [], [], 3⟩], 1⟩], 1⟩ ∧
      AddLayersToSVG style c =
        ⟨[Cmd.Gid "l1", Cmd.Gid "s0",
          Cmd.Line (transformX (be16 x0 x1)) (transformY (be16 x2 x3))
            (transformX (be16 y0 y1)) (transformY (be16 y2 y3))
            (style (wrap64 (be16 p2 p3 + be16 q2 q3)))], false⟩ ∧
      (AddLayersToSVG style c).ok = false ∧
      lineCount (AddLayersToSVG style c).cmds = 1 ∧
      gidCount (AddLayersToSVG style c).cmds = 2 := by
  have hb : ∀ b ∈ [Block.control a0 ID_STROKE_BEGIN, Block.position a1 x0 x1 x2 x3,
      Block.position a2 y0 y1 y2 y3, Block.position a3 z0 z1 z2 z3,
      Block.pressure a4 p0 p1 p2 p3, Block.pressure a5 q0 q1 q2 q3], b.Complete := by
    intro b hb
    simp only [List.mem_cons, List.mem_singleton, List.mem_nil_iff, or_false] at hb
    rcases hb with rfl | rfl | rfl | rfl | rfl | rfl
    all_goals trivial
  have h := runBlocks_ReadLayers _ hb
  have hbegin : blockStep (Block.control a0 ID_STROKE_BEGIN) init0 =
      Step.next { init0 with c := ⟨[⟨"l1", [Stroke.zero], 1⟩], 1⟩, head := (BLK_STROKE, a0) } := rfl
  obtain ⟨τ', e1, _, e3, e4⟩ := runBlocks_data
    [Block.position a1 x0 x1 x2 x3, Block.position a2 y0 y1 y2 y3,
      Block.position a3 z0 z1 z2 z3, Block.pressure a4 p0 p1 p2 p3,
      Block.pressure a5 q0 q1 q2 q3]
    (by intro b hb
        simp only [List.mem_cons, List.mem_singleton, List.mem_nil_iff, or_false] at hb
        rcases hb with rfl | rfl | rfl | rfl | rfl
        all_goals rfl)
    [⟨"l1", [], 0⟩] 1 1 ⟨"l1", [], 0⟩ 0 (by decide) (by decide)
    { init0 with c := ⟨[⟨"l1", [Stroke.zero], 1⟩], 1⟩, head := (BLK_STROKE, a0) }
    Stroke.zero rfl rfl rfl
  have hS : strokeOf [Block.position a1 x0 x1 x2 x3, Block.position a2 y0 y1 y2 y3,
      Block.position a3 z0 z1 z2 z3, Block.pressure a4 p0 p1 p2 p3,
      Block.pressure a5 q0 q1 q2 q3] Stroke.zero =
      ⟨[transformX (be16 x0 x1), transformX (be16 y0 y1), transformX (be16 z0 z1)],
       [transformY (be16 x2 x3), transformY (be16 y2 y3), transformY (be16 z2 z3)],
       [be16 p2 p3, be16 q2 q3], [], [], 3⟩ := rfl
  have hc : τ'.c = ⟨[⟨"l1", [⟨[transformX (be16 x0 x1), transformX (be16 y0 y1),
        transformX (be16 z0 z1)],
       [transformY (be16 x2 x3), transformY (be16 y2 y3), transformY (be16 z2 z3)],
       [be16 p2 p3, be16 q2 q3], [], [], 3⟩], 1⟩], 1⟩ := by
    rw [hS] at e4
    cases hτ : τ'.c with
    | mk Ls n =>
      rw [hτ] at e3 e4
      simp only at e3 e4
      rw [e3, e4]
      rfl
  have hrun : runBlocks [Block.control a0 ID_STROKE_BEGIN, Block.position a1 x0 x1 x2 x3,
      Block.position a2 y0 y1 y2 y3, Block.position a3 z0 z1 z2 z3,
      Block.pressure a4 p0 p1 p2 p3, Block.pressure a5 q0 q1 q2 q3] init0 = Step.next τ' := by
    rw [runBlocks, hbegin]
    exact e1
  rw [hrun] at h
  simp only [hc] at h
  have hr := render_three_points_two_pressures style "l1"
    (transformX (be16 x0 x1)) (transformX (be16 y0 y1)) (transformX (be16 z0 z1))
    (transformY (be16 x2 x3)) (transformY (be16 y2 y3)) (transformY (be16 z2 z3))
    (be16 p2 p3) (be16 q2 q3)
  refine ⟨_, h, rfl, hr, ?_, ?_, ?_⟩
  · rw [hr]
  · rw [hr]; rfl
  · rw [hr]; rfl

/-- C5 (amended). On a finite stream of bytes on which no index goes out of
range, `ReadLayers` leaves the loop at the end of the stream and returns the
canvas together with the error value `io.EOF`. -/
theorem ReadLayers_returns_EOF (bs : List Byte) (h : ReadLayers (ofBytes bs) ≠ Outcome.panic) :
    ∃ c, ReadLayers (ofBytes bs) = Outcome.ret c (some IOErr.EOF) := by
  rcases ReadLayers_total (ofBytes bs) with hp | hr
  · exact absurd hp h
  · exact hr

/-- C5 witness: a stream that holds one stroke-begin block. -/
theorem ReadLayers_returns_EOF_witness :
    ReadLayers (ofBytes [241, 0, 1]) ≠ Outcome.panic ∧
    ∃ c, ReadLayers (ofBytes [241, 0, 1]) = Outcome.ret c (some IOErr.EOF) :=
  ⟨by decide, ReadLayers_returns_EOF [241, 0, 1] (by decide)⟩

/-- C5 counterexample: on the empty stream the error returned is `io.EOF`, not
`nil`. -/
theorem ReadLayers_nil_error_counterexample :
    ReadLayers (ofBytes []) = Outcome.ret ⟨[⟨"l1", [], 0⟩], 1⟩ (some IOErr.EOF) ∧
    ¬ ∃ c, ReadLayers (ofBytes []) = Outcome.ret c none := by
  have h : ReadLayers (ofBytes []) = Outcome.ret ⟨[⟨"l1", [], 0⟩], 1⟩ (some IOErr.EOF) := by
    decide
  refine ⟨h, ?_⟩
  rintro ⟨c, hc⟩
  rw [h] at hc
  cases hc

/-- C6. A read that fails with an error other than end-of-stream does not stop
`ReadLayers`: after a failed header read the `switch` runs on the header buffer
as it stands and the loop goes on. While the reads of the file keep failing,
the loop keeps running without decoding anything: after `n + 1` failed reads it
has made `n + 1` iterations and has not ended, so it never ends on a file whose
every read fails. When the failures stop, the loop is left at the end of the
stream and the error returned is `io.EOF`, not the failure. -/
theorem read_failure_goes_on (k n : Nat) (rest : Reader) :
    (∀ (σ : Dec) (r : Reader), step { σ with r := Ev.fail k :: r } =
      body { σ with e := some (IOErr.other k), r := r }) ∧
    iter (n + 1) { init0 with r := List.replicate (n + 1) (Ev.fail k) ++ rest } =
      Step.next { init0 with e := some (IOErr.other k), r := rest } ∧
    loop (n + 1) { init0 with r := List.replicate (n + 1) (Ev.fail k) ++ rest } =
      Outcome.timeout ∧
    ReadLayers [Ev.fail 7, Ev.byte 241, Ev.byte 0, Ev.byte 1] =
      Outcome.ret ⟨[⟨"l1", [Stroke.zero], 1⟩], 1⟩ (some IOErr.EOF) ∧
    ReadLayers [Ev.fail 7, Ev.byte 241, Ev.byte 0, Ev.byte 1] ≠
      Outcome.ret ⟨[⟨"l1", [], 0⟩], 1⟩ (some (IOErr.other 7)) :=
  ⟨fun σ r => step_fail σ k r, iter_fail_init k n none rest, loop_fail_init k (n + 1) none rest,
    by decide, by decide⟩

/-- C7. A layer created by a layer-marker block keeps the empty name of
`Layer{}`: only the implicit first layer is given its name. -/
theorem layer_marker_name_empty :
    ReadLayers (ofBytes [241, 0, 128]) =
      Outcome.ret ⟨[⟨"l1", [], 0⟩, ⟨"", [], 0⟩], 2⟩ (some IOErr.EOF) := by
  decide

/-- C8. A stroke-control block with the layer marker appends one empty layer
behind the layers there are, raises the layer count by one and makes the new
layer the current one; the earlier layers are untouched, and a stroke-begin
block that follows adds its stroke to the new layer. -/
theorem layer_marker_step (σ : Dec) (a : Byte) (rest : Reader)
    (hcnt : σ.c.LayersCount = σ.c.Layers.length) (h64 : σ.c.Layers.length + 1 < 2 ^ 64)
    (hr : σ.r = Ev.byte BLK_STROKE :: Ev.byte a :: Ev.byte ID_LAYER :: rest) :
    step σ = Step.next { σ with
      c := ⟨σ.c.Layers ++ [Layer.zero], σ.c.LayersCount + 1⟩
      l := σ.c.Layers.length, head := (BLK_STROKE, a), e := none, r := rest } ∧
    (∀ i, i < σ.c.Layers.length → (σ.c.Layers ++ [Layer.zero])[i]? = σ.c.Layers[i]?) ∧
    (σ.c.Layers ++ [Layer.zero])[σ.c.Layers.length]? = some ⟨"", [], 0⟩ ∧
    ∀ (a' : Byte) (rest' : Reader),
      rest = Ev.byte BLK_STROKE :: Ev.byte a' :: Ev.byte ID_STROKE_BEGIN :: rest' →
      iter 2 σ = Step.next { σ with
        c := ⟨σ.c.Layers ++ [⟨"", [Stroke.zero], 1⟩], σ.c.LayersCount + 1⟩
        l := σ.c.Layers.length, head := (BLK_STROKE, a'), e := none, r := rest' } := by
  have hinc : uinc64 σ.c.LayersCount = σ.c.LayersCount + 1 := by
    rw [hcnt]; exact uinc64_lt _ h64
  have hdec : udec64 (σ.c.LayersCount + 1) = σ.c.Layers.length := by
    rw [hcnt]; unfold udec64; omega
  have hstep : step σ = Step.next { σ with
      c := ⟨σ.c.Layers ++ [Layer.zero], σ.c.LayersCount + 1⟩
      l := σ.c.Layers.length, head := (BLK_STROKE, a), e := none, r := rest } := by
    rw [Dec.eta_r σ _ hr]
    have h := step_control σ a ID_LAYER rest
    simp only [Block.bytes, ofBytes, List.map_cons, List.map_nil, List.cons_append,
      List.nil_append] at h
    rw [h]
    simp only [blockStep, if_true, Canvas.AddLayer, hinc, hdec, List.length_append,
      List.length_singleton, Nat.lt_succ_self, Step.withReader]
  refine ⟨hstep, ?_, ?_, ?_⟩
  · intro i hi
    exact List.getElem?_append_left hi
  · exact List.getElem?_concat_length _ _
  · intro a' rest' hrest
    subst hrest
    simp only [iter, hstep]
    have h := step_control { σ with
      c := ⟨σ.c.Layers ++ [Layer.zero], σ.c.LayersCount + 1⟩
      l := σ.c.Layers.length, head := (BLK_STROKE, a), e := none } a' ID_STROKE_BEGIN rest'
    simp only [Block.bytes, ofBytes, List.map_cons, List.map_nil, List.cons_append,
      List.nil_append] at h
    rw [h]
    have hne : ID_STROKE_BEGIN ≠ ID_LAYER := by decide
    have hL : (σ.c.Layers ++ [Layer.zero])[σ.c.Layers.length]? = some Layer.zero :=
      List.getElem?_concat_length _ _
    have hoc := onCurrentLayer_some ⟨σ.c.Layers ++ [Layer.zero], σ.c.LayersCount + 1⟩
      σ.c.Layers.length Layer.AddStroke Layer.zero hL
    simp only [set_concat] at hoc
    simp only [blockStep, hne, if_false, if_true, hoc, Step.withReader]
    rfl

/-- C8 witness: a layer marker met in the state in which the loop is entered. -/
theorem layer_marker_step_witness :
    ((1 : Nat) = [(⟨"l1", [], 0⟩ : Layer)].length ∧ [(⟨"l1", [], 0⟩ : Layer)].length + 1 < 2 ^ 64) ∧
    step { init0 with r := ofBytes [241, 7, 128, 241, 9, 1] } =
      Step.next { c := ⟨[⟨"l1", [], 0⟩, ⟨"", [], 0⟩], 2⟩, l := 1, head := (241, 7),
                  data := (0, 0, 0, 0), e := none, r := ofBytes [241, 9, 1] } ∧
    iter 2 { init0 with r := ofBytes [241, 7, 128, 241, 9, 1] } =
      Step.next { c := ⟨[⟨"l1", [], 0⟩, ⟨"", [Stroke.zero], 1⟩], 2⟩, l := 1, head := (241, 9),
                  data := (0, 0, 0, 0), e := none, r := [] } :=
  ⟨by decide,
    (layer_marker_step { init0 with r := ofBytes [241, 7, 128, 241, 9, 1] } 7
      (ofBytes [241, 9, 1]) rfl (by decide) rfl).1,
    (layer_marker_step { init0 with r := ofBytes [241, 7, 128, 241, 9, 1] } 7
      (ofBytes [241, 9, 1]) rfl (by decide) rfl).2.2.2 9 [] rfl⟩

/-- C9 as amended. Where a stroke-begin block and a run of complete blocks, none
of them a stroke-control block, stand in the buffer of the reader (at most
`BUFLEN` bytes, no end of the buffer inside them): the stroke-begin block
appends one empty stroke as the last stroke of the current layer, and the run
is taken whole and leaves that stroke with one point per position block of the
run, in stream order, each the transform of the raw pair of its block. Nothing
else in the canvas changes. A file of these bytes is read in this way. -/
theorem stroke_begin_run (σ : Dec) (a : Byte) (run : List Block) (rest : Reader) (L : Layer)
    (hL : σ.c.Layers[σ.l]? = some L)
    (hcnt : L.StrokesCount = L.Strokes.length) (h64 : L.Strokes.length < 2 ^ 64)
    (hrun : ∀ b ∈ run, b.Complete ∧ b.isControl = false)
    (hr : σ.r = ofBytes (blocksBytes (Block.control a ID_STROKE_BEGIN :: run)) ++ rest)
    (hfit : (blocksBytes (Block.control a ID_STROKE_BEGIN :: run)).length ≤ BUFLEN) :
    (∃ σ1, step σ = Step.next σ1 ∧ σ1.r = ofBytes (blocksBytes run) ++ rest ∧ σ1.l = σ.l ∧
      σ1.c.LayersCount = σ.c.LayersCount ∧
      σ1.c.Layers = σ.c.Layers.set σ.l
        { L with Strokes := L.Strokes ++ [Stroke.zero], StrokesCount := uinc64 L.StrokesCount }) ∧
    (∃ σ2 S, iter (run.length + 1) σ = Step.next σ2 ∧ σ2.r = rest ∧ σ2.l = σ.l ∧
      σ2.c.LayersCount = σ.c.LayersCount ∧
      σ2.c.Layers = σ.c.Layers.set σ.l
        { L with Strokes := L.Strokes ++ [S], StrokesCount := uinc64 L.StrokesCount } ∧
      S.X = (positions run).map (fun p => transformX p.1) ∧
      S.Y = (positions run).map (fun p => transformY p.2) ∧
      S.X.length = run.countP Block.isPosition ∧
      S.Y.length = run.countP Block.isPosition ∧
      S.SegmentsCount = run.countP Block.isPosition % 2 ^ 64) ∧
    fileReader (blocksBytes (Block.control a ID_STROKE_BEGIN :: run)) =
      ofBytes (blocksBytes (Block.control a ID_STROKE_BEGIN :: run)) := by
  obtain ⟨h1, h2⟩ := stroke_begin_run_buffered σ a run rest L hL hcnt h64 hrun hr
  exact ⟨h1, h2, fileReader_of_le _ hfit⟩

/-- C9 witness: a file with a stroke-begin block followed by a position block, a
pressure block, a reserved block with two payload bytes and a second position
block. -/
theorem stroke_begin_run_witness :
    (∀ b ∈ [Block.position 0 0 10 0 20, Block.pressure 0 0 0 1 0, Block.reserved 197 4 [8, 9],
        Block.position 0 0 18 0 40], b.Complete ∧ b.isControl = false) ∧
    ∃ σ2 S, iter 5 { init0 with r := fileReader [241, 0, 1, 97, 0, 0, 10, 0, 20, 100, 0, 0, 0,
        1, 0, 197, 4, 8, 9, 97, 0, 0, 18, 0, 40] } = Step.next σ2 ∧
      σ2.r = [] ∧ σ2.l = 0 ∧ σ2.c.LayersCount = 1 ∧
      σ2.c.Layers = [⟨"l1", [S], 1⟩] ∧ S.X = [1415, 1416] ∧ S.Y = [5, 10] ∧
      S.X.length = 2 ∧ S.Y.length = 2 ∧ S.SegmentsCount = 2 :=
  ⟨by decide,
    (stroke_begin_run { init0 with r := fileReader [241, 0, 1, 97, 0, 0, 10, 0, 20, 100, 0, 0, 0,
        1, 0, 197, 4, 8, 9, 97, 0, 0, 18, 0, 40] } 0
      [Block.position 0 0 10 0 20, Block.pressure 0 0 0 1 0, Block.reserved 197 4 [8, 9],
        Block.position 0 0 18 0 40] [] ⟨"l1", [], 0⟩ rfl rfl (by decide) (by decide)
      (fileReader_of_le _ (by decide)) (by decide)).2.1⟩

/-- C9 counterexample: a file of `BUFLEN + 2` bytes that ends with a
stroke-begin block and the position block `61 00 00 0A 00 14` (raw pair
`(10, 20)`, transform `(1415, 5)`), where the buffer ends in the middle of the
payload. The payload read is short: the point appended is `(1415, 0)`, its `Y`
computed from the stale bytes of the data buffer, and `00 14` is read as a
header. -/
theorem stroke_begin_run_counterexample :
    ReadLayers (fileReader (blocksBytes
        (Block.control 0 0 :: List.replicate 5242875 (Block.ignored 0 2)) ++
        blocksBytes [Block.control 0 ID_STROKE_BEGIN, Block.position 0 0 10 0 20])) =
      Outcome.ret ⟨[⟨"l1", [⟨[1415], [0], [], [], [], 1⟩], 1⟩], 1⟩ (some IOErr.EOF) ∧
    (positions [Block.position 0 0 10 0 20]).map (fun p => transformX p.1) = [1415] ∧
    (positions [Block.position 0 0 10 0 20]).map (fun p => transformY p.2) = [5] := by
  refine ⟨?_, by decide, by decide⟩
  rw [show blocksBytes [Block.control 0 ID_STROKE_BEGIN, Block.position 0 0 10 0 20] =
      [241, 0, 1, 97, 0, 0, 10] ++ 0 :: [20] from rfl,
    ReadLayers_at_boundary 0 5242874 [241, 0, 1, 97, 0, 0, 10] 0 [20] (by decide) (by decide)]
  decide

/-- C10 as amended. In a file that the buffer of the reader holds whole (at most
`BUFLEN` bytes behind the header), a reserved block with auxiliary byte `a ≥ 2`
and a payload of `a - 2` bytes, standing behind a sequence `pre` of complete
blocks, is taken whole and changes nothing: `ReadLayers` returns what it returns
without the block. Wherever the header and the payload stand in the buffer, the
iteration takes exactly them and changes only the header buffer. -/
theorem reserved_block_skipped (t a : Byte) (payload : List Byte) (pre : List Block)
    (rest : List Byte) (ht : isReserved t) (ha : 2 ≤ a.val) (hp : payload.length = a.val - 2)
    (hpre : ∀ b ∈ pre, b.Complete)
    (hfit : (blocksBytes pre ++ [t, a] ++ payload ++ rest).length ≤ BUFLEN) :
    ReadLayers (fileReader (blocksBytes pre ++ [t, a] ++ payload ++ rest)) =
      ReadLayers (fileReader (blocksBytes pre ++ rest)) ∧
    ∀ (σ : Dec) (tail : Reader),
      step { σ with r := ofBytes ([t, a] ++ payload) ++ tail } =
        Step.next { σ with head := (t, a), e := none, r := tail } := by
  have h := reserved_block_skipped_buffered t a payload pre rest ht ha hp hpre
  have hfit' : (blocksBytes pre ++ rest).length ≤ BUFLEN := by
    simp only [List.length_append] at hfit ⊢
    omega
  rw [fileReader_of_le _ hfit, fileReader_of_le _ hfit']
  exact h

/-- C10 witness: a reserved block with `a = 10` and eight payload bytes between
a stroke-begin block and a position block. -/
theorem reserved_block_skipped_witness :
    (isReserved 197 ∧ 2 ≤ (10 : Byte).val ∧
      [(1 : Byte), 2, 3, 4, 5, 6, 7, 8].length = (10 : Byte).val - 2) ∧
    ReadLayers (fileReader (blocksBytes [Block.control 0 1] ++ [197, 10] ++
      [1, 2, 3, 4, 5, 6, 7, 8] ++ [97, 0, 0, 10, 0, 20])) =
    ReadLayers (fileReader (blocksBytes [Block.control 0 1] ++ [97, 0, 0, 10, 0, 20])) :=
  ⟨by decide,
    (reserved_block_skipped 197 10 [1, 2, 3, 4, 5, 6, 7, 8] [Block.control 0 1]
      [97, 0, 0, 10, 0, 20] (by decide) (by decide) (by decide) (by decide) (by decide)).1⟩

/-- C10 counterexample: a file of `BUFLEN + 3` bytes in which the buffer ends
between the tag `197` and the auxiliary byte `4` of a reserved block with two
payload bytes. The header read is short, the length is taken from the stale
`head[1] = 2`, nothing is skipped and the bytes `04 00 97` are read as headers:
the stroke gets a point that the file without the block does not give it. -/
theorem reserved_block_skipped_counterexample :
    ReadLayers (fileReader (blocksBytes
        (Block.control 0 1 :: List.replicate 5242878 (Block.ignored 0 2)) ++ [197, 4] ++
        [0, 97] ++ [])) =
      Outcome.ret ⟨[⟨"l1", [⟨[1414], [0], [], [], [], 1⟩], 1⟩], 1⟩ (some IOErr.EOF) ∧
    ReadLayers (fileReader (blocksBytes
        (Block.control 0 1 :: List.replicate 5242878 (Block.ignored 0 2)) ++ [])) =
      Outcome.ret ⟨[⟨"l1", [Stroke.zero], 1⟩], 1⟩ (some IOErr.EOF) ∧
    (isReserved 197 ∧ 2 ≤ (4 : Byte).val ∧ [(0 : Byte), 97].length = (4 : Byte).val - 2) ∧
    Outcome.ret ⟨[⟨"l1", [⟨[1414], [0], [], [], [], 1⟩], 1⟩], 1⟩ (some IOErr.EOF) ≠
      Outcome.ret ⟨[⟨"l1", [Stroke.zero], 1⟩], 1⟩ (some IOErr.EOF) := by
  refine ⟨?_, ?_, by decide, by decide⟩
  · rw [List.append_nil, List.append_assoc,
      show ([197, 4] ++ [0, 97] : List Byte) = [197] ++ 4 :: [0, 97] from rfl,
      ReadLayers_at_boundary 1 5242877 [197] 4 [0, 97] (by decide) (by decide)]
    decide
  · rw [ReadLayers_padding_fit 1 5242877 [] (by decide)]
    decide

/-- C11 as amended. In a file that the buffer of the reader holds whole (at most
`BUFLEN` bytes behind the header), a block whose tag is none of the seven tags
of the `switch`, standing behind a sequence `pre` of complete blocks, takes its
two header bytes and nothing else and changes nothing in the model:
`ReadLayers` returns what it returns without the block. Wherever the two header
bytes stand in the buffer, the iteration takes exactly them, sets no error and
changes only the header buffer. -/
theorem ignored_block_skipped (t a : Byte) (pre : List Block) (rest : List Byte)
    (ht : t ≠ BLK_STROKE ∧ t ≠ BLK_PEN_XY ∧ t ≠ BLK_PEN_PRESSURE ∧ t ≠ BLK_PEN_TILT ∧
      t ≠ BLK_UNKNOWN_1 ∧ t ≠ BLK_UNKNOWN_2 ∧ t ≠ BLK_UNKNOWN_3)
    (hpre : ∀ b ∈ pre, b.Complete)
    (hfit : (blocksBytes pre ++ [t, a] ++ rest).length ≤ BUFLEN) :
    ReadLayers (fileReader (blocksBytes pre ++ [t, a] ++ rest)) =
      ReadLayers (fileReader (blocksBytes pre ++ rest)) ∧
    ∀ (σ : Dec) (tail : Reader),
      step { σ with r := ofBytes [t, a] ++ tail } =
        Step.next { σ with head := (t, a), e := none, r := tail } := by
  have h := ignored_block_skipped_buffered t a pre rest ht hpre
  have hfit' : (blocksBytes pre ++ rest).length ≤ BUFLEN := by
    simp only [List.length_append] at hfit ⊢
    omega
  rw [fileReader_of_le _ hfit, fileReader_of_le _ hfit']
  exact h

/-- C11 witness: a block with tag `0x42` between a stroke-begin block and a
position block. -/
theorem ignored_block_skipped_witness :
    ReadLayers (fileReader (blocksBytes [Block.control 0 1] ++ [0x42, 9] ++
      [97, 0, 0, 10, 0, 20])) =
      ReadLayers (fileReader (blocksBytes [Block.control 0 1] ++ [97, 0, 0, 10, 0, 20])) :=
  (ignored_block_skipped 0x42 9 [Block.control 0 1] [97, 0, 0, 10, 0, 20]
    (by decide) (by decide) (by decide)).1

/-- C11 counterexample: a file of `BUFLEN + 1` bytes in which the buffer ends
between the two header bytes `42 61` of a block with a tag outside the
`switch`. The header read is short and the byte `0x61 = 97` is read as the tag
of a position block: the stroke gets a point that the file without the block
does not give it. -/
theorem ignored_block_skipped_counterexample :
    ReadLayers (fileReader (blocksBytes
        (Block.control 0 1 :: List.replicate 5242878 (Block.ignored 0 2)) ++ [0x42, 97] ++ [])) =
      Outcome.ret ⟨[⟨"l1", [⟨[1414], [0], [], [], [], 1⟩], 1⟩], 1⟩ (some IOErr.EOF) ∧
    ReadLayers (fileReader (blocksBytes
        (Block.control 0 1 :: List.replicate 5242878 (Block.ignored 0 2)) ++ [])) =
      Outcome.ret ⟨[⟨"l1", [Stroke.zero], 1⟩], 1⟩ (some IOErr.EOF) ∧
    Outcome.ret ⟨[⟨"l1", [⟨[1414], [0], [], [], [], 1⟩], 1⟩], 1⟩ (some IOErr.EOF) ≠
      Outcome.ret ⟨[⟨"l1", [Stroke.zero], 1⟩], 1⟩ (some IOErr.EOF) := by
  refine ⟨?_, ?_, by decide⟩
  · rw [append_header_split,
      ReadLayers_at_boundary 1 5242877 [0x42] 97 [] (by decide) (by decide)]
    decide
  · rw [ReadLayers_padding_fit 1 5242877 [] (by decide)]
    decide

/-- C12. A pressure block with a complete payload, met while the current layer
has a stroke, appends exactly one value to the pressure sequence of that
stroke: the signed 16 bit value of the bytes `b2 b3`, whatever `b0 b1` are. The
other sequences of the stroke, its segment count and the rest of the model are
unchanged. -/
theorem pressure_block_step (σ : Dec) (a b0 b1 b2 b3 : Byte) (rest : Reader)
    (L : Layer) (s : Stroke)
    (hr : σ.r = Ev.byte BLK_PEN_PRESSURE :: Ev.byte a :: Ev.byte b0 :: Ev.byte b1 ::
      Ev.byte b2 :: Ev.byte b3 :: rest)
    (hL : σ.c.Layers[σ.l]? = some L)
    (hs : L.Strokes[udec64 L.StrokesCount]? = some s) :
    step σ = Step.next { σ with
      c := { σ.c with Layers := σ.c.Layers.set σ.l { L with
        Strokes := L.Strokes.set (udec64 L.StrokesCount) { s with
          P := s.P ++ [wrap16 (256 * (b2.val : Int) + b3.val)] } } }
      head := (BLK_PEN_PRESSURE, a), data := (b0, b1, b2, b3), e := none, r := rest } ∧
    be16 b2 b3 = wrap16 (256 * (b2.val : Int) + b3.val) ∧
    -32768 ≤ wrap16 (256 * (b2.val : Int) + b3.val) ∧
    wrap16 (256 * (b2.val : Int) + b3.val) ≤ 32767 := by
  have hbe := be16_eq b2 b3
  refine ⟨?_, hbe, hbe ▸ (be16_range b2 b3).1, hbe ▸ (be16_range b2 b3).2⟩
  rw [Dec.eta_r σ _ hr]
  have h := step_pressure σ a b0 b1 b2 b3 rest
  simp only [Block.bytes, ofBytes, List.map_cons, List.map_nil, List.cons_append,
    List.nil_append] at h
  rw [h]
  simp only [blockStep, onCurrentStroke_some _ _ _ L s hL hs, Step.withReader, Block.onStroke,
    Stroke.AddPressure, hbe]

/-- C12 witness: the payload `[0xAA, 0xBB, 0x01, 0x00]` (pressure 256) on a
layer with one empty stroke. -/
theorem pressure_block_step_witness :
    step { c := ⟨[⟨"l1", [Stroke.zero], 1⟩], 1⟩, l := 0, head := (0, 0), data := (0, 0, 0, 0),
           e := none, r := ofBytes [100, 0, 0xAA, 0xBB, 1, 0] } =
      Step.next { c := ⟨[⟨"l1", [⟨[], [], [256], [], [], 0⟩], 1⟩], 1⟩, l := 0, head := (100, 0),
                  data := (0xAA, 0xBB, 1, 0), e := none, r := [] } :=
  (pressure_block_step
    { c := ⟨[⟨"l1", [Stroke.zero], 1⟩], 1⟩, l := 0, head := (0, 0), data := (0, 0, 0, 0),
      e := none, r := ofBytes [100, 0, 0xAA, 0xBB, 1, 0] }
    0 0xAA 0xBB 1 0 [] ⟨"l1", [Stroke.zero], 1⟩ Stroke.zero rfl rfl rfl).1

/-- C13. Every canvas that `ReadLayers` returns is well formed: it has at least
one layer, `LayersCount` is the number of layers, in every layer `StrokesCount`
is the number of strokes, and in every stroke `len X = len Y = SegmentsCount`
and `len TiltX = len TiltY`. Each of `AddLayer`, `AddStroke`, `AddCoords`,
`AddPressure` and `AddTilt`, called as the decoder calls it, keeps a canvas
well formed. (Streams and slices are shorter than `2^63`, as Go has them.) -/
theorem ReadLayers_wellFormed (r : Reader) (hlen : r.length < 2 ^ 63) :
    (∀ c e, ReadLayers r = Outcome.ret c e → c.WellFormed) ∧
    (ReadLayers r = Outcome.panic ∨
      ∃ c, ReadLayers r = Outcome.ret c (some IOErr.EOF) ∧ c.WellFormed) ∧
    (∃ c, ReadLayers [] = Outcome.ret c (some IOErr.EOF) ∧ c.WellFormed) ∧
    (∀ (c : Canvas) (B : Nat), c.WellFormed → c.Within B → B + 1 < 2 ^ 64 →
      c.AddLayer.WellFormed ∧
      (∀ l c', onCurrentLayer c l Layer.AddStroke = some c' → c'.WellFormed) ∧
      (∀ l x y c', onCurrentStroke c l (fun s => s.AddCoords x y) = some c' → c'.WellFormed) ∧
      (∀ l p c', onCurrentStroke c l (fun s => s.AddPressure p) = some c' → c'.WellFormed) ∧
      (∀ l tx ty c', onCurrentStroke c l (fun s => s.AddTilt tx ty) = some c' →
        c'.WellFormed)) := by
  have hret : ∀ (r : Reader), r.length < 2 ^ 63 →
      ∀ c e, ReadLayers r = Outcome.ret c e → c.WellFormed := by
    intro r hlen c e h
    simp only [ReadLayers, init_eq] at h
    exact loop_wellFormed (r.length + 1) 1 _ (init0_Inv r) (by omega) c e h
  refine ⟨hret r hlen, ?_, ?_, ?_⟩
  · rcases ReadLayers_total r with h | ⟨c, h⟩
    · exact Or.inl h
    · exact Or.inr ⟨c, h, hret r hlen c _ h⟩
  · rcases ReadLayers_total [] with h | ⟨c, h⟩
    · exact absurd h (by decide)
    · exact ⟨c, h, hret [] (by simp) c _ h⟩
  · intro c B hw hb hB
    refine ⟨AddLayer_wellFormed c hw (by have := hb.1; omega), ?_, ?_, ?_, ?_⟩
    · intro l c' h
      exact (onCurrentLayer_wellFormed c c' l B hw hb hB h).1
    · intro l x y c' h
      exact (onCurrentStroke_wellFormed c c' l B _ (Or.inl ⟨x, y, rfl⟩) hw hb hB h).1
    · intro l p c' h
      exact (onCurrentStroke_wellFormed c c' l B _ (Or.inr (Or.inl ⟨p, rfl⟩)) hw hb hB h).1
    · intro l tx ty c' h
      exact (onCurrentStroke_wellFormed c c' l B _ (Or.inr (Or.inr ⟨tx, ty, rfl⟩)) hw hb hB h).1

/-- C13 witness: a stream with a layer marker, a stroke-begin block, a position
block, a pressure block and a tilt block. -/
theorem ReadLayers_wellFormed_witness :
    (ofBytes [241, 0, 128, 241, 0, 1, 97, 0, 0, 10, 0, 20, 100, 0, 0, 0, 1, 0,
        101, 0, 3, 4, 0, 0]).length < 2 ^ 63 ∧
    ∃ c, ReadLayers (ofBytes [241, 0, 128, 241, 0, 1, 97, 0, 0, 10, 0, 20, 100, 0, 0, 0, 1, 0,
        101, 0, 3, 4, 0, 0]) = Outcome.ret c (some IOErr.EOF) ∧ c.WellFormed :=
  ⟨by decide,
    ((ReadLayers_wellFormed (ofBytes [241, 0, 128, 241, 0, 1, 97, 0, 0, 10, 0, 20, 100, 0, 0, 0,
        1, 0, 101, 0, 3, 4, 0, 0]) (by decide)).2.1).resolve_left (by decide)⟩

/-- C14 as amended. For two adjacent pressure samples in `[0, 1024]`, in exact
rational arithmetic: the line that `AddLayersToSVG` draws for the segment has
the style computed from `P[i] + P[i+1]`; the normalized pressure is
`(P[i] + P[i+1]) / 2048` and lies in `[0, 1]`; the width computed is 6 times
that and lies in `[0, 6]`; the width passed to the output is that value rounded
to two decimals, within `0.005` of it and in `[0.00, 6.00]`; at two samples 0
both are 0 and at two samples 1024 both are 6. -/
theorem segment_width (sqrt : ℚ → ℚ) (s : Stroke) (n i : Nat) (p0 p1 x0 y0 x1 y1 : Int)
    (hP0 : s.P[i]? = some p0) (hP1 : s.P[i + 1]? = some p1)
    (hX0 : s.X[i]? = some x0) (hY0 : s.Y[i]? = some y0)
    (hX1 : s.X[i + 1]? = some x1) (hY1 : s.Y[i + 1]? = some y1)
    (h0 : 0 ≤ p0 ∧ p0 ≤ 1024) (h1 : 0 ≤ p1 ∧ p1 ≤ 1024) :
    (segments (segmentStyle sqrt) s (n + 1) i).cmds.head? =
      some (Cmd.Line x0 y0 x1 y1 (segmentStyle sqrt (p0 + p1))) ∧
    (segmentPressure (p0 + p1) : ℚ) = ((p0 : ℚ) + (p1 : ℚ)) / 2048 ∧
    0 ≤ (segmentPressure (p0 + p1) : ℚ) ∧ (segmentPressure (p0 + p1) : ℚ) ≤ 1 ∧
    (segmentStyle sqrt (p0 + p1)).width = 6 * (((p0 : ℚ) + (p1 : ℚ)) / 2048) ∧
    0 ≤ (segmentStyle sqrt (p0 + p1)).width ∧ (segmentStyle sqrt (p0 + p1)).width ≤ 6 ∧
    (segmentStyle sqrt (p0 + p1)).swidth =
      roundHalfEven (6 * (((p0 : ℚ) + (p1 : ℚ)) / 2048) * 100) ∧
    (segmentStyle sqrt (p0 + p1)).width - 1 / 200 ≤
      ((segmentStyle sqrt (p0 + p1)).swidth : ℚ) / 100 ∧
    ((segmentStyle sqrt (p0 + p1)).swidth : ℚ) / 100 ≤
      (segmentStyle sqrt (p0 + p1)).width + 1 / 200 ∧
    0 ≤ (segmentStyle sqrt (p0 + p1)).swidth ∧ (segmentStyle sqrt (p0 + p1)).swidth ≤ 600 ∧
    (segmentStyle sqrt (0 + 0)).width = 0 ∧ (segmentStyle sqrt (0 + 0)).swidth = 0 ∧
    (segmentStyle sqrt (1024 + 1024)).width = 6 ∧
    (segmentStyle sqrt (1024 + 1024)).swidth = 600 := by
  have hw : wrap64 (p0 + p1) = p0 + p1 :=
    wrap64_of_int16 p0 p1 ⟨by omega, by omega⟩ ⟨by omega, by omega⟩
  have hr := (segmentPressure_range (K := ℚ) (p0 + p1)).2 ⟨by omega, by omega⟩
  have hwd := width_range (segmentPressure (p0 + p1) : ℚ) hr.1 hr.2
  have hweq : PressureToWidthFunc (segmentPressure (p0 + p1) : ℚ) =
      6 * (((p0 : ℚ) + (p1 : ℚ)) / 2048) := by
    rw [width_eq]; push_cast; rfl
  have hnear := sprintf2_near (PressureToWidthFunc (segmentPressure (p0 + p1) : ℚ))
  have hrange := sprintf2_range (PressureToWidthFunc (segmentPressure (p0 + p1) : ℚ))
    hwd.1 hwd.2
  have hz : PressureToWidthFunc (segmentPressure (0 + 0) : ℚ) = ((0 : Int) : ℚ) := by
    rw [width_eq]; norm_num
  have hs : PressureToWidthFunc (segmentPressure (1024 + 1024) : ℚ) = ((6 : Int) : ℚ) := by
    rw [width_eq]; norm_num
  refine ⟨?_, ?_, hr.1, hr.2, hweq, hwd.1, hwd.2, ?_, hnear.1, hnear.2, hrange.1, hrange.2,
    ?_, ?_, ?_, ?_⟩
  · rw [segments_cons _ s n i p0 p1 x0 y0 x1 y1 hP0 hP1 hX0 hY0 hX1 hY1, hw]
    rfl
  · rw [segmentPressure_eq]; push_cast; rfl
  · show sprintf2 (PressureToWidthFunc (segmentPressure (p0 + p1) : ℚ)) = _
    rw [hweq]; rfl
  · show PressureToWidthFunc (segmentPressure (0 + 0) : ℚ) = _
    rw [hz]; norm_num
  · show sprintf2 (PressureToWidthFunc (segmentPressure (0 + 0) : ℚ)) = _
    rw [hz]
    exact roundHalfEven_of_near _ 0 (by norm_num) (by norm_num)
  · show PressureToWidthFunc (segmentPressure (1024 + 1024) : ℚ) = _
    rw [hs]; norm_num
  · show sprintf2 (PressureToWidthFunc (segmentPressure (1024 + 1024) : ℚ)) = _
    rw [hs]
    exact roundHalfEven_of_near _ 600 (by norm_num) (by norm_num)

/-- C14 witness: the samples 512 and 1024 of a stroke of two points. -/
theorem segment_width_witness :
    (0 ≤ (512 : Int) ∧ (512 : Int) ≤ 1024) ∧ (0 ≤ (1024 : Int) ∧ (1024 : Int) ≤ 1024) ∧
    (segmentStyle (fun x : ℚ => x) (512 + 1024)).width =
      6 * ((((512 : Int) : ℚ) + ((1024 : Int) : ℚ)) / 2048) ∧
    (segmentStyle (fun x : ℚ => x) (512 + 1024)).swidth ≤ 600 :=
  ⟨by decide, by decide,
    (segment_width (fun x : ℚ => x) ⟨[0, 10], [0, 5], [512, 1024], [], [], 2⟩ 0 0
      512 1024 0 0 10 5 rfl rfl rfl rfl rfl rfl (by decide) (by decide)).2.2.2.2.1,
    (segment_width (fun x : ℚ => x) ⟨[0, 10], [0, 5], [512, 1024], [], [], 2⟩ 0 0
      512 1024 0 0 10 5 rfl rfl rfl rfl rfl rfl (by decide)
      (by decide)).2.2.2.2.2.2.2.2.2.2.2.1⟩

/-- C14 counterexample: the width passed to the output is `width` formatted
with two decimals, not 6 times the normalized pressure. For the samples 0 and 1
the line drawn has `width = 3/1024` and the output holds `0.00`; for the samples
1023 and 1024 it has `width = 6141/1024` and the output holds `6.00`. -/
theorem segment_width_counterexample :
    (segments (segmentStyle (fun x : ℚ => x)) ⟨[0, 10], [0, 5], [0, 1], [], [], 2⟩ 1 0).cmds =
      [Cmd.Line 0 0 10 5 (segmentStyle (fun x : ℚ => x) (wrap64 (0 + 1)))] ∧
    6 * (segmentPressure (wrap64 (0 + 1)) : ℚ) = 3 / 1024 ∧
    (segmentStyle (fun x : ℚ => x) (wrap64 (0 + 1))).width = 3 / 1024 ∧
    (segmentStyle (fun x : ℚ => x) (wrap64 (0 + 1))).swidth = 0 ∧
    (((segmentStyle (fun x : ℚ => x) (wrap64 (0 + 1))).swidth : ℚ) / 100 ≠
      6 * (segmentPressure (wrap64 (0 + 1)) : ℚ)) ∧
    6 * (segmentPressure (wrap64 (1023 + 1024)) : ℚ) = 6141 / 1024 ∧
    (segmentStyle (fun x : ℚ => x) (wrap64 (1023 + 1024))).swidth = 600 ∧
    (((segmentStyle (fun x : ℚ => x) (wrap64 (1023 + 1024))).swidth : ℚ) / 100 ≠
      6 * (segmentPressure (wrap64 (1023 + 1024)) : ℚ)) := by
  have hw1 : wrap64 (0 + 1) = 1 := by decide
  have hw2 : wrap64 (1023 + 1024) = 2047 := by decide
  have hp1 : 6 * (segmentPressure (wrap64 (0 + 1)) : ℚ) = 3 / 1024 := by
    rw [hw1, segmentPressure_eq]; norm_num
  have hp2 : 6 * (segmentPressure (wrap64 (1023 + 1024)) : ℚ) = 6141 / 1024 := by
    rw [hw2, segmentPressure_eq]; norm_num
  have hwd1 : PressureToWidthFunc (segmentPressure (wrap64 (0 + 1)) : ℚ) = 3 / 1024 := by
    rw [hw1, width_eq]; norm_num
  have hwd2 : PressureToWidthFunc (segmentPressure (wrap64 (1023 + 1024)) : ℚ) =
      6141 / 1024 := by
    rw [hw2, width_eq]; norm_num
  have hs1 : (segmentStyle (fun x : ℚ => x) (wrap64 (0 + 1))).swidth = 0 := by
    show sprintf2 (PressureToWidthFunc (segmentPressure (wrap64 (0 + 1)) : ℚ)) = _
    rw [hwd1]
    exact roundHalfEven_of_near _ 0 (by norm_num) (by norm_num)
  have hs2 : (segmentStyle (fun x : ℚ => x) (wrap64 (1023 + 1024))).swidth = 600 := by
    show sprintf2 (PressureToWidthFunc (segmentPressure (wrap64 (1023 + 1024)) : ℚ)) = _
    rw [hwd2]
    exact roundHalfEven_of_near _ 600 (by norm_num) (by norm_num)
  refine ⟨?_, hp1, hwd1, hs1, ?_, hp2, hs2, ?_⟩
  · rw [segments_cons (segmentStyle (fun x : ℚ => x)) ⟨[0, 10], [0, 5], [0, 1], [], [], 2⟩
      0 0 0 1 0 0 10 5 rfl rfl rfl rfl rfl rfl]
    rfl
  · rw [hs1, hp1]; norm_num
  · rw [hs2, hp2]; norm_num

/-- C15 counterexample: nothing clamps the pressure. Two samples 2048 give the
normalized pressure 2, the width 12 and a negative colour channel, on the line
that is drawn; two samples -1024 give the pressure -1 and the width -6. -/
theorem pressure_clamped_counterexample :
    (segmentPressure (wrap64 (2048 + 2048)) : ℝ) = 2 ∧
    ¬ ((segmentPressure (wrap64 (2048 + 2048)) : ℝ) ≤ 1) ∧
    (segments (segmentStyle Real.sqrt) ⟨[0, 10], [0, 5], [2048, 2048], [], [], 2⟩ 1 0).cmds =
      [Cmd.Line 0 0 10 5 (segmentStyle Real.sqrt (wrap64 (2048 + 2048)))] ∧
    (segmentStyle Real.sqrt (wrap64 (2048 + 2048))).width = 12 ∧
    ¬ ((segmentStyle Real.sqrt (wrap64 (2048 + 2048))).width ≤ 6) ∧
    (segmentStyle Real.sqrt (wrap64 (2048 + 2048))).red < 0 ∧
    (segmentPressure (wrap64 (-1024 + -1024)) : ℝ) = -1 ∧
    (segmentStyle Real.sqrt (wrap64 (-1024 + -1024))).width = -6 := by
  have hw : wrap64 (2048 + 2048) = 4096 := by decide
  have hw' : wrap64 (-1024 + -1024) = -2048 := by decide
  have hp : (segmentPressure (wrap64 (2048 + 2048)) : ℝ) = 2 := by
    rw [hw, segmentPressure_eq]; norm_num
  have hwd : (segmentStyle Real.sqrt (wrap64 (2048 + 2048))).width = 12 := by
    show PressureToWidthFunc (segmentPressure (wrap64 (2048 + 2048)) : ℝ) = _
    rw [hw, width_eq]; norm_num
  refine ⟨hp, ?_, ?_, hwd, ?_, ?_, ?_, ?_⟩
  · rw [hp]; norm_num
  · rw [segments_cons (segmentStyle Real.sqrt) ⟨[0, 10], [0, 5], [2048, 2048], [], [], 2⟩
      0 0 2048 2048 0 0 10 5 rfl rfl rfl rfl rfl rfl]
    rfl
  · rw [hwd]; norm_num
  · show truncToInt (PressureToColourFunc Real.sqrt
      (segmentPressure (wrap64 (2048 + 2048)) : ℝ)) < 0
    rw [hp]; exact channel_two_neg
  · rw [hw', segmentPressure_eq]; norm_num
  · show PressureToWidthFunc (segmentPressure (wrap64 (-1024 + -1024)) : ℝ) = _
    rw [hw', width_eq]; norm_num

/-- C15 as amended. For two adjacent pressure samples representable as signed
16-bit integers the normalized pressure is `(P[i] + P[i+1]) / 2048`, not
clamped: it lies in `[0, 1]` exactly when `0 ≤ P[i] + P[i+1] ≤ 2048`, and then
the width lies in `[0, 6]` and the colour channel in `[0, 254]`. -/
theorem pressure_not_clamped (p0 p1 : Int) (h0 : -32768 ≤ p0 ∧ p0 ≤ 32767)
    (h1 : -32768 ≤ p1 ∧ p1 ≤ 32767) :
    (segmentPressure (wrap64 (p0 + p1)) : ℝ) = ((p0 : ℝ) + (p1 : ℝ)) / 2048 ∧
    ((0 ≤ (segmentPressure (wrap64 (p0 + p1)) : ℝ) ∧
        (segmentPressure (wrap64 (p0 + p1)) : ℝ) ≤ 1) ↔ (0 ≤ p0 + p1 ∧ p0 + p1 ≤ 2048)) ∧
    (0 ≤ p0 + p1 → p0 + p1 ≤ 2048 →
      0 ≤ (segmentStyle Real.sqrt (wrap64 (p0 + p1))).width ∧
      (segmentStyle Real.sqrt (wrap64 (p0 + p1))).width ≤ 6 ∧
      0 ≤ (segmentStyle Real.sqrt (wrap64 (p0 + p1))).red ∧
      (segmentStyle Real.sqrt (wrap64 (p0 + p1))).red ≤ 254) := by
  rw [wrap64_of_int16 p0 p1 h0 h1]
  refine ⟨?_, segmentPressure_range (p0 + p1), ?_⟩
  · rw [segmentPressure_eq]; push_cast; rfl
  · intro ha hb
    have hr := (segmentPressure_range (K := ℝ) (p0 + p1)).2 ⟨ha, hb⟩
    have hwd := width_range (segmentPressure (p0 + p1) : ℝ) hr.1 hr.2
    have hch := channel_range (segmentPressure (p0 + p1) : ℝ) hr.2
    exact ⟨hwd.1, hwd.2, hch.1, hch.2⟩

/-- C15 witness: the samples 1500 and -200, whose sum is in range. -/
theorem pressure_not_clamped_witness :
    (-32768 ≤ (1500 : Int) ∧ (1500 : Int) ≤ 32767) ∧
    (-32768 ≤ (-200 : Int) ∧ (-200 : Int) ≤ 32767) ∧
    (segmentPressure (wrap64 (1500 + -200)) : ℝ) = (((1500 : Int) : ℝ) + ((-200 : Int) : ℝ)) / 2048 ∧
    (segmentStyle Real.sqrt (wrap64 (1500 + -200))).width ≤ 6 ∧
    (segmentStyle Real.sqrt (wrap64 (1500 + -200))).red ≤ 254 :=
  ⟨by decide, by decide,
    (pressure_not_clamped 1500 (-200) (by decide) (by decide)).1,
    ((pressure_not_clamped 1500 (-200) (by decide) (by decide)).2.2 (by decide) (by decide)).2.1,
    ((pressure_not_clamped 1500 (-200) (by decide) (by decide)).2.2 (by decide)
      (by decide)).2.2.2⟩

/-- C16. For a normalized pressure `p` in `[0, 1]` over the reals, with the
real square root: the colour channel is the truncation of `(1 - sqrt p) * 254`
(its floor, the value being nonnegative); red, green and blue are the same
value; it lies in `[0, 254]`; it is 254 at `p = 0` and 0 at `p = 1`; and it does
not increase with `p`. The style of a segment is the one of its normalized
pressure. -/
theorem colour_channel (p : ℝ) (h0 : 0 ≤ p) (h1 : p ≤ 1) :
    Real.sqrt p * Real.sqrt p = p ∧
    (styleOf Real.sqrt p).red = truncToInt ((1 - Real.sqrt p) * 254) ∧
    truncToInt ((1 - Real.sqrt p) * 254) = Int.floor ((1 - Real.sqrt p) * 254) ∧
    (styleOf Real.sqrt p).green = (styleOf Real.sqrt p).red ∧
    (styleOf Real.sqrt p).blue = (styleOf Real.sqrt p).red ∧
    0 ≤ (styleOf Real.sqrt p).red ∧ (styleOf Real.sqrt p).red ≤ 254 ∧
    (styleOf Real.sqrt 0).red = 254 ∧ (styleOf Real.sqrt 1).red = 0 ∧
    (∀ q : ℝ, p ≤ q → q ≤ 1 → (styleOf Real.sqrt q).red ≤ (styleOf Real.sqrt p).red) ∧
    (∀ sum : Int, segmentStyle Real.sqrt sum = styleOf Real.sqrt (segmentPressure sum)) := by
  have hch := channel_range p h1
  have hc := colour_range p h1
  refine ⟨Real.mul_self_sqrt h0, rfl, truncToInt_nonneg _ hc.1, rfl, rfl, hch.1, hch.2,
    channel_zero, channel_one, fun q hpq hq => channel_antitone p q hq hpq, fun _ => rfl⟩

/-- C16 witness: the pressure one quarter. -/
theorem colour_channel_witness :
    (0 : ℝ) ≤ 1 / 4 ∧ (1 / 4 : ℝ) ≤ 1 ∧
    0 ≤ (styleOf Real.sqrt (1 / 4)).red ∧ (styleOf Real.sqrt (1 / 4)).red ≤ 254 ∧
    (styleOf Real.sqrt 1).red ≤ (styleOf Real.sqrt (1 / 4)).red :=
  ⟨by norm_num, by norm_num,
    (colour_channel (1 / 4) (by norm_num) (by norm_num)).2.2.2.2.2.1,
    (colour_channel (1 / 4) (by norm_num) (by norm_num)).2.2.2.2.2.2.1,
    (colour_channel (1 / 4) (by norm_num) (by norm_num)).2.2.2.2.2.2.2.2.2.1 1
      (by norm_num) (le_refl 1)⟩

/-- C17. The position transform is computed in `int16`: for the raw pair
`(x, y)` of a position block the appended values are `wrap16 (x+5) / 8 + 1414`
and `wrap16 (2*y+5) / 8`, the division truncating toward zero. They are the
exact-integer values `(x+5)/8 + 1414` and `(2*y+5)/8` if and only if
`x ≤ 32762` and `-16386 ≤ y ≤ 16381`. -/
theorem position_block_int16 (σ : Dec) (a b0 b1 b2 b3 : Byte) (rest : Reader)
    (L : Layer) (s : Stroke) (x y : Int)
    (hr : σ.r = Ev.byte BLK_PEN_XY :: Ev.byte a :: Ev.byte b0 :: Ev.byte b1 :: Ev.byte b2 ::
      Ev.byte b3 :: rest)
    (hL : σ.c.Layers[σ.l]? = some L)
    (hs : L.Strokes[udec64 L.StrokesCount]? = some s)
    (hx : x = be16 b0 b1) (hy : y = be16 b2 b3) :
    step σ = Step.next { σ with
      c := { σ.c with Layers := σ.c.Layers.set σ.l { L with
        Strokes := L.Strokes.set (udec64 L.StrokesCount) { s with
          X := s.X ++ [Int.tdiv (wrap16 (x + 5)) 8 + 1414]
          Y := s.Y ++ [Int.tdiv (wrap16 (2 * y + 5)) 8]
          SegmentsCount := uinc64 s.SegmentsCount } } }
      head := (BLK_PEN_XY, a), data := (b0, b1, b2, b3), e := none, r := rest } ∧
    (-32768 ≤ wrap16 (x + 5) ∧ wrap16 (x + 5) ≤ 32767 ∧
      (wrap16 (x + 5) - (x + 5)) % 65536 = 0) ∧
    (-32768 ≤ wrap16 (2 * y + 5) ∧ wrap16 (2 * y + 5) ≤ 32767 ∧
      (wrap16 (2 * y + 5) - (2 * y + 5)) % 65536 = 0) ∧
    ((Int.tdiv (wrap16 (x + 5)) 8 + 1414 = Int.tdiv (x + 5) 8 + 1414 ∧
        Int.tdiv (wrap16 (2 * y + 5)) 8 = Int.tdiv (2 * y + 5) 8) ↔
      (x ≤ 32762 ∧ -16386 ≤ y ∧ y ≤ 16381)) := by
  have hxr : -32768 ≤ x ∧ x ≤ 32767 := hx ▸ be16_range b0 b1
  have hyr : -32768 ≤ y ∧ y ≤ 32767 := hy ▸ be16_range b2 b3
  refine ⟨?_, ?_, ?_, ?_⟩
  · rw [Dec.eta_r σ _ hr]
    have h := step_position σ a b0 b1 b2 b3 rest
    simp only [Block.bytes, ofBytes, List.map_cons, List.map_nil, List.cons_append,
      List.nil_append] at h
    rw [h]
    simp only [blockStep, onCurrentStroke_some _ _ _ L s hL hs, Step.withReader, Block.onStroke,
      Stroke.AddCoords]
    rw [← hx, ← hy, transformX_eq x, transformY_eq y]
  · unfold wrap16; omega
  · unfold wrap16; omega
  · rw [← transformX_eq x, ← transformY_eq y, transformX_exact_iff x hxr.1 hxr.2,
      transformY_exact_iff y hyr.1 hyr.2]

/-- C17 witness: the payload `[0x00, 0x0A, 0x00, 0x14]` (x = 10, y = 20)
appends the pair `(1415, 5)`. -/
theorem position_block_int16_witness :
    be16 0x00 0x0A = 10 ∧ be16 0x00 0x14 = 20 ∧
    step { c := ⟨[⟨"l1", [Stroke.zero], 1⟩], 1⟩, l := 0, head := (0, 0), data := (0, 0, 0, 0),
           e := none, r := ofBytes [97, 0, 0x00, 0x0A, 0x00, 0x14] } =
      Step.next { c := ⟨[⟨"l1", [⟨[1415], [5], [], [], [], 1⟩], 1⟩], 1⟩, l := 0, head := (97, 0),
                  data := (0x00, 0x0A, 0x00, 0x14), e := none, r := [] } :=
  ⟨by decide, by decide,
    (position_block_int16
      { c := ⟨[⟨"l1", [Stroke.zero], 1⟩], 1⟩, l := 0, head := (0, 0), data := (0, 0, 0, 0),
        e := none, r := ofBytes [97, 0, 0x00, 0x0A, 0x00, 0x14] }
      0 0x00 0x0A 0x00 0x14 [] ⟨"l1", [Stroke.zero], 1⟩ Stroke.zero 10 20 rfl rfl rfl
      (by decide) (by decide)).1⟩

/-- C18 as amended. On a file that the buffer of the reader holds whole (at most
`BUFLEN` bytes behind the header), written as its complete blocks `bl` followed
by the truncated block `tail` that it may end with, `ReadLayers` performs no
out-of-range index if and only if every position, pressure and tilt block has,
since the most recent layer marker before it (or since the start), a
stroke-begin block before it; the truncated block at the end counts as a data
block when its tag is one. Every byte stream has such a decomposition, the scan
`guarded` computes the property, and a data block met while the current layer
has no stroke indexes `Strokes` at `StrokesCount-1 = 2^64-1`, which is out of
range. -/
theorem no_panic_iff_guarded (bl : List Block) (tail : List Byte)
    (hbl : ∀ b ∈ bl, b.Complete) (htail : Truncated tail)
    (hfit : (blocksBytes bl ++ tail).length ≤ BUFLEN) :
    (ReadLayers (fileReader (blocksBytes bl ++ tail)) ≠ Outcome.panic ↔
      Guarded bl ∧ (tailIsData tail = true → StrokeOpen bl)) ∧
    (ReadLayers (fileReader (blocksBytes bl ++ tail)) ≠ Outcome.panic ↔
      guarded bl (tailIsData tail) = true) ∧
    (∀ bs : List Byte, ∃ bl' tail',
      bs = blocksBytes bl' ++ tail' ∧ (∀ b ∈ bl', b.Complete) ∧ Truncated tail') ∧
    (∀ (σ : Dec) (L : Layer) (b : Block) (rest : Reader), b.isData = true →
      σ.c.Layers[σ.l]? = some L → L.Strokes = [] → L.StrokesCount = 0 →
      udec64 L.StrokesCount = 18446744073709551615 ∧
      L.Strokes[udec64 L.StrokesCount]? = none ∧
      step { σ with r := ofBytes b.bytes ++ rest } = Step.panic) := by
  have hB : BUFLEN < 2 ^ 63 := by decide
  have h := no_panic_iff_guarded_buffered bl tail hbl htail (Nat.lt_of_le_of_lt hfit hB)
  rw [fileReader_of_le _ hfit]
  exact h

/-- C18 witness: a position block after a stroke-begin block is read without
an index out of range; a pressure block behind a later layer marker is not. -/
theorem no_panic_iff_guarded_witness :
    ReadLayers (fileReader (blocksBytes [Block.control 0 1, Block.position 0 0 10 0 20] ++ []))
      ≠ Outcome.panic ∧
    ¬ ReadLayers (fileReader (blocksBytes [Block.control 0 1, Block.position 0 0 10 0 20,
        Block.control 0 128] ++ [100, 0, 0])) ≠ Outcome.panic :=
  ⟨(no_panic_iff_guarded [Block.control 0 1, Block.position 0 0 10 0 20] []
      (by decide) (Or.inl rfl) (by decide)).2.1.2 (by decide),
   fun h => absurd ((no_panic_iff_guarded [Block.control 0 1, Block.position 0 0 10 0 20,
        Block.control 0 128] [100, 0, 0]
      (by decide) (Or.inr (Or.inr (Or.inr (Or.inl ⟨100, 0, [0], rfl, by decide, by decide⟩))))
      (by decide)).2.1.1 h) (by decide)⟩

/-- C18 counterexample: a file of `BUFLEN + 1` bytes that holds a stroke-end
block and blocks with tags outside the `switch`, and no position, pressure or
tilt block at all. The buffer ends between the two header bytes `42 61` of the
last block: the header read is short and the byte `0x61 = 97` is read as the tag
of a position block while the layer has no stroke, which is an index out of
range. -/
theorem no_panic_iff_guarded_counterexample :
    (∀ b ∈ Block.control 0 0 :: List.replicate 5242878 (Block.ignored 0 2) ++
        [Block.ignored 0x42 97], b.Complete ∧ b.isData = false) ∧
    Guarded (Block.control 0 0 :: List.replicate 5242878 (Block.ignored 0 2) ++
        [Block.ignored 0x42 97]) ∧
    ReadLayers (fileReader (blocksBytes
        (Block.control 0 0 :: List.replicate 5242878 (Block.ignored 0 2) ++
          [Block.ignored 0x42 97]) ++ [])) = Outcome.panic := by
  have hall : ∀ b ∈ Block.control 0 0 :: List.replicate 5242878 (Block.ignored 0 2) ++
      [Block.ignored 0x42 97], b.Complete ∧ b.isData = false := by
    intro b hb
    rcases List.mem_append.1 hb with h | h
    · rcases List.mem_cons.1 h with h | h
      · rw [h]; exact ⟨trivial, rfl⟩
      · rw [List.eq_of_mem_replicate h]; exact ⟨by decide, rfl⟩
    · rw [List.mem_singleton.1 h]; exact ⟨by decide, rfl⟩
  refine ⟨hall, Guarded_of_no_data _ (fun b hb => (hall b hb).2), ?_⟩
  rw [List.append_nil, blocksBytes_append,
    show blocksBytes [Block.ignored 0x42 97] = [0x42] ++ 97 :: [] from rfl,
    ReadLayers_at_boundary 0 5242877 [0x42] 97 [] (by decide) (by decide)]
  decide

/-- C19. Every iteration of the block loop either meets the end of the stream
on its header read and leaves the loop, or stops on an index out of range, or
takes at least one event from the reader. So the loop ends within
`length + 1` iterations, and `ReadLayers` always ends. -/
theorem ReadLayers_terminates (σ : Dec) (r : Reader) (bs : List Byte) :
    (∀ c e, step σ = Step.done c e → σ.r = [] ∧ c = σ.c ∧ e = some IOErr.EOF) ∧
    (σ.r = [] → step σ = Step.done σ.c (some IOErr.EOF)) ∧
    (∀ σ', step σ = Step.next σ' → σ'.r.length < σ.r.length) ∧
    (∃ k, k ≤ σ.r.length + 1 ∧ ∀ σ', iter k σ ≠ Step.next σ') ∧
    loop (σ.r.length + 1) σ ≠ Outcome.timeout ∧
    ReadLayers r ≠ Outcome.timeout ∧
    (ReadLayers (ofBytes bs) = Outcome.panic ∨
      ∃ c, ReadLayers (ofBytes bs) = Outcome.ret c (some IOErr.EOF)) ∧
    (∃ k, k ≤ bs.length + 1 ∧ ∀ σ', iter k { init0 with r := ofBytes bs } ≠ Step.next σ') := by
  have hiter : ∀ (n : Nat) (τ : Dec), τ.r.length ≤ n →
      ∃ k, k ≤ τ.r.length + 1 ∧ ∀ σ', iter k τ ≠ Step.next σ' := by
    intro n
    induction n with
    | zero =>
      intro τ hτ
      refine ⟨1, by omega, fun σ' h => ?_⟩
      have h0 : τ.r = [] := List.length_eq_zero.mp (Nat.le_zero.mp hτ)
      simp only [iter, step_nil τ h0] at h
      cases h
    | succ n ih =>
      intro τ hτ
      cases hs : step τ with
      | next τ' =>
        have hlt := step_length_lt τ τ' hs
        obtain ⟨k, hk, hk'⟩ := ih τ' (by omega)
        refine ⟨k + 1, by omega, fun σ' h => ?_⟩
        simp only [iter, hs] at h
        exact hk' σ' h
      | done c e =>
        refine ⟨1, by omega, fun σ' h => ?_⟩
        simp only [iter, hs] at h
        cases h
      | panic =>
        refine ⟨1, by omega, fun σ' h => ?_⟩
        simp only [iter, hs] at h
        cases h
  refine ⟨?_, step_nil σ, step_length_lt σ, hiter _ σ (Nat.le_refl _),
    loop_ne_timeout _ σ (Nat.lt_succ_self _), ?_, ReadLayers_total _, ?_⟩
  · intro c e h
    cases hr : σ.r with
    | nil =>
      rw [step_nil σ hr] at h
      injection h with h1 h2
      exact ⟨rfl, h1.symm, h2.symm⟩
    | cons ev r' =>
      exfalso
      simp only [step] at h
      split_ifs at h with he
      · rw [hr] at he
        cases ev <;> simp [Read] at he
      · exact body_ne_done _ _ _ h
  · rcases ReadLayers_total r with h | ⟨c, h⟩ <;> rw [h] <;> simp
  · have := hiter _ { init0 with r := ofBytes bs } (Nat.le_refl _)
    simpa [ofBytes] using this

/-- C20. The length of the payload of a reserved block is `head[1] - 2` in
`uint8`, that is `(a - 2) mod 256`: `254` for `a = 0` and `255` for `a = 1`.
The block takes that many of the bytes that follow its header, or all of them
when there are fewer. -/
theorem reserved_skip_length (σ : Dec) (t a : Byte) (rest : List Byte) (ht : isReserved t) :
    (usub8_2 a : Int) = ((a.val : Int) - 2) % 256 ∧
    usub8_2 0 = 254 ∧ usub8_2 1 = 255 ∧
    step { σ with r := ofBytes (t :: a :: rest) } =
      Step.next { σ with
        head := (t, a)
        e := if usub8_2 a = 0 ∨ rest ≠ [] then none else some IOErr.EOF
        r := ofBytes (rest.drop (usub8_2 a)) } ∧
    rest.length - (rest.drop (usub8_2 a)).length = min (usub8_2 a) rest.length := by
  refine ⟨usub8_2_eq a, by decide, by decide, ?_, ?_⟩
  · obtain ⟨h1, h2, h3, h4⟩ := isReserved_ne t ht
    have ht' : t = BLK_UNKNOWN_1 ∨ t = BLK_UNKNOWN_2 ∨ t = BLK_UNKNOWN_3 := ht
    have hs := step_two σ t a (ofBytes rest)
    simp only [ofBytes, List.map_cons] at hs ⊢
    rw [hs]
    have hr := Read_bytes (usub8_2 a) rest
    simp only [ofBytes] at hr
    simp only [body, h1, h2, h3, h4, ht', hr, if_true, if_false]
  · simp only [List.length_drop]
    omega

/-- C20 witness: a reserved block with `a = 0` in front of 300 bytes takes 254
of them, and in front of 3 bytes takes the 3. -/
theorem reserved_skip_length_witness :
    isReserved 197 ∧
    step { init0 with r := ofBytes (197 :: 0 :: List.replicate 300 7) } =
      Step.next { init0 with head := (197, 0), r := ofBytes (List.replicate 46 7) } ∧
    step { init0 with r := ofBytes [197, 0, 7, 7, 7] } =
      Step.next { init0 with head := (197, 0), r := [] } :=
  ⟨by decide,
    (reserved_skip_length init0 197 0 (List.replicate 300 7) (by decide)).2.2.2.1.trans
      (by decide),
    (reserved_skip_length init0 197 0 [7, 7, 7] (by decide)).2.2.2.1.trans (by decide)⟩

end Wpi2svg
